import Mathlib

/-!
Verification of the NewsCollector multi-scope aggregation and deduplicated
persistence engine, shallowly embedded from the Python sources
(`newscollector/utils/storage.py`, `newscollector/utils/ai.py`,
`newscollector/collector.py`).

Conventions of the embedding:
* Python strings are Lean `String`; character-level work happens on `List Char`.
* Python `None` becomes `Option.none`; falsy-or-empty string handling mirrors
  each call site (`x or ""` becomes `Option.getD x ""`).
* The PostgreSQL store is a pure value (a list of rows) threaded through the
  storage functions; `ON CONFLICT` clauses become explicit lookups.
* External collaborators (the AI completion endpoint) are oracles passed as
  arguments; every other definition is translated from the repository code.
-/

namespace NewsCollector

/-- Unicode whitespace as recognised by Python `str.strip`, `str.isspace` and
the regex class `\s` (the code points for which `str.isspace()` is true). -/
def pyIsSpace (c : Char) : Bool :=
  c.val == 9 || c.val == 10 || c.val == 11 || c.val == 12 || c.val == 13 ||
  c.val == 28 || c.val == 29 || c.val == 30 || c.val == 31 || c.val == 32 ||
  c.val == 133 || c.val == 160 || c.val == 5760 ||
  (8192 ≤ c.val && c.val ≤ 8202) ||
  c.val == 8232 || c.val == 8233 || c.val == 8239 || c.val == 8287 ||
  c.val == 12288

/-- Python `str.strip()` on a character list: drop whitespace from both ends. -/
def pyStrip (l : List Char) : List Char :=
  ((l.dropWhile pyIsSpace).reverse.dropWhile pyIsSpace).reverse

/-- Python `str.strip()`. -/
def pyStripStr (s : String) : String :=
  ⟨pyStrip s.data⟩

/-- Python `str.lower()` restricted to ASCII case mapping (`Char.toLower`);
the repository only lowercases scheme/host/source/title strings, and the
theorems below quantify over this mapping. -/
def pyLower (c : Char) : Char := c.toLower

/-- Python `str.lower()` on a character list. -/
def pyLowerList (l : List Char) : List Char := l.map pyLower

/-- Python `str.lower()`. -/
def pyLowerStr (s : String) : String := ⟨pyLowerList s.data⟩

/-- Helper of `collapseWs`: the flag records whether the scan is inside a
whitespace run whose replacement space has already been emitted. -/
def collapseWsAux : Bool → List Char → List Char
  | _, [] => []
  | inRun, c :: cs =>
    if pyIsSpace c then
      if inRun then collapseWsAux true cs else ' ' :: collapseWsAux true cs
    else c :: collapseWsAux false cs

/-- `re.sub(r"\s+", " ", s)`: replace every maximal whitespace run by a single
space. -/
def collapseWs (l : List Char) : List Char := collapseWsAux false l

/-- `re.sub(r"\s+", " ", s)` on strings. -/
def collapseWsStr (s : String) : String := ⟨collapseWs s.data⟩

/-! ## urllib.parse model

`storage._normalize_url` calls `urlparse` / `urlunparse` from the Python
standard library; the relevant behaviour of those functions is embedded here
(CPython's `urllib.parse`, generic syntax only: bracketed IPv6 hosts are
treated as parse failures instead of running `_check_bracketed_host`; all
URL theorems below assume bracket-free hosts). -/

/-- Split a character list at the first occurrence of `c`.
Returns the prefix and, when `c` occurs, the remainder after it. -/
def splitAtFirst (c : Char) : List Char → List Char × Option (List Char)
  | [] => ([], none)
  | x :: xs =>
    if x = c then ([], some xs)
    else
      let r := splitAtFirst c xs
      (x :: r.1, r.2)

/-- Characters allowed in a URL scheme after the first (`scheme_chars`). -/
def schemeChar (c : Char) : Bool :=
  c.isAlpha || c.isDigit || c == '+' || c == '-' || c == '.'

/-- WHATWG C0-control-or-space characters, stripped from both ends of a URL
by `urlsplit`. -/
def c0ControlOrSpace (c : Char) : Bool := c.val ≤ 32

/-- Unsafe URL bytes removed everywhere by `urlsplit` (`"\t\r\n"`). -/
def unsafeUrlByte (c : Char) : Bool := c == '\t' || c == '\r' || c == '\n'

/-- Scheme extraction of `urlsplit`: if there is a `:` preceded by a non-empty
run of scheme characters starting with an ASCII letter, split off the
lowercased scheme. Returns `(scheme, rest)`. -/
def splitScheme (l : List Char) : List Char × List Char :=
  match splitAtFirst ':' l with
  | (pre, some rest) =>
    if pre ≠ [] && (pre.headD ' ').isAlpha then
      if pre.all schemeChar then (pyLowerList pre, rest) else ([], l)
    else ([], l)
  | (_, none) => ([], l)

/-- Netloc delimiters: a netloc extends to the first `/`, `?` or `#`. -/
def netlocDelim (c : Char) : Bool := c == '/' || c == '?' || c == '#'

/-- `_splitnetloc`: when the remainder starts with `//`, split off the netloc.
Returns `(netloc, rest)`. -/
def splitNetloc (l : List Char) : List Char × List Char :=
  match l with
  | '/' :: '/' :: m => (m.takeWhile (fun c => !netlocDelim c),
                        m.dropWhile (fun c => !netlocDelim c))
  | _ => ([], l)

/-- The bracket sanity check `urlsplit` performs on a netloc; bracketed (IPv6)
hosts are conservatively rejected rather than validated. -/
def netlocBracketsOk (netloc : List Char) : Bool :=
  !netloc.contains '[' && !netloc.contains ']'

/-- The result of `urlsplit` extended with the params component split off by
`urlparse`. -/
structure ParseResult where
  scheme : List Char
  netloc : List Char
  path : List Char
  params : List Char
  query : List Char
  fragment : List Char
deriving Repr, DecidableEq

/-- `_splitparams`: split `;params` from the last path segment.  The `;` is
searched only in the segment after the last `/` (or anywhere when the path has
no `/`). -/
def splitParams (u : List Char) : List Char × List Char :=
  if u.contains '/' then
    -- decompose at the last '/': u = beforeSlash ++ '/' :: lastSeg
    let rev := u.reverse
    let pre := rev.takeWhile (fun c => c ≠ '/')
    let suf := rev.dropWhile (fun c => c ≠ '/')
    let lastSeg := pre.reverse
    let beforeSlash := suf.reverse  -- ends with '/'
    match splitAtFirst ';' lastSeg with
    | (segPre, some segPost) => (beforeSlash ++ segPre, segPost)
    | (_, none) => (u, [])
  else
    match splitAtFirst ';' u with
    | (pre, some post) => (pre, post)
    | (_, none) => (u, [])

/-- Schemes for which `urlparse` splits params (`uses_params`, non-empty
entries; the empty scheme also uses params). -/
def usesParams : List (List Char) :=
  [[], ['f','t','p'], ['h','d','l'], ['p','r','o','s','p','e','r','o'],
   ['h','t','t','p'], ['i','m','a','p'], ['h','t','t','p','s'],
   ['s','h','t','t','p'], ['r','t','s','p'], ['r','t','s','p','s'],
   ['r','t','s','p','u'], ['s','i','p'], ['s','i','p','s'],
   ['m','m','s'], ['s','f','t','p'], ['t','e','l']]

/-- `urlparse(url)` (with `allow_fragments=True`): strip C0 controls/space,
remove unsafe bytes, split scheme, netloc, fragment, query and params in the
order CPython does. `none` models a raised `ValueError`. -/
def urlparseModel (l : List Char) : Option ParseResult :=
  let l0 := ((l.dropWhile c0ControlOrSpace).reverse.dropWhile
      c0ControlOrSpace).reverse
  let l1 := l0.filter (fun c => !unsafeUrlByte c)
  let (scheme, r1) := splitScheme l1
  let (netloc, r2) := splitNetloc r1
  if netlocBracketsOk netloc then
    let (r3, fragment) :=
      match splitAtFirst '#' r2 with
      | (a, some b) => (a, b)
      | (a, none) => (a, [])
    let (r4, query) :=
      match splitAtFirst '?' r3 with
      | (a, some b) => (a, b)
      | (a, none) => (a, [])
    let (path, params) :=
      if usesParams.contains scheme && r4.contains ';' then splitParams r4
      else (r4, [])
    some ⟨scheme, netloc, path, params, query, fragment⟩
  else
    none

/-- `urlunsplit` composed with the params re-join of `urlunparse`, for a
result whose fragment has been replaced by the empty string (as
`_normalize_url` does). -/
def urlunparseNoFrag (p : ParseResult) : List Char :=
  let url0 := if p.params ≠ [] then p.path ++ ';' :: p.params else p.path
  let url1 :=
    if p.netloc ≠ [] || (url0 ≠ [] && url0.take 2 = ['/', '/']) then
      let u := if url0 ≠ [] && url0.take 1 ≠ ['/'] then '/' :: url0 else url0
      '/' :: '/' :: (p.netloc ++ u)
    else url0
  let url2 := if p.scheme ≠ [] then p.scheme ++ ':' :: url1 else url1
  if p.query ≠ [] then url2 ++ '?' :: p.query else url2

/-- `storage._normalize_url`: normalize a URL for deduplication — strip the
fragment, lowercase the host, keep scheme/path/params/query.  Empty or
whitespace-only input, a parse error, or an empty normalized result give
`none`. -/
def normalize_url (url : Option String) : Option String :=
  match url with
  | none => none
  | some u =>
    if pyStrip u.data = [] then none
    else
      match urlparseModel (pyStrip u.data) with
      | none => none
      | some p =>
        let netloc := if p.netloc ≠ [] then pyLowerList p.netloc else []
        let normalized := urlunparseNoFrag { p with netloc := netloc }
        if pyStrip normalized = [] then none else some ⟨normalized⟩

/-- A collected item payload: the keys of the Python item dict that the
storage and collector code reads.  `none` models both a missing key and an
explicit `None` value (the code reads every key with `.get`). -/
structure ItemDict where
  url : Option String := none
  source : Option String := none
  title : Option String := none
  platform : Option String := none
  region : Option String := none
  rank : Option Int := none
  description : Option String := none
  summary : Option String := none
  heat : Option Int := none
  labels : List String := []
deriving Repr, DecidableEq, Inhabited

/-- The identity tuple returned by `storage._item_identity` (the two tuple
shapes become one inductive). -/
inductive ItemIdentity where
  | url (normalized : String)
  | title (platform source title : String)
deriving Repr, DecidableEq

/-- `storage._item_identity`: a stable identity tuple for deduplication.
Note the source string is stripped but not lowercased here. -/
def item_identity (item : ItemDict) : ItemIdentity :=
  match normalize_url item.url with
  | some u => .url u
  | none =>
    let platform := pyStripStr (item.platform.getD "")
    let source := pyStripStr (item.source.getD "")
    let title := collapseWsStr ⟨pyLowerList (pyStrip ((item.title.getD "").data))⟩
    .title platform source title

/-- `storage._identity_for_row`: `(identity_type, identity_value,
normalized_url)` for the stored row.  Here the source is stripped and
lowercased, and the identity value is `source|title`. -/
def identity_for_row (item : ItemDict) : String × String × Option String :=
  match normalize_url item.url with
  | some u => ("url", u, some u)
  | none =>
    let source : String := ⟨pyLowerList (pyStrip ((item.source.getD "").data))⟩
    let title : String :=
      collapseWsStr ⟨pyLowerList (pyStrip ((item.title.getD "").data))⟩
    ("title", source ++ "|" ++ title, none)

/-! ## Persistence: `collected_items` and `save_item` -/

/-- A row of the `collected_items` table (the columns `save_item` inserts;
`metadata` and `collected_at` carry no dedup semantics and are omitted). -/
structure CollectedRow where
  platform : String
  region : Option String
  date : String
  url : Option String
  normalized_url : Option String
  source : Option String
  title : Option String
  rank : Option Int
  description : Option String
  summary : Option String
  heat : Option Int
  labels : List String
  identity_type : String
  identity_value : String
deriving Repr, DecidableEq

/-- The uniqueness-constraint key `(date, platform, identity_type,
identity_value)` of `collected_items`. -/
def rowKeyMatches (r : CollectedRow) (date platform identity_type
    identity_value : String) : Bool :=
  r.date == date && r.platform == platform &&
  r.identity_type == identity_type && r.identity_value == identity_value

/-- `storage.save_item`: insert one item under the uniqueness constraint on
`(date, platform, identity_type, identity_value)`; a conflicting insert is a
no-op (`ON CONFLICT DO NOTHING`) reported as `false`.  `item? = none` models
the falsy empty dict (`if not item: return False`); `today` stands for the
wall-clock date used when no `date` argument is given. -/
def save_item (item? : Option ItemDict) (platform : String)
    (region : Option String) (date? : Option String) (today : String)
    (db : List CollectedRow) : Bool × List CollectedRow :=
  match item? with
  | none => (false, db)
  | some item =>
    let date_str := date?.getD today
    let idrow := identity_for_row item
    let identity_type := idrow.1
    let identity_value := idrow.2.1
    let normalized_url := idrow.2.2
    if db.any (fun r =>
        rowKeyMatches r date_str platform identity_type identity_value) then
      (false, db)
    else
      (true, db ++ [{ platform := platform, region := region, date := date_str,
                      url := item.url, normalized_url := normalized_url,
                      source := item.source, title := item.title,
                      rank := item.rank, description := item.description,
                      summary := item.summary, heat := item.heat,
                      labels := item.labels, identity_type := identity_type,
                      identity_value := identity_value }])

/-! ## Scope partitioner (`collector._scope_key`,
`collector._build_scopes_from_items`) -/

/-- Python truthiness of an optional string (`None` and `""` are falsy). -/
def truthy (o : Option String) : Bool := o.getD "" ≠ ""

/-- `collector._scope_key`. -/
def scope_key (platform region : Option String) : String :=
  if truthy platform && truthy region then
    "platform:" ++ platform.getD "" ++ "|region:" ++ region.getD ""
  else if truthy platform then "platform:" ++ platform.getD ""
  else if truthy region then "region:" ++ region.getD ""
  else "all"

/-- One scope's data (`{"platform": ..., "region": ..., "items": ...}`). -/
structure ScopeData where
  platform : Option String
  region : Option String
  items : List ItemDict
deriving Repr, DecidableEq

/-- `dict.setdefault(k, []).append(v)` on an insertion-ordered association
list: append `v` to the existing entry for `k`, or add a new entry at the
end. -/
def alistAppend {β : Type} (m : List (String × List β)) (k : String)
    (v : β) : List (String × List β) :=
  match m with
  | [] => [(k, [v])]
  | (k₀, vs) :: rest =>
    if k₀ = k then (k₀, vs ++ [v]) :: rest
    else (k₀, vs) :: alistAppend rest k v

/-- `d[k] = v` on an insertion-ordered association list: overwrite the
existing entry in place, or add a new entry at the end. -/
def alistSet {β : Type} (m : List (String × β)) (k : String) (v : β) :
    List (String × β) :=
  match m with
  | [] => [(k, v)]
  | (k₀, v₀) :: rest =>
    if k₀ = k then (k₀, v) :: rest
    else (k₀, v₀) :: alistSet rest k v

/-- The stripped platform string the scope builder reads from an item
(`str(item_dict.get("platform") or "").strip()`). -/
def scopePlatform (i : ItemDict) : String := pyStripStr (i.platform.getD "")

/-- The stripped region string the scope builder reads from an item. -/
def scopeRegion (i : ItemDict) : String := pyStripStr (i.region.getD "")

/-- The accumulating state of the loop in `_build_scopes_from_items`. -/
structure ScopeAcc where
  all_items : List ItemDict
  by_platform : List (String × List ItemDict)
  by_region : List (String × List ItemDict)
  by_platform_region : List ((String × String) × List ItemDict)
deriving Repr

/-- `setdefault`-append for the `(platform, region)`-keyed map. -/
def prAppend (m : List ((String × String) × List ItemDict))
    (k : String × String) (v : ItemDict) :
    List ((String × String) × List ItemDict) :=
  match m with
  | [] => [(k, [v])]
  | (k₀, vs) :: rest =>
    if k₀ = k then (k₀, vs ++ [v]) :: rest
    else (k₀, vs) :: prAppend rest k v

/-- One iteration of the item loop of `_build_scopes_from_items`. -/
def scopeStep (acc : ScopeAcc) (i : ItemDict) : ScopeAcc :=
  let platform := scopePlatform i
  let region := scopeRegion i
  { all_items := acc.all_items ++ [i]
    by_platform :=
      if platform ≠ "" then alistAppend acc.by_platform platform i
      else acc.by_platform
    by_region :=
      if region ≠ "" then alistAppend acc.by_region region i
      else acc.by_region
    by_platform_region :=
      if platform ≠ "" && region ≠ "" then
        prAppend acc.by_platform_region (platform, region) i
      else acc.by_platform_region }

/-- `collector._build_scopes_from_items`: partition a day's items into the
`all` / platform / region / platform+region analysis scopes.  The scopes are
assembled into an insertion-ordered dict (`alistSet`, so a key collision
between scope keys overwrites the earlier entry, as Python dict assignment
does). -/
def build_scopes_from_items (items : List ItemDict) :
    List (String × ScopeData) :=
  let acc := items.foldl scopeStep ⟨[], [], [], []⟩
  let scopes : List (String × ScopeData) :=
    if acc.all_items ≠ [] then
      [("all", ⟨none, none, acc.all_items⟩)]
    else []
  let scopes := acc.by_platform.foldl
    (fun s kv => alistSet s (scope_key (some kv.1) none)
      ⟨some kv.1, none, kv.2⟩) scopes
  let scopes := acc.by_region.foldl
    (fun s kv => alistSet s (scope_key none (some kv.1))
      ⟨none, some kv.1, kv.2⟩) scopes
  acc.by_platform_region.foldl
    (fun s kv => alistSet s (scope_key (some kv.1.1) (some kv.1.2))
      ⟨some kv.1.1, some kv.1.2, kv.2⟩) scopes

/-- A concrete item with both platform and region set, for evaluating the
scope partitioner on a uniform batch. -/
def wItemPR : ItemDict :=
  { title := some "t", platform := some "p", region := some "r" }

/-- A concrete item with only its platform set. -/
def wItemP : ItemDict := { title := some "u", platform := some "q" }

/-! ## Verdict engine (`utils/ai.py`)

The AI completion endpoint is an external collaborator; it enters the
embedding as an oracle.  The string-level stages of response handling
(`_first_choice_content`, `_extract_json_text` code-fence stripping,
`json.loads`) are summarised by handing each attempt the decoded JSON object
(`none` = empty content or a JSON decode failure). -/

/-- A decoded JSON value, restricted to the shapes the verdict parser
distinguishes (floats, arrays and nested objects are outside the embedding;
`_clamp_score` treats the latter two like `None`). -/
inductive JVal where
  | null
  | bool (b : Bool)
  | int (n : Int)
  | str (s : String)
deriving Repr, DecidableEq

/-- A decoded JSON object: key/value pairs with distinct keys. -/
def JsonObj := List (String × JVal)

/-- Dict lookup (`parsed.get(k)`, `None` when absent). -/
def jsonLookup (o : JsonObj) (k : String) : Option JVal :=
  (o.find? (fun kv => kv.1 == k)).map (fun kv => kv.2)

/-- Python `str(v)` on a decoded JSON value. -/
def pyStrOfJVal : JVal → String
  | .null => "None"
  | .bool b => if b then "True" else "False"
  | .int n => toString n
  | .str s => s

/-- Digit tail of Python `int(str)`: digits with single underscores allowed
between digits. -/
def pyIntDigits : List Char → Nat → Option Nat
  | [], acc => some acc
  | '_' :: c :: rest, acc =>
    if c.isDigit then pyIntDigits rest (acc * 10 + (c.toNat - 48)) else none
  | ['_'], _ => none
  | c :: rest, acc =>
    if c.isDigit then pyIntDigits rest (acc * 10 + (c.toNat - 48)) else none

/-- Python `int(str)`: strip whitespace, optional sign, ASCII digits with
underscore separators (non-ASCII digits are outside the embedding). -/
def pyIntOfStr (s : String) : Option Int :=
  let firstDigits : List Char → Option Nat := fun l =>
    match l with
    | [] => none
    | c :: rest =>
      if c.isDigit then pyIntDigits rest (c.toNat - 48) else none
  match pyStrip s.data with
  | '+' :: rest => (firstDigits rest).map Int.ofNat
  | '-' :: rest => (firstDigits rest).map (fun n => -(n : Int))
  | rest => (firstDigits rest).map Int.ofNat

/-- Python `int(value)` on an optional JSON value: `None`/missing raises
`TypeError` (→ `none`); bool/int convert; strings parse. -/
def pyInt : Option JVal → Option Int
  | none => none
  | some .null => none
  | some (.bool b) => some (if b then 1 else 0)
  | some (.int n) => some n
  | some (.str s) => pyIntOfStr s

/-- `ai._clamp_score`: convert to `int` and clamp into `[0, 100]`; `none`
only when the conversion itself fails. -/
def clamp_score (value : Option JVal) : Option Int :=
  (pyInt value).map (fun score => max 0 (min 100 score))

/-- A successfully parsed verdict: summary plus the four scores
(`_parse_verdict_response`'s result dict always carries all five keys). -/
structure VerdictResult where
  summary : String
  global_political_score : Int
  global_economic_score : Int
  domestic_political_score : Int
  domestic_economic_score : Int
deriving Repr, DecidableEq

instance : Inhabited VerdictResult := ⟨⟨"", 0, 0, 0, 0⟩⟩

/-- The summary field validation of `ai._parse_verdict_response`
(`str(summary).strip() or None`, with JSON `null` and a missing key both
giving `None`). -/
def parseSummaryField (parsed : JsonObj) : Option String :=
  match jsonLookup parsed "summary" with
  | none => none
  | some .null => none
  | some v =>
    let s := pyStripStr (pyStrOfJVal v)
    if s = "" then none else some s

/-- `ai._parse_verdict_response` from the decoded JSON object onward
(`decoded = none` covers empty content and JSON decode failure): validate the
summary and clamp the four scores; any missing field invalidates the whole
response. -/
def parse_verdict_response (decoded : Option JsonObj) : Option VerdictResult :=
  match decoded with
  | none => none
  | some parsed =>
    let summary : Option String := parseSummaryField parsed
    let gps := clamp_score (jsonLookup parsed "global_political_score")
    let ges := clamp_score (jsonLookup parsed "global_economic_score")
    let dps := clamp_score (jsonLookup parsed "domestic_political_score")
    let des := clamp_score (jsonLookup parsed "domestic_economic_score")
    match summary, gps, ges, dps, des with
    | some s, some a, some b, some c, some d => some ⟨s, a, b, c, d⟩
    | _, _, _, _, _ => none

/-- One attempt of the AI endpoint as `_call_verdict_api` sees it. -/
inductive ApiAttempt where
  | transportError
  | response (decoded : Option JsonObj)

/-- The retry loop of `ai._call_verdict_api`, from attempt number `attempt`
with `fuel` attempts remaining: a transport error returns `none` immediately;
a parse failure retries with the same prompt. -/
def call_verdict_api_from (attempts : Nat → ApiAttempt) :
    Nat → Nat → Option VerdictResult
  | _, 0 => none
  | attempt, fuel + 1 =>
    match attempts attempt with
    | .transportError => none
    | .response decoded =>
      match parse_verdict_response decoded with
      | some result => some result
      | none => call_verdict_api_from attempts (attempt + 1) fuel

/-- `ai._call_verdict_api` with `ai_json_number_retry = retry`. -/
def call_verdict_api (attempts : Nat → ApiAttempt) (retry : Nat) :
    Option VerdictResult :=
  call_verdict_api_from attempts 0 retry

/-- `x or y or ""` read of two optional strings (Python `or` chain of
falsy values). -/
def pyOrStr (a b : Option String) : String :=
  if truthy a then a.getD "" else if truthy b then b.getD "" else ""

/-- The per-item snippet list of `ai._format_items_for_verdict`, numbering
items from `idx`. -/
def formatItemsSnippets : Nat → List ItemDict → List String
  | _, [] => []
  | idx, item :: rest =>
    let title := pyStripStr (item.title.getD "")
    let summary := pyStripStr (pyOrStr item.summary item.description)
    let source := pyStripStr (item.source.getD "")
    let platform := pyStripStr (item.platform.getD "")
    let region := pyStripStr (item.region.getD "")
    let fragments := [toString idx ++ ". " ++ title]
    let fragments :=
      if summary ≠ "" then fragments ++ ["Summary: " ++ summary]
      else fragments
    let fragments :=
      if source ≠ "" || platform ≠ "" || region ≠ "" then
        fragments ++ ["Meta: source=" ++ (if source ≠ "" then source else "unknown")
          ++ ", platform=" ++ (if platform ≠ "" then platform else "unknown")
          ++ ", region=" ++ (if region ≠ "" then region else "unknown")]
      else fragments
    String.intercalate "\n" fragments :: formatItemsSnippets (idx + 1) rest

/-- `ai._format_items_for_verdict`. -/
def format_items_for_verdict (items : List ItemDict) (start_idx : Nat := 1) :
    String :=
  let snippets := formatItemsSnippets start_idx items
  if snippets = [] then "(no items)" else String.intercalate "\n\n" snippets

/-- The language instruction prefix shared by the two verdict prompts. -/
def langInstruction (response_language : Option String) : String :=
  if truthy response_language && pyStripStr (response_language.getD "") ≠ "" then
    "Write the daily summary in " ++ pyStripStr (response_language.getD "")
      ++ ".\n\n"
  else ""

/-- The fixed scoring rules / score definitions block shared by both verdict
prompts. -/
def scoringRulesBlock : String :=
  "Scoring rules:\n" ++
  "- 0 means severe instability/crisis, 100 means very stable/healthy conditions.\n" ++
  "- Scores must be integers between 0 and 100.\n"

/-- The JSON template block of the verdict prompts (braces written as
escapes). -/
def verdictJsonTemplate (summaryLine : String) : String :=
  "Return valid JSON only with exactly these keys:\n\x7b\n  \"summary\": \""
    ++ summaryLine ++ "\",\n  \"global_political_score\": 0,\n  \"global_economic_score\": 0,\n  \"domestic_political_score\": 0,\n  \"domestic_economic_score\": 0\n\x7d\n\n"

/-- The score-definitions block shared by both verdict prompts. -/
def scoreDefinitionsBlock : String :=
  "Score definitions:\n" ++
  "- global_political_score: Reflects international/geopolitical political stability (wars, diplomacy, international conflicts, global governance).\n" ++
  "- global_economic_score: Reflects international/global economic conditions (trade, global markets, international finance, commodities).\n" ++
  "- domestic_political_score: Reflects domestic/internal political stability (local government, elections, civil unrest, policy changes within countries).\n" ++
  "- domestic_economic_score: Reflects domestic/local economic conditions (employment, local markets, inflation, business conditions within countries).\n\n"

/-- `ai._build_daily_verdict_prompt`. -/
def build_daily_verdict_prompt (items : List ItemDict)
    (response_language : Option String) (max_items : Nat) : String :=
  let content := format_items_for_verdict (items.take max_items)
  "You are analyzing news signals for one day.\n"
    ++ "Use only the provided items and avoid certainty. Keep the tone neutral and concise.\n\n"
    ++ verdictJsonTemplate "2-4 short sentences about the day overall."
    ++ scoringRulesBlock
    ++ "- Base scores on the balance and severity of evidence in the provided items.\n\n"
    ++ scoreDefinitionsBlock
    ++ langInstruction response_language ++ "Items:\n" ++ content

/-- `ai._build_daily_verdict_continuation_prompt`: the continuation prompt
carries the previous verdict's summary and all four scores, plus only the new
chunk's items numbered from `items_processed + 1`. -/
def build_daily_verdict_continuation_prompt (items : List ItemDict)
    (previous_verdict : VerdictResult) (chunk_number total_chunks
    items_processed : Nat) (response_language : Option String) : String :=
  let content := format_items_for_verdict items (items_processed + 1)
  "You are continuing to analyze news signals for one day.\n"
    ++ "This is batch " ++ toString chunk_number ++ " of "
    ++ toString total_chunks ++ ". You have already analyzed "
    ++ toString items_processed ++ " items.\n\n"
    ++ "Previous verdict based on items 1-" ++ toString items_processed
    ++ ":\n- Summary: " ++ previous_verdict.summary
    ++ "\n- Global Political Score: "
    ++ toString previous_verdict.global_political_score
    ++ "\n- Global Economic Score: "
    ++ toString previous_verdict.global_economic_score
    ++ "\n- Domestic Political Score: "
    ++ toString previous_verdict.domestic_political_score
    ++ "\n- Domestic Economic Score: "
    ++ toString previous_verdict.domestic_economic_score
    ++ "\n\nNow analyze the following additional items and UPDATE the verdict by combining insights from both the previous analysis and these new items.\n"
    ++ "Use only the provided items and avoid certainty. Keep the tone neutral and concise.\n\n"
    ++ verdictJsonTemplate
      "2-4 short sentences about the day overall (incorporating all items analyzed so far)."
    ++ scoringRulesBlock
    ++ "- Base scores on the balance and severity of evidence in ALL items analyzed (previous + new).\n\n"
    ++ scoreDefinitionsBlock
    ++ langInstruction response_language
    ++ "Additional items (" ++ toString (items_processed + 1) ++ "-"
    ++ toString (items_processed + items.length) ++ "):\n" ++ content

/-- The chunk loop of `ai.generate_daily_verdict`.  `attemptsFor n` is the
attempt stream handed to the `n`-th `_call_verdict_api` invocation; the
returned list records the prompts of those invocations in order.
`items_processed` tracks `chunk_end` (it equals
`items_processed + chunk_items.length` because chunks are consecutive).
The `cur.getD default` in the continuation branch is unreachable for
`n ≠ 0`: chunk 0 either sets the current verdict or returns early. -/
def verdictChunkLoop (items : List ItemDict)
    (response_language : Option String) (max_items retry total_chunks : Nat)
    (attemptsFor : Nat → Nat → ApiAttempt) :
    List Nat → Option VerdictResult → Nat → List String →
    Option VerdictResult × List String
  | [], cur, _, trace => (cur, trace)
  | n :: rest, cur, items_processed, trace =>
    let chunk_items := (items.drop (n * max_items)).take max_items
    let prompt :=
      if n = 0 then
        build_daily_verdict_prompt chunk_items response_language max_items
      else
        build_daily_verdict_continuation_prompt chunk_items
          (cur.getD default) (n + 1) total_chunks items_processed
          response_language
    match call_verdict_api (attemptsFor n) retry with
    | none =>
      match cur with
      | some v => (some v, trace ++ [prompt])
      | none => (none, trace ++ [prompt])
    | some result =>
      verdictChunkLoop items response_language max_items retry total_chunks
        attemptsFor rest (some result)
        (items_processed + chunk_items.length) (trace ++ [prompt])

/-- `ai.generate_daily_verdict`: single evaluation when the items fit in
`max_items`, otherwise chunked evaluation with continuation prompts.  Returns
the final verdict (`none` = the all-`None` tuple) and the prompt trace of the
`_call_verdict_api` invocations made. -/
def generate_daily_verdict (items : List ItemDict)
    (response_language : Option String) (max_items retry : Nat)
    (attemptsFor : Nat → Nat → ApiAttempt) :
    Option VerdictResult × List String :=
  if items = [] then (none, [])
  else
    let total_items := items.length
    if total_items ≤ max_items then
      let prompt := build_daily_verdict_prompt items response_language max_items
      (call_verdict_api (attemptsFor 0) retry, [prompt])
    else
      let total_chunks := (total_items + max_items - 1) / max_items
      verdictChunkLoop items response_language max_items retry total_chunks
        attemptsFor (List.range total_chunks) none 0 []

/-! ## Daily verdicts: model, persistence, and the per-scope generation loop
(`models.DailyVerdict`, `storage.save_daily_verdict`,
`collector.generate_verdicts_from_items`) -/

/-- `models.DailyVerdict` (without the wall-clock `generated_at`). -/
structure DailyVerdict where
  scope_key : String
  date : String
  platform : Option String
  region : Option String
  summary : String
  political_score : Option Int
  economic_score : Option Int
  domestic_political_score : Option Int
  domestic_economic_score : Option Int
  item_count : Nat
deriving Repr, DecidableEq

/-- `storage.save_daily_verdict`: upsert keyed by `(date, scope_key)`; on
conflict every field is overwritten. -/
def save_daily_verdict (v : DailyVerdict) (store : List DailyVerdict) :
    List DailyVerdict :=
  if store.any (fun r => r.date == v.date && r.scope_key == v.scope_key) then
    store.map (fun r =>
      if r.date == v.date && r.scope_key == v.scope_key then v else r)
  else store ++ [v]

/-- The literal fallback summary used when verdict generation yields no
summary. -/
def fallbackSummary : String := "(Verdict evaluation failed — scores unavailable)"

/-- One iteration's verdict for a scope: the parsed verdict when generation
succeeded, otherwise the fixed fallback (summary literal, all scores `None`),
with `item_count` the scope's item count either way. -/
def verdictForScope (key : String) (date : String) (scope : ScopeData)
    (result : Option VerdictResult) : DailyVerdict :=
  match result with
  | some v =>
    { scope_key := key, date := date, platform := scope.platform,
      region := scope.region, summary := v.summary,
      political_score := some v.global_political_score,
      economic_score := some v.global_economic_score,
      domestic_political_score := some v.domestic_political_score,
      domestic_economic_score := some v.domestic_economic_score,
      item_count := scope.items.length }
  | none =>
    { scope_key := key, date := date, platform := scope.platform,
      region := scope.region, summary := fallbackSummary,
      political_score := none, economic_score := none,
      domestic_political_score := none, domestic_economic_score := none,
      item_count := scope.items.length }

/-- The scope loop of `collector.generate_verdicts_from_items`:
`attemptsFor s` is the oracle handed to the `generate_daily_verdict` call of
the scope at position `s`.  Empty scopes are skipped (`continue`); the
exception fallback branch is the same fallback verdict as the `summary is
None` branch and is covered by `verdictForScope` (the embedding itself never
raises). -/
def verdictsScopeLoop (date : String) (response_language : Option String)
    (max_items retry : Nat) (attemptsFor : Nat → Nat → Nat → ApiAttempt) :
    List (String × ScopeData) → Nat → Nat → List DailyVerdict →
    Nat × List DailyVerdict
  | [], _, count, store => (count, store)
  | (key, scope) :: rest, sIdx, count, store =>
    if scope.items = [] then
      verdictsScopeLoop date response_language max_items retry attemptsFor
        rest (sIdx + 1) count store
    else
      let result := generate_daily_verdict scope.items response_language
        max_items retry (attemptsFor sIdx)
      let verdict := verdictForScope key date scope result.1
      verdictsScopeLoop date response_language max_items retry attemptsFor
        rest (sIdx + 1) (count + 1) (save_daily_verdict verdict store)

/-- `collector.generate_verdicts_from_items` (with AI configured; the
`is_ai_configured` guard and config unpacking are external wiring):
partition the items into scopes and produce one stored verdict per non-empty
scope, returning the number of verdicts generated and the updated store. -/
def generate_verdicts_from_items (items : List ItemDict) (date : String)
    (response_language : Option String) (max_items retry : Nat)
    (attemptsFor : Nat → Nat → Nat → ApiAttempt)
    (store : List DailyVerdict) : Nat × List DailyVerdict :=
  if items = [] then (0, store)
  else
    verdictsScopeLoop date response_language max_items retry attemptsFor
      (build_scopes_from_items items) 0 0 store

/-! ## Financial reports (`storage.save_financial_reports`,
`storage.upsert_financial_report`, `storage.save_financial_reports_raw`)

The `financial_reports` table is keyed by ticker.  Besides `ticker` and
`regions`, the row has ~29 scalar columns (`company_name` … `error`); on
conflict each of those is overwritten with the new value
(`col = EXCLUDED.col` for every one), so the embedding bundles them into a
single `scalars` payload of an arbitrary type. -/

/-- A financial report row / payload: ticker, region lists, and the bundle of
all remaining columns. -/
structure FinReport (α : Type) where
  ticker : String
  regions : List String
  scalars : α
deriving Repr, DecidableEq

/-- `ARRAY(SELECT DISTINCT UNNEST(old || new))`: the set union of the two
region arrays (`DISTINCT` without `ORDER BY` leaves the order unspecified;
the embedding deduplicates the concatenation). -/
def regionsUnion (old new : List String) : List String :=
  (old ++ new).dedup

/-- `storage.save_financial_reports`: upsert each report by ticker; reports
with a falsy ticker are skipped; on conflict `regions` becomes the set union
of stored and new, and every other column takes the new value. -/
def save_financial_reports {α : Type} (reports : List (FinReport α))
    (store : List (FinReport α)) : List (FinReport α) :=
  reports.foldl (fun st r =>
    if r.ticker = "" then st
    else if st.any (fun row => row.ticker == r.ticker) then
      st.map (fun row =>
        if row.ticker == r.ticker then
          { ticker := r.ticker, regions := regionsUnion row.regions r.regions,
            scalars := r.scalars }
        else row)
    else st ++ [r]) store

/-- `storage.upsert_financial_report`: single-report upsert by ticker; on
conflict **every** column, `regions` included, is overwritten with the new
value (`regions = EXCLUDED.regions`).  Returns whether the report was saved
(`false` only for a falsy ticker). -/
def upsert_financial_report {α : Type} (report : FinReport α)
    (store : List (FinReport α)) : Bool × List (FinReport α) :=
  if report.ticker = "" then (false, store)
  else if store.any (fun row => row.ticker == report.ticker) then
    (true, store.map (fun row =>
      if row.ticker == report.ticker then report else row))
  else (true, store ++ [report])

/-- `storage.save_financial_reports_raw`: `TRUNCATE financial_reports` then
plain inserts (reports with a falsy ticker skipped) — the explicit
replace-all operation. -/
def save_financial_reports_raw {α : Type} (reports : List (FinReport α))
    (_store : List (FinReport α)) : List (FinReport α) :=
  reports.foldl (fun st r => if r.ticker = "" then st else st ++ [r]) []

/-! ## Query/load of collected items (`storage.query_collected_items`,
`storage.load_collected_items`) -/

/-- Substring test on character lists. -/
def listHasInfix (hay needle : List Char) : Bool :=
  match hay with
  | [] => needle.isPrefixOf []
  | _ :: t => needle.isPrefixOf hay || listHasInfix t needle

/-- Case-insensitive substring test (`ILIKE '%needle%'`). -/
def ilikeContains (hay needle : String) : Bool :=
  listHasInfix (pyLowerList hay.data) (pyLowerList needle.data)

/-- The WHERE clause of `query_collected_items` for one row. -/
def queryRowMatches (date platform region search : Option String)
    (labels : Option (List String)) (r : CollectedRow) : Bool :=
  (if truthy date then r.date == date.getD "" else true) &&
  (if truthy platform then r.platform == platform.getD "" else true) &&
  (if truthy region then
    pyLowerStr (r.region.getD "") == pyLowerStr (region.getD "") else true) &&
  (if truthy search then
    (ilikeContains (r.title.getD "") (search.getD "") ||
     ilikeContains (r.description.getD "") (search.getD "") ||
     ilikeContains (r.summary.getD "") (search.getD "") ||
     ilikeContains (r.source.getD "") (search.getD "")) else true) &&
  (match labels with
   | some ls =>
     if ls ≠ [] then r.labels.any (fun l => ls.contains l) else true
   | none => true)

/-- `ORDER BY (rank IS NULL), rank, heat DESC` as a total preorder
(PostgreSQL: ascending sorts put NULLs last, descending put NULLs first;
the relative order of rows that tie is unspecified in SQL — the embedding
uses a stable insertion sort). -/
def queryOrderLE (a b : CollectedRow) : Bool :=
  let rankNullKey : CollectedRow → Nat := fun r => if r.rank.isNone then 1 else 0
  if rankNullKey a ≠ rankNullKey b then rankNullKey a < rankNullKey b
  else
    let rankCmp :=
      match a.rank, b.rank with
      | some x, some y => if x = y then none else some (decide (x < y))
      | _, _ => none
    match rankCmp with
    | some v => v
    | none =>
      match a.heat, b.heat with
      | some x, some y => y ≤ x
      | none, _ => true
      | some _, none => false

/-- Stable insertion into a sorted list. -/
def orderedInsert {α : Type} (le : α → α → Bool) (x : α) :
    List α → List α
  | [] => [x]
  | y :: ys => if le x y then x :: y :: ys else y :: orderedInsert le x ys

/-- Stable insertion sort. -/
def insertionSort {α : Type} (le : α → α → Bool) (l : List α) : List α :=
  l.foldr (orderedInsert le) []

/-- `storage.query_collected_items`: filter, count, sort, paginate.  Returns
the tuple `(items, total)`. -/
def query_collected_items (date platform region search : Option String)
    (labels : Option (List String)) (limit offset : Option Int)
    (db : List CollectedRow) : List CollectedRow × Nat :=
  let matching := db.filter (queryRowMatches date platform region search labels)
  let total := matching.length
  let ordered := insertionSort queryOrderLE matching
  let afterOffset :=
    match offset with
    | some o => if 0 < o then ordered.drop o.toNat else ordered
    | none => ordered
  let paged :=
    match limit with
    | some l => if 0 < l then afterOffset.take l.toNat else afterOffset
    | none => afterOffset
  (paged, total)

/-- An element of the Python list `load_collected_items` builds when a
platforms list is given: `items.extend(query_collected_items(...))` extends
with the *tuple*, so the elements are alternately a whole rows-list and a
total count — not item dicts. -/
inductive PyLoadElem where
  | itemRows (rows : List CollectedRow)
  | totalCount (n : Nat)
deriving Repr, DecidableEq

/-- The value `load_collected_items` actually returns (its annotation claims
`list[dict]`): a heterogeneous list in the platforms branch, and the raw
`(items, total)` tuple in the no-platforms branch. -/
inductive LoadResult where
  | flat (l : List PyLoadElem)
  | pair (rows : List CollectedRow) (total : Nat)
deriving Repr, DecidableEq

/-- `storage.load_collected_items` as written: for each platform the result
tuple of `query_collected_items` is spliced element-wise into the accumulator
list; with no platforms the tuple is returned as-is. -/
def load_collected_items (date : String) (platforms : Option (List String))
    (region : Option String) (db : List CollectedRow) : LoadResult :=
  match platforms with
  | some ps =>
    if ps ≠ [] then
      .flat (ps.foldl (fun acc p =>
        let q := query_collected_items (some date) (some p) region none none
          none none db
        acc ++ [.itemRows q.1, .totalCount q.2]) [])
    else
      let q := query_collected_items (some date) none region none none
        none none db
      .pair q.1 q.2
  | none =>
    let q := query_collected_items (some date) none region none none
      none none db
    .pair q.1 q.2

/-! ## Enrichment circuit breaker (`collector.collect_platform`, the AI
branch of the item loop)

The per-item enrichment attempt (page fetch, cached page summary, fallback
title+description summarization — lines 280–318) is summarised by an outcome
oracle: an exception anywhere in the `try` block, or the `(summary, labels)`
pair it produced.  The keyword labeller `label_item` (an external leaf for
this core) is a function parameter.  Every processed item is saved
immediately (`save_item` at lines 269/336); the record list returned below is
that save sequence in order. -/

/-- Outcome of one item's AI enrichment attempt. -/
inductive EnrichOutcome where
  | exc
  | ok (summary : Option String) (labels : List String)

/-- The mutable loop state: the consecutive-failure counter and the
circuit-breaker flag. -/
structure EnrichState where
  ai_failures : Nat
  ai_disabled : Bool
deriving Repr, DecidableEq

/-- What happened to one item: the item as saved and whether the AI
enrichment path ran for it. -/
structure EnrichRecord where
  item : ItemDict
  aiAttempted : Bool
deriving Repr, DecidableEq

/-- One iteration of the enrichment loop.  When disabled, labels come from
the keyword labeller and no AI work happens; otherwise the outcome updates
summary/labels and the failure counter (a non-empty label list resets it,
anything else increments it), and the breaker trips once the counter reaches
the threshold. -/
def enrichStep (labelItem : String → Option String → List String)
    (threshold : Nat) (outcome : ItemDict → EnrichOutcome)
    (st : EnrichState) (item : ItemDict) : EnrichRecord × EnrichState :=
  if st.ai_disabled then
    ({ item := { item with
         labels := labelItem (item.title.getD "") item.description },
       aiAttempted := false }, st)
  else
    match outcome item with
    | .ok summary labels =>
      let item1 :=
        match summary with
        | some s => { item with summary := some s }
        | none => item
      if labels ≠ [] then
        ({ item := { item1 with labels := labels }, aiAttempted := true },
         { ai_failures := 0, ai_disabled := 0 ≥ threshold })
      else
        let failures := st.ai_failures + 1
        ({ item := { item1 with
             labels := labelItem (item.title.getD "") item.description },
           aiAttempted := true },
         { ai_failures := failures, ai_disabled := failures ≥ threshold })
    | .exc =>
      let failures := st.ai_failures + 1
      ({ item := { item with
           labels := labelItem (item.title.getD "") item.description },
         aiAttempted := true },
       { ai_failures := failures, ai_disabled := failures ≥ threshold })

/-- The enrichment loop over a platform's item list, returning the save
records in order and the final state. -/
def enrichLoop (labelItem : String → Option String → List String)
    (threshold : Nat) (outcome : ItemDict → EnrichOutcome) :
    List ItemDict → EnrichState → List EnrichRecord × EnrichState
  | [], st => ([], st)
  | i :: rest, st =>
    let r := enrichStep labelItem threshold outcome st i
    let tail := enrichLoop labelItem threshold outcome rest r.2
    (r.1 :: tail.1, tail.2)

/-! # Theorems about the claims -/

/-- A sample stored row used to exhibit the `load_collected_items` bug. -/
def sampleRow : CollectedRow :=
  { platform := "p", region := none, date := "2025-01-15", url := none,
    normalized_url := none, source := some "s", title := some "T",
    rank := none, description := none, summary := none, heat := none,
    labels := [], identity_type := "title", identity_value := "s|t" }

/-- The part of the continuation prompt preceding the previous verdict's
summary. -/
def contPromptHead (cn tc ip : Nat) : String :=
  "You are continuing to analyze news signals for one day.\n"
    ++ "This is batch " ++ toString cn ++ " of " ++ toString tc
    ++ ". You have already analyzed " ++ toString ip ++ " items.\n\n"
    ++ "Previous verdict based on items 1-" ++ toString ip ++ ":\n- Summary: "

/-- The part of the continuation prompt following the previous verdict's
scores. -/
def contPromptTail (chunk : List ItemDict) (ip : Nat)
    (lang : Option String) : String :=
  "\n\nNow analyze the following additional items and UPDATE the verdict by combining insights from both the previous analysis and these new items.\n"
    ++ "Use only the provided items and avoid certainty. Keep the tone neutral and concise.\n\n"
    ++ verdictJsonTemplate
      "2-4 short sentences about the day overall (incorporating all items analyzed so far)."
    ++ scoringRulesBlock
    ++ "- Base scores on the balance and severity of evidence in ALL items analyzed (previous + new).\n\n"
    ++ scoreDefinitionsBlock
    ++ langInstruction lang
    ++ "Additional items (" ++ toString (ip + 1) ++ "-"
    ++ toString (ip + chunk.length) ++ "):\n"
    ++ format_items_for_verdict chunk (ip + 1)

/-- An item with only a platform set, whose platform name embeds the
`|region:` separator of composite scope keys. -/
def cexItemA : ItemDict := { title := some "x", platform := some "a|region:b" }

/-- An item with both platform and region set, whose composite scope key
collides with `cexItemA`'s platform scope key. -/
def cexItemB : ItemDict :=
  { title := some "y", platform := some "a", region := some "b" }

/-- **C1**: saving the same item twice for the same date and platform against
the same store yields `true` then `false`, leaves the store of the first save
unchanged, and results in exactly one stored row for the item's identity on
that `(date, platform)`. -/
theorem save_item_twice_dedup (item : ItemDict) (p : String)
    (region : Option String) (d today : String) (db : List CollectedRow)
    (h : ∀ r ∈ db, rowKeyMatches r d p (identity_for_row item).1
      (identity_for_row item).2.1 = false) :
    (save_item (some item) p region (some d) today db).1 = true ∧
    (save_item (some item) p region (some d) today
      (save_item (some item) p region (some d) today db).2).1 = false ∧
    (save_item (some item) p region (some d) today
      (save_item (some item) p region (some d) today db).2).2 =
      (save_item (some item) p region (some d) today db).2 ∧
    (((save_item (some item) p region (some d) today db).2).filter
      (fun r => rowKeyMatches r d p (identity_for_row item).1
        (identity_for_row item).2.1)).length = 1 := by
  have hany : db.any (fun r => rowKeyMatches r d p (identity_for_row item).1
      (identity_for_row item).2.1) = false := by
    rw [List.any_eq_false]
    intro r hr
    simp [h r hr]
  have hkey : rowKeyMatches
      { platform := p, region := region, date := d,
        url := item.url, normalized_url := (identity_for_row item).2.2,
        source := item.source, title := item.title,
        rank := item.rank, description := item.description,
        summary := item.summary, heat := item.heat,
        labels := item.labels, identity_type := (identity_for_row item).1,
        identity_value := (identity_for_row item).2.1 }
      d p (identity_for_row item).1 (identity_for_row item).2.1 = true := by
    simp [rowKeyMatches]
  have h1 : save_item (some item) p region (some d) today db =
      (true, db ++
        [{ platform := p, region := region, date := d,
           url := item.url, normalized_url := (identity_for_row item).2.2,
           source := item.source, title := item.title,
           rank := item.rank, description := item.description,
           summary := item.summary, heat := item.heat,
           labels := item.labels, identity_type := (identity_for_row item).1,
           identity_value := (identity_for_row item).2.1 }]) := by
    simp only [save_item, Option.getD_some, hany]
    rfl
  have h2 : save_item (some item) p region (some d) today
      (save_item (some item) p region (some d) today db).2 =
      (false, (save_item (some item) p region (some d) today db).2) := by
    rw [h1]
    simp only [save_item, Option.getD_some, List.any_append, hany,
      Bool.false_or, List.any_cons, List.any_nil, hkey, Bool.true_or,
      if_true]
  have hfil : db.filter (fun r => rowKeyMatches r d p
      (identity_for_row item).1 (identity_for_row item).2.1) = [] := by
    rw [List.filter_eq_nil_iff]
    intro r hr
    simp [h r hr]
  refine ⟨by rw [h1], by rw [h2], by rw [h2], ?_⟩
  rw [h1]
  simp only [List.filter_append, hfil, List.nil_append]
  rw [List.filter_cons_of_pos]
  · rfl
  · exact hkey

/-- **C1 witness**: the theorem at a concrete item, platform, date and the
empty store. -/
theorem save_item_twice_dedup_witness :
    (save_item
      (some ({ title := some "T", source := some "S", platform := some "p" } :
        ItemDict))
      "p" none (some "2025-01-15") "2025-01-16" []).1 = true := by
  exact (save_item_twice_dedup
    { title := some "T", source := some "S", platform := some "p" }
    "p" none "2025-01-15" "2025-01-16" [] (by intro r hr; cases hr)).1

/-- **C4 counterexample**: a response claiming `global_political_score = 150`
is *not* rejected — `_clamp_score` clamps it to 100 and the verdict is
accepted on the first attempt, without any retry. -/
theorem verdict_150_clamped_not_rejected :
    parse_verdict_response (some [("summary", .str "Ok."),
      ("global_political_score", .int 150),
      ("global_economic_score", .int 70),
      ("domestic_political_score", .int 50),
      ("domestic_economic_score", .int 55)]) =
      some ⟨"Ok.", 100, 70, 50, 55⟩ ∧
    call_verdict_api (fun _ => .response (some [("summary", .str "Ok."),
      ("global_political_score", .int 150),
      ("global_economic_score", .int 70),
      ("domestic_political_score", .int 50),
      ("domestic_economic_score", .int 55)])) 3 =
      some ⟨"Ok.", 100, 70, 50, 55⟩ := by
  constructor <;> rfl

/-- A successfully clamped score lies in `[0, 100]`. -/
theorem clamp_score_bounds {v : Option JVal} {x : Int}
    (h : clamp_score v = some x) : 0 ≤ x ∧ x ≤ 100 := by
  unfold clamp_score at h
  cases hv : pyInt v with
  | none => rw [hv] at h; cases h
  | some k =>
    rw [hv] at h
    have h' : max 0 (min 100 k) = x := by simpa using h
    subst h'
    exact ⟨le_max_left _ _, max_le (by norm_num) (min_le_left _ _)⟩

/-- **C4 (amended)**: scores that convert to an out-of-range integer are
clamped into `[0, 100]`, not rejected; only a failed integer conversion
invalidates a score (and with it the whole response, which is what triggers
the retry); consequently every successfully parsed verdict carries four
integer scores in `[0, 100]`. -/
theorem verdict_scores_clamped_and_bounded :
    (∀ (v : Option JVal) (k : Int), pyInt v = some k →
      clamp_score v = some (max 0 (min 100 k))) ∧
    (∀ v : Option JVal, pyInt v = none → clamp_score v = none) ∧
    (∀ (o : JsonObj) (r : VerdictResult),
      parse_verdict_response (some o) = some r →
      (0 ≤ r.global_political_score ∧ r.global_political_score ≤ 100) ∧
      (0 ≤ r.global_economic_score ∧ r.global_economic_score ≤ 100) ∧
      (0 ≤ r.domestic_political_score ∧ r.domestic_political_score ≤ 100) ∧
      (0 ≤ r.domestic_economic_score ∧ r.domestic_economic_score ≤ 100)) := by
  refine ⟨?_, ?_, ?_⟩
  · intro v k h
    unfold clamp_score
    rw [h]
    rfl
  · intro v h
    unfold clamp_score
    rw [h]
    rfl
  · intro o r h
    unfold parse_verdict_response at h
    dsimp only at h
    cases hsum : parseSummaryField o with
    | none => rw [hsum] at h; cases h
    | some s =>
      cases ha : clamp_score (jsonLookup o "global_political_score") with
      | none => rw [hsum, ha] at h; cases h
      | some a =>
        cases hb : clamp_score (jsonLookup o "global_economic_score") with
        | none => rw [hsum, ha, hb] at h; cases h
        | some b =>
          cases hc : clamp_score (jsonLookup o "domestic_political_score") with
          | none => rw [hsum, ha, hb, hc] at h; cases h
          | some c =>
            cases hd : clamp_score (jsonLookup o "domestic_economic_score") with
            | none => rw [hsum, ha, hb, hc, hd] at h; cases h
            | some dd =>
              rw [hsum, ha, hb, hc, hd] at h
              simp only [Option.some.injEq] at h
              subst h
              exact ⟨clamp_score_bounds ha, clamp_score_bounds hb,
                clamp_score_bounds hc, clamp_score_bounds hd⟩

/-- **C4 witness**: the amended theorem applied at the 150-score response. -/
theorem verdict_scores_clamped_and_bounded_witness :
    clamp_score (some (.int 150)) = some (max 0 (min 100 150)) ∧
    clamp_score (some (.str "abc")) = none ∧
    (0 ≤ (100 : Int) ∧ (100 : Int) ≤ 100) := by
  refine ⟨verdict_scores_clamped_and_bounded.1 (some (.int 150)) 150 rfl,
    verdict_scores_clamped_and_bounded.2.1 (some (.str "abc")) rfl, ?_⟩
  exact (verdict_scores_clamped_and_bounded.2.2 [("summary", .str "Ok."),
    ("global_political_score", .int 150),
    ("global_economic_score", .int 70),
    ("domestic_political_score", .int 50),
    ("domestic_economic_score", .int 55)] ⟨"Ok.", 100, 70, 50, 55⟩ rfl).1

/-- **C8 counterexample**: after storing ticker `X` with regions
`["us_300"]`, a `upsert_financial_report` save (which is not the replace-all
operation) with regions `["global_500"]` leaves the stored regions equal to
`["global_500"]` — the previously stored region is dropped, not unioned. -/
theorem upsert_overwrites_regions_cex :
    (upsert_financial_report (α := Unit) ⟨"X", ["global_500"], ()⟩
      (save_financial_reports [⟨"X", ["us_300"], ()⟩] [])).2 =
      [⟨"X", ["global_500"], ()⟩] ∧
    "us_300" ∉ (["global_500"] : List String) := by
  constructor
  · rfl
  · decide

/-- **C8 (amended)**: batch saves via `save_financial_reports` merge regions
as the set union of stored and supplied lists (so the stored region set never
shrinks there), while the single-report `upsert_financial_report` overwrites
every field including `regions`; only the raw replace-all operation resets
the table. -/
theorem financial_regions_merge_semantics {α : Type} (r : FinReport α)
    (store : List (FinReport α)) (ht : ¬ r.ticker = "")
    (hex : store.any (fun row => row.ticker == r.ticker) = true) :
    save_financial_reports [r] store =
      store.map (fun row => if row.ticker == r.ticker then
        ⟨r.ticker, regionsUnion row.regions r.regions, r.scalars⟩ else row) ∧
    (∀ (old new : List String) (x : String),
      x ∈ regionsUnion old new ↔ (x ∈ old ∨ x ∈ new)) ∧
    (upsert_financial_report r store).2 =
      store.map (fun row => if row.ticker == r.ticker then r else row) := by
  refine ⟨?_, ?_, ?_⟩
  · unfold save_financial_reports
    rw [List.foldl_cons, List.foldl_nil, if_neg ht, if_pos hex]
  · intro old new x
    simp [regionsUnion, List.mem_dedup, List.mem_append]
  · unfold upsert_financial_report
    rw [if_neg ht, if_pos hex]

/-- **C8 witness**: the amended theorem at a concrete one-row store. -/
theorem financial_regions_merge_semantics_witness :
    save_financial_reports (α := Unit) [⟨"X", ["global_500"], ()⟩]
      [⟨"X", ["us_300"], ()⟩] =
      [⟨"X", regionsUnion ["us_300"] ["global_500"], ()⟩] ∧
    ("us_300" ∈ regionsUnion ["us_300"] ["global_500"] ↔
      ("us_300" ∈ (["us_300"] : List String) ∨
       "us_300" ∈ (["global_500"] : List String))) := by
  have h := financial_regions_merge_semantics (α := Unit)
    ⟨"X", ["global_500"], ()⟩ [⟨"X", ["us_300"], ()⟩]
    (by decide) (by decide)
  exact ⟨h.1, h.2.1 ["us_300"] ["global_500"] "us_300"⟩

/-- **C10**: `load_collected_items` does not return a flat list of the
matching item dicts: with a platforms list it splices in each
`query_collected_items` result *tuple* (a whole rows-list followed by the
total count), and with no platforms it returns the raw `(items, total)`
tuple. -/
theorem load_collected_items_returns_tuples :
    load_collected_items "2025-01-15" (some ["p"]) none [sampleRow] =
      .flat [.itemRows [sampleRow], .totalCount 1] ∧
    load_collected_items "2000-01-01" none none [] = .pair [] 0 := by
  constructor <;> rfl

/-- Splitting the enrichment loop over an appended batch. -/
theorem enrichLoop_append (labelItem : String → Option String → List String)
    (threshold : Nat) (outcome : ItemDict → EnrichOutcome)
    (xs ys : List ItemDict) (st : EnrichState) :
    enrichLoop labelItem threshold outcome (xs ++ ys) st =
      ((enrichLoop labelItem threshold outcome xs st).1 ++
        (enrichLoop labelItem threshold outcome ys
          (enrichLoop labelItem threshold outcome xs st).2).1,
       (enrichLoop labelItem threshold outcome ys
         (enrichLoop labelItem threshold outcome xs st).2).2) := by
  induction xs generalizing st with
  | nil => simp [enrichLoop]
  | cons x xs ih =>
    simp only [List.cons_append, enrichLoop, List.append_eq, ih]

/-- Once the breaker is tripped, the loop makes no AI attempt: every
remaining item is keyword-labelled, saved, and the state never changes. -/
theorem enrichLoop_disabled (labelItem : String → Option String → List String)
    (threshold : Nat) (outcome : ItemDict → EnrichOutcome)
    (ys : List ItemDict) (st : EnrichState)
    (h : st.ai_disabled = true) :
    enrichLoop labelItem threshold outcome ys st =
      (ys.map (fun i =>
        ⟨{ i with labels := labelItem (i.title.getD "") i.description },
         false⟩), st) := by
  induction ys with
  | nil => simp [enrichLoop]
  | cons y ys ih =>
    simp only [enrichLoop, List.map_cons]
    rw [show enrichStep labelItem threshold outcome st y =
      (⟨{ y with labels := labelItem (y.title.getD "") y.description },
        false⟩, st) from by simp [enrichStep, h]]
    rw [ih]

/-- **C9**: the enrichment circuit breaker — (1) once the consecutive-failure
counter has tripped the breaker within a batch, every later item of that
batch makes no AI attempt, receives the keyword labeller's labels, and is
still saved with the state unchanged; (2) a success (non-empty AI labels)
resets the counter to zero; (3) a failed attempt that brings the counter to
the threshold trips the breaker; (4) every item of the batch is saved exactly
once regardless. -/
theorem enrich_circuit_breaker
    (labelItem : String → Option String → List String) (threshold : Nat)
    (outcome : ItemDict → EnrichOutcome) :
    (∀ (xs ys : List ItemDict) (st : EnrichState),
      (enrichLoop labelItem threshold outcome xs st).2.ai_disabled = true →
      enrichLoop labelItem threshold outcome (xs ++ ys) st =
        ((enrichLoop labelItem threshold outcome xs st).1 ++
          ys.map (fun i =>
            ⟨{ i with labels := labelItem (i.title.getD "") i.description },
             false⟩),
         (enrichLoop labelItem threshold outcome xs st).2)) ∧
    (∀ (st : EnrichState) (i : ItemDict) (s : Option String)
      (ls : List String), st.ai_disabled = false → outcome i = .ok s ls →
      ls ≠ [] →
      (enrichStep labelItem threshold outcome st i).2.ai_failures = 0) ∧
    (∀ (st : EnrichState) (i : ItemDict), st.ai_disabled = false →
      (outcome i = .exc ∨ ∃ s, outcome i = .ok s []) →
      threshold ≤ st.ai_failures + 1 →
      (enrichStep labelItem threshold outcome st i).2.ai_disabled = true) ∧
    (∀ (xs : List ItemDict) (st : EnrichState),
      (enrichLoop labelItem threshold outcome xs st).1.length = xs.length) := by
  refine ⟨?_, ?_, ?_, ?_⟩
  · intro xs ys st h
    rw [enrichLoop_append, enrichLoop_disabled labelItem threshold outcome ys
      _ h]
  · intro st i s ls hdis hout hls
    simp [enrichStep, hdis, hout, hls]
  · intro st i hdis hout hth
    rcases hout with hexc | ⟨s, hok⟩
    · simp [enrichStep, hdis, hexc, hth]
    · simp [enrichStep, hdis, hok, hth]
  · intro xs st
    induction xs generalizing st with
    | nil => rfl
    | cons x xs ih => simp [enrichLoop, ih]

/-- **C9 witness**: a batch where the first three items fail (threshold 3) —
the breaker is tripped after item 3, and the remaining seven items are
keyword-labelled with no AI attempt. -/
theorem enrich_circuit_breaker_witness :
    enrichLoop (fun _ _ => ["kw"]) 3 (fun _ => .exc)
      (List.replicate 3 ({ title := some "t" } : ItemDict) ++
        List.replicate 7 ({ title := some "u" } : ItemDict))
      ⟨0, false⟩ =
      ((enrichLoop (fun _ _ => ["kw"]) 3 (fun _ => .exc)
          (List.replicate 3 ({ title := some "t" } : ItemDict)) ⟨0, false⟩).1 ++
        (List.replicate 7 ({ title := some "u" } : ItemDict)).map (fun i =>
          ⟨{ i with labels := (fun (_ : String) (_ : Option String) =>
              ["kw"]) (i.title.getD "") i.description }, false⟩),
       (enrichLoop (fun _ _ => ["kw"]) 3 (fun _ => .exc)
         (List.replicate 3 ({ title := some "t" } : ItemDict)) ⟨0, false⟩).2) := by
  exact (enrich_circuit_breaker (fun _ _ => ["kw"]) 3 (fun _ => .exc)).1
    (List.replicate 3 { title := some "t" })
    (List.replicate 7 { title := some "u" }) ⟨0, false⟩ (by decide)

/-- Running the chunk loop through a prefix of successful calls and hitting a
failed call returns the last successful chunk's verdict (or the incoming one
when the prefix is empty). -/
theorem verdictChunkLoop_prefix_fail (items : List ItemDict)
    (lang : Option String) (max retry tc : Nat) (af : Nat → Nat → ApiAttempt)
    (vs : Nat → VerdictResult) (j : Nat)
    (hfail : call_verdict_api (af j) retry = none) :
    ∀ (l1 l2 : List Nat) (cur : Option VerdictResult) (ip : Nat)
      (tr : List String),
      (∀ k ∈ l1, call_verdict_api (af k) retry = some (vs k)) →
      (verdictChunkLoop items lang max retry tc af (l1 ++ j :: l2) cur ip
        tr).1 =
        (match l1.getLast? with
         | some k => some (vs k)
         | none => cur) := by
  intro l1
  induction l1 with
  | nil =>
    intro l2 cur ip tr _
    simp only [List.nil_append, verdictChunkLoop, hfail]
    cases cur <;> rfl
  | cons x l1 ih =>
    intro l2 cur ip tr hok
    simp only [List.cons_append, verdictChunkLoop, List.append_eq,
      hok x (List.mem_cons_self x l1)]
    rw [ih l2 _ _ _ (fun k hk => hok k (List.mem_cons_of_mem x hk))]
    cases l1 with
    | nil => rfl
    | cons y l1 =>
      rw [List.getLast?_cons_cons]
      cases hg : (y :: l1).getLast? with
      | none => simp at hg
      | some z => rfl

/-- **C6**: in a chunked evaluation (`max_items < len(items)`), if the calls
for all chunks before chunk `j` succeed and chunk `j`'s call exhausts its
retries, `generate_daily_verdict` returns the last successfully produced
chunk verdict; if the first chunk never succeeds (`j = 0`), it returns no
result. -/
theorem generate_daily_verdict_partial_result (items : List ItemDict)
    (lang : Option String) (max retry j : Nat) (af : Nat → Nat → ApiAttempt)
    (vs : Nat → VerdictResult) (hmax : 0 < max) (hover : max < items.length)
    (hj : j < (items.length + max - 1) / max)
    (hok : ∀ k, k < j → call_verdict_api (af k) retry = some (vs k))
    (hfail : call_verdict_api (af j) retry = none) :
    (generate_daily_verdict items lang max retry af).1 =
      if j = 0 then none else some (vs (j - 1)) := by
  have hne : items ≠ [] := by
    intro h
    rw [h] at hover
    simp at hover
  have hgt : ¬ items.length ≤ max := by omega
  unfold generate_daily_verdict
  rw [if_neg hne, if_neg hgt]
  obtain ⟨m, hm⟩ : ∃ m, (items.length + max - 1) / max = j + m + 1 :=
    ⟨(items.length + max - 1) / max - j - 1, by omega⟩
  have hsplit : List.range ((items.length + max - 1) / max) =
      List.range j ++ j :: List.range' (j + 1) m := by
    simp only [List.range_eq_range']
    rw [hm, show j + m + 1 = m + 1 + j from by omega,
      ← List.range'_append_1 0 j (m + 1)]
    rw [Nat.zero_add, List.range'_succ]
  show (verdictChunkLoop items lang max retry
    ((items.length + max - 1) / max) af
    (List.range ((items.length + max - 1) / max)) none 0 []).1 = _
  rw [hsplit, verdictChunkLoop_prefix_fail items lang max retry _ af vs j
    hfail (List.range j) _ none 0 [] (fun k hk => hok k (List.mem_range.mp hk))]
  cases j with
  | zero => rfl
  | succ m =>
    rw [List.range_succ, List.getLast?_concat]
    simp

/-- **C6 witness**: two one-item chunks, the first call succeeding and the
second failing — the first chunk's verdict is returned. -/
theorem generate_daily_verdict_partial_result_witness :
    (generate_daily_verdict
      [({ title := some "a" } : ItemDict), { title := some "b" }] none 1 3
      (fun n _ => if n = 0 then
        .response (some [("summary", .str "S0."),
          ("global_political_score", .int 10),
          ("global_economic_score", .int 20),
          ("domestic_political_score", .int 30),
          ("domestic_economic_score", .int 40)])
        else .transportError)).1 =
      if 1 = 0 then none else some ((fun _ => (⟨"S0.", 10, 20, 30, 40⟩ :
        VerdictResult)) (1 - 1)) := by
  exact generate_daily_verdict_partial_result
    [{ title := some "a" }, { title := some "b" }] none 1 3 1 _
    (fun _ => ⟨"S0.", 10, 20, 30, 40⟩) (by decide) (by decide) (by decide)
    (by intro k hk
        interval_cases k
        rfl)
    rfl

/-- When every `_call_verdict_api` invocation fails, `generate_daily_verdict`
produces no result. -/
theorem generate_daily_verdict_allfail (items : List ItemDict)
    (lang : Option String) (max retry : Nat) (af : Nat → Nat → ApiAttempt)
    (h : ∀ c, call_verdict_api (af c) retry = none) :
    (generate_daily_verdict items lang max retry af).1 = none := by
  unfold generate_daily_verdict
  by_cases hi : items = []
  · rw [if_pos hi]
  · rw [if_neg hi]
    by_cases hle : items.length ≤ max
    · rw [if_pos hle]
      exact h 0
    · rw [if_neg hle]
      show (verdictChunkLoop items lang max retry
        ((items.length + max - 1) / max) af
        (List.range ((items.length + max - 1) / max)) none 0 []).1 = none
      cases hr : List.range ((items.length + max - 1) / max) with
      | nil => rfl
      | cons n rest => simp only [verdictChunkLoop, h n]

/-- The scope loop under an always-failing AI: every non-empty scope gets its
fallback verdict saved, empty scopes are skipped, and the verdict count grows
by the number of non-empty scopes. -/
theorem verdictsScopeLoop_allfail (date : String) (lang : Option String)
    (max retry : Nat) (af : Nat → Nat → Nat → ApiAttempt)
    (h : ∀ s c, call_verdict_api (af s c) retry = none) :
    ∀ (scopes : List (String × ScopeData)) (sIdx count : Nat)
      (store : List DailyVerdict),
      verdictsScopeLoop date lang max retry af scopes sIdx count store =
        (count + (scopes.filter (fun ksc => !ksc.2.items.isEmpty)).length,
         scopes.foldl (fun st ksc =>
           if ksc.2.items = [] then st
           else save_daily_verdict (verdictForScope ksc.1 date ksc.2 none) st)
           store) := by
  intro scopes
  induction scopes with
  | nil => intro sIdx count store; simp [verdictsScopeLoop]
  | cons ksc rest ih =>
    intro sIdx count store
    obtain ⟨key, scope⟩ := ksc
    by_cases hempty : scope.items = []
    · simp only [verdictsScopeLoop, if_pos hempty, ih, List.filter_cons,
        List.foldl_cons, hempty, List.isEmpty_nil, Bool.not_true,
        Bool.false_eq_true, if_false, if_pos]
    · have hres : (generate_daily_verdict scope.items lang max retry
          (af sIdx)).1 = none :=
        generate_daily_verdict_allfail scope.items lang max retry (af sIdx)
          (h sIdx)

      simp only [verdictsScopeLoop, if_neg hempty, hres, ih, List.filter_cons,
        List.foldl_cons]
      have hie : scope.items.isEmpty = false := by
        cases hsi : scope.items with
        | nil => exact absurd hsi hempty
        | cons a l => rfl
      rw [hie]
      simp only [Bool.not_false, if_true, if_neg hempty]
      rw [Prod.mk.injEq]
      refine ⟨?_, rfl⟩
      simp only [List.length_cons]
      omega

/-- The key list produced by a dict assignment: unchanged when the key was
present, otherwise extended by the key. -/
theorem alistSet_map_fst {β : Type} (m : List (String × β)) (k : String)
    (v : β) :
    (alistSet m k v).map Prod.fst =
      if k ∈ m.map Prod.fst then m.map Prod.fst
      else m.map Prod.fst ++ [k] := by
  induction m with
  | nil => simp [alistSet]
  | cons kv rest ih =>
    obtain ⟨k₀, v₀⟩ := kv
    by_cases hk : k₀ = k
    · subst hk
      simp [alistSet]
    · by_cases hmem : k ∈ rest.map Prod.fst
      · simp [alistSet, hk, ih, hmem, Ne.symm hk]
      · simp [alistSet, hk, ih, hmem, Ne.symm hk]

/-- Dict assignment preserves distinctness of keys. -/
theorem alistSet_nodup_keys {β : Type} (m : List (String × β)) (k : String)
    (v : β) (h : (m.map Prod.fst).Nodup) :
    ((alistSet m k v).map Prod.fst).Nodup := by
  rw [alistSet_map_fst]
  by_cases hmem : k ∈ m.map Prod.fst
  · rwa [if_pos hmem]
  · rw [if_neg hmem]
    simp [List.nodup_append, h, hmem]

/-- Folding dict assignments preserves distinctness of keys. -/
theorem foldl_alistSet_nodup_keys {γ : Type} (keyfn : γ → String)
    (valfn : γ → ScopeData) (entries : List γ) :
    ∀ s : List (String × ScopeData), (s.map Prod.fst).Nodup →
    (((entries.foldl (fun acc e => alistSet acc (keyfn e) (valfn e)) s)).map
      Prod.fst).Nodup := by
  induction entries with
  | nil => intro s hs; simpa using hs
  | cons e rest ih =>
    intro s hs
    exact ih _ (alistSet_nodup_keys s (keyfn e) (valfn e) hs)

/-- Every entry of a dict assignment comes from the original dict or is the
assigned pair. -/
theorem alistSet_mem {β : Type} (m : List (String × β)) (k : String) (v : β)
    (kv : String × β) :
    kv ∈ alistSet m k v → kv ∈ m ∨ kv = (k, v) := by
  induction m with
  | nil =>
    intro h
    simpa [alistSet] using h
  | cons kv₀ rest ih =>
    obtain ⟨k₀, v₀⟩ := kv₀
    intro h
    by_cases hk : k₀ = k
    · have e : alistSet ((k₀, v₀) :: rest) k v = (k₀, v) :: rest := by
        simp [alistSet, hk]
      rw [e] at h
      rcases List.mem_cons.mp h with h | h
      · exact Or.inr (by rw [h, hk])
      · exact Or.inl (List.mem_cons_of_mem _ h)
    · have e : alistSet ((k₀, v₀) :: rest) k v =
          (k₀, v₀) :: alistSet rest k v := by
        simp [alistSet, hk]
      rw [e] at h
      rcases List.mem_cons.mp h with h | h
      · exact Or.inl (by simp [h])
      · rcases ih h with h' | h'
        · exact Or.inl (List.mem_cons_of_mem _ h')
        · exact Or.inr h'

/-- Every entry of a fold of dict assignments comes from the seed dict or
from one of the folded entries. -/
theorem foldl_alistSet_mem {γ : Type} (keyfn : γ → String)
    (valfn : γ → ScopeData) (entries : List γ) :
    ∀ (s : List (String × ScopeData)) (kv : String × ScopeData),
      kv ∈ entries.foldl (fun acc e => alistSet acc (keyfn e) (valfn e)) s →
      kv ∈ s ∨ ∃ e ∈ entries, kv = (keyfn e, valfn e) := by
  induction entries with
  | nil => intro s kv h; exact Or.inl (by simpa using h)
  | cons e rest ih =>
    intro s kv h
    rcases ih _ kv h with h' | ⟨e', he', hkv⟩
    · rcases alistSet_mem _ _ _ _ h' with h'' | h''
      · exact Or.inl h''
      · exact Or.inr ⟨e, List.mem_cons_self e rest, h''⟩
    · exact Or.inr ⟨e', List.mem_cons_of_mem e he', hkv⟩

/-- `setdefault`-append never creates an empty value list. -/
theorem alistAppend_values_ne_nil {β : Type} (m : List (String × List β))
    (k : String) (v : β) :
    (∀ kv ∈ m, kv.2 ≠ []) → ∀ kv ∈ alistAppend m k v, kv.2 ≠ [] := by
  induction m with
  | nil =>
    intro _ kv hkv
    simp only [alistAppend, List.mem_singleton] at hkv
    subst hkv
    simp
  | cons kv₀ rest ih =>
    obtain ⟨k₀, vs₀⟩ := kv₀
    intro h kv hkv
    by_cases hk : k₀ = k
    · have e : alistAppend ((k₀, vs₀) :: rest) k v =
          (k₀, vs₀ ++ [v]) :: rest := by
        simp [alistAppend, hk]
      rw [e] at hkv
      rcases List.mem_cons.mp hkv with hkv | hkv
      · subst hkv; simp
      · exact h kv (List.mem_cons_of_mem _ hkv)
    · have e : alistAppend ((k₀, vs₀) :: rest) k v =
          (k₀, vs₀) :: alistAppend rest k v := by
        simp [alistAppend, hk]
      rw [e] at hkv
      rcases List.mem_cons.mp hkv with hkv | hkv
      · subst hkv
        exact h (k₀, vs₀) (List.mem_cons_self _ _)
      · exact ih (fun kv' hkv' => h kv' (List.mem_cons_of_mem _ hkv')) kv hkv

/-- The `(platform, region)`-keyed variant of the previous lemma. -/
theorem prAppend_values_ne_nil (m : List ((String × String) × List ItemDict))
    (k : String × String) (v : ItemDict) :
    (∀ kv ∈ m, kv.2 ≠ []) → ∀ kv ∈ prAppend m k v, kv.2 ≠ [] := by
  induction m with
  | nil =>
    intro _ kv hkv
    simp only [prAppend, List.mem_singleton] at hkv
    subst hkv
    simp
  | cons kv₀ rest ih =>
    obtain ⟨k₀, vs₀⟩ := kv₀
    intro h kv hkv
    by_cases hk : k₀ = k
    · have e : prAppend ((k₀, vs₀) :: rest) k v =
          (k₀, vs₀ ++ [v]) :: rest := by
        simp [prAppend, hk]
      rw [e] at hkv
      rcases List.mem_cons.mp hkv with hkv | hkv
      · subst hkv; simp
      · exact h kv (List.mem_cons_of_mem _ hkv)
    · have e : prAppend ((k₀, vs₀) :: rest) k v =
          (k₀, vs₀) :: prAppend rest k v := by
        simp [prAppend, hk]
      rw [e] at hkv
      rcases List.mem_cons.mp hkv with hkv | hkv
      · subst hkv
        exact h (k₀, vs₀) (List.mem_cons_self _ _)
      · exact ih (fun kv' hkv' => h kv' (List.mem_cons_of_mem _ hkv')) kv hkv

/-- Invariant of the scope-building fold: no grouping map ever holds an empty
item list. -/
theorem scopeStep_fold_values_ne_nil (items : List ItemDict) :
    ∀ acc : ScopeAcc,
      (∀ kv ∈ acc.by_platform, kv.2 ≠ []) →
      (∀ kv ∈ acc.by_region, kv.2 ≠ []) →
      (∀ kv ∈ acc.by_platform_region, kv.2 ≠ []) →
      (∀ kv ∈ (items.foldl scopeStep acc).by_platform, kv.2 ≠ []) ∧
      (∀ kv ∈ (items.foldl scopeStep acc).by_region, kv.2 ≠ []) ∧
      (∀ kv ∈ (items.foldl scopeStep acc).by_platform_region, kv.2 ≠ []) := by
  induction items with
  | nil => intro acc h1 h2 h3; exact ⟨h1, h2, h3⟩
  | cons i rest ih =>
    intro acc h1 h2 h3
    refine ih (scopeStep acc i) ?_ ?_ ?_
    · unfold scopeStep
      dsimp only
      split
      · exact alistAppend_values_ne_nil _ _ _ h1
      · exact h1
    · unfold scopeStep
      dsimp only
      split
      · exact alistAppend_values_ne_nil _ _ _ h2
      · exact h2
    · unfold scopeStep
      dsimp only
      split
      · exact prAppend_values_ne_nil _ _ _ h3
      · exact h3

/-- Every scope produced by `_build_scopes_from_items` holds at least one
item. -/
theorem build_scopes_values_ne_nil (items : List ItemDict) :
    ∀ kv ∈ build_scopes_from_items items, kv.2.items ≠ [] := by
  intro kv hkv
  unfold build_scopes_from_items at hkv
  have hacc := scopeStep_fold_values_ne_nil items ⟨[], [], [], []⟩
    (by intro kv h; cases h) (by intro kv h; cases h) (by intro kv h; cases h)
  rcases foldl_alistSet_mem _ _ _ _ kv hkv with hkv₂ | ⟨e, he, hkv₂⟩
  · rcases foldl_alistSet_mem _ _ _ _ kv hkv₂ with hkv₃ | ⟨e, he, hkv₃⟩
    · rcases foldl_alistSet_mem _ _ _ _ kv hkv₃ with hkv₄ | ⟨e, he, hkv₄⟩
      · by_cases hall : (items.foldl scopeStep ⟨[], [], [], []⟩).all_items ≠ []
        · rw [if_pos hall] at hkv₄
          simp only [List.mem_singleton] at hkv₄
          subst hkv₄
          exact hall
        · rw [if_neg hall] at hkv₄
          cases hkv₄
      · subst hkv₄
        exact hacc.1 e he
    · subst hkv₃
      exact hacc.2.1 e he
  · subst hkv₂
    exact hacc.2.2 e he

/-- The scope dict of `_build_scopes_from_items` has distinct keys. -/
theorem build_scopes_keys_nodup (items : List ItemDict) :
    ((build_scopes_from_items items).map Prod.fst).Nodup := by
  unfold build_scopes_from_items
  apply foldl_alistSet_nodup_keys
  apply foldl_alistSet_nodup_keys
  apply foldl_alistSet_nodup_keys
  split
  · simp
  · exact List.nodup_nil

/-- Saving fallback verdicts for scopes with distinct keys appends one new
row per non-empty scope. -/
theorem foldl_save_fallback (date : String) :
    ∀ (scopes : List (String × ScopeData)) (store : List DailyVerdict),
      ((scopes.map Prod.fst).Nodup) →
      (∀ ksc ∈ scopes, ksc.2.items ≠ []) →
      (∀ v ∈ store, ∀ ksc ∈ scopes, ¬(v.date = date ∧ v.scope_key = ksc.1)) →
      scopes.foldl (fun st ksc =>
        if ksc.2.items = [] then st
        else save_daily_verdict (verdictForScope ksc.1 date ksc.2 none) st)
        store =
      store ++ scopes.map (fun ksc => verdictForScope ksc.1 date ksc.2 none) := by
  intro scopes
  induction scopes with
  | nil => intro store _ _ _; simp
  | cons ksc rest ih =>
    intro store hnd hne hstore
    rw [List.map_cons, List.nodup_cons] at hnd
    rw [List.foldl_cons, if_neg (hne ksc (List.mem_cons_self _ _))]
    have hsave : save_daily_verdict (verdictForScope ksc.1 date ksc.2 none)
        store = store ++ [verdictForScope ksc.1 date ksc.2 none] := by
      have hcond : store.any (fun r =>
          r.date == (verdictForScope ksc.1 date ksc.2 none).date &&
          r.scope_key == (verdictForScope ksc.1 date ksc.2 none).scope_key) =
          false := by
        rw [List.any_eq_false]
        intro v hv
        have hns := hstore v hv ksc (List.mem_cons_self _ _)
        intro hcontra
        rw [Bool.and_eq_true, beq_iff_eq, beq_iff_eq] at hcontra
        exact hns ⟨hcontra.1, hcontra.2⟩
      unfold save_daily_verdict
      rw [hcond]
      simp
    rw [hsave]
    rw [ih (store ++ [verdictForScope ksc.1 date ksc.2 none]) hnd.2
      (fun k hk => hne k (List.mem_cons_of_mem _ hk)) ?_]
    · simp
    · intro v hv k hk
      rcases List.mem_append.mp hv with hv' | hv'
      · exact hstore v hv' k (List.mem_cons_of_mem _ hk)
      · simp only [List.mem_singleton] at hv'
        subst hv'
        intro ⟨hd, hs⟩
        have : (verdictForScope ksc.1 date ksc.2 none).scope_key = ksc.1 := rfl
        rw [this] at hs
        exact hnd.1 (hs ▸ List.mem_map_of_mem Prod.fst hk)

/-- With distinct scope keys, filtering the fallback store by one scope's key
isolates exactly that scope's verdict. -/
theorem filter_fallback_store (date : String) :
    ∀ (scopes : List (String × ScopeData)) (ksc : String × ScopeData),
      ((scopes.map Prod.fst).Nodup) → ksc ∈ scopes →
      (scopes.map (fun e => verdictForScope e.1 date e.2 none)).filter
        (fun v => v.scope_key == ksc.1) =
        [verdictForScope ksc.1 date ksc.2 none] := by
  intro scopes
  induction scopes with
  | nil => intro ksc _ h; cases h
  | cons e rest ih =>
    intro ksc hnd hmem
    rw [List.map_cons, List.nodup_cons] at hnd
    have hnd' := hnd
    rcases List.mem_cons.mp hmem with rfl | hmem'
    · simp only [List.map_cons, List.filter_cons]
      rw [if_pos (by simp [show (verdictForScope ksc.1 date ksc.2 none).scope_key
        = ksc.1 from rfl])]
      congr 1
      rw [List.filter_eq_nil_iff]
      intro v hv
      rcases List.mem_map.mp hv with ⟨e', he', rfl⟩
      have : e'.1 ≠ ksc.1 := by
        intro hcontra
        exact hnd'.1 (hcontra ▸ List.mem_map_of_mem Prod.fst he')
      simpa [show (verdictForScope e'.1 date e'.2 none).scope_key = e'.1
        from rfl] using this
    · simp only [List.map_cons, List.filter_cons]
      rw [if_neg]
      · exact ih ksc hnd'.2 hmem'
      · have : e.1 ≠ ksc.1 := by
          intro hcontra
          exact hnd'.1 (hcontra ▸ List.mem_map_of_mem Prod.fst hmem')
        simpa [show (verdictForScope e.1 date e.2 none).scope_key = e.1
          from rfl] using this

/-- **C7**: with an AI collaborator that always fails, every scope holding at
least one item still gets exactly one stored `DailyVerdict`, whose summary is
the literal fallback string, whose four scores are all `None`, and whose
`item_count` equals the scope's actual item count — no scope with items is
silently skipped. -/
theorem scope_fallback_verdicts (items : List ItemDict) (date : String)
    (lang : Option String) (max retry : Nat)
    (af : Nat → Nat → Nat → ApiAttempt)
    (hfail : ∀ s c, call_verdict_api (af s c) retry = none) :
    ∀ ksc ∈ build_scopes_from_items items,
      ((generate_verdicts_from_items items date lang max retry af []).2).filter
        (fun v => v.scope_key == ksc.1) =
        [verdictForScope ksc.1 date ksc.2 none] ∧
      (verdictForScope ksc.1 date ksc.2 none).summary = fallbackSummary ∧
      (verdictForScope ksc.1 date ksc.2 none).political_score = none ∧
      (verdictForScope ksc.1 date ksc.2 none).economic_score = none ∧
      (verdictForScope ksc.1 date ksc.2 none).domestic_political_score = none ∧
      (verdictForScope ksc.1 date ksc.2 none).domestic_economic_score = none ∧
      (verdictForScope ksc.1 date ksc.2 none).item_count =
        ksc.2.items.length := by
  intro ksc hksc
  by_cases hi : items = []
  · subst hi
    cases hksc
  · refine ⟨?_, rfl, rfl, rfl, rfl, rfl, rfl⟩
    unfold generate_verdicts_from_items
    rw [if_neg hi,
      verdictsScopeLoop_allfail date lang max retry af hfail _ 0 0 [],
      foldl_save_fallback date _ [] (build_scopes_keys_nodup items)
        (build_scopes_values_ne_nil items) (by intro v hv; cases hv)]
    simpa using filter_fallback_store date (build_scopes_from_items items)
      ksc (build_scopes_keys_nodup items) hksc

/-- **C7 witness**: one item, a transport-failing AI, and the `all` scope. -/
theorem scope_fallback_verdicts_witness :
    ((generate_verdicts_from_items
        [({ title := some "t", platform := some "p" } : ItemDict)] "2025-01-15"
        none 400 3 (fun _ _ _ => .transportError) []).2).filter
      (fun v => v.scope_key == "all") =
      [verdictForScope "all" "2025-01-15"
        ⟨none, none, [{ title := some "t", platform := some "p" }]⟩ none] := by
  exact (scope_fallback_verdicts
    [{ title := some "t", platform := some "p" }] "2025-01-15" none 400 3
    (fun _ _ _ => .transportError) (fun _ _ => rfl)
    ("all", ⟨none, none, [{ title := some "t", platform := some "p" }]⟩)
    (by decide)).1

set_option maxRecDepth 16000

/-- String equality via the underlying character lists. -/
theorem stringDataExt {s t : String} (h : s.data = t.data) : s = t := by
  cases s
  cases t
  exact congrArg String.mk h

/-- The continuation prompt decomposes around the previous verdict's summary
and four scores. -/
theorem continuation_prompt_decomposition (chunk : List ItemDict)
    (v : VerdictResult) (cn tc ip : Nat) (lang : Option String) :
    build_daily_verdict_continuation_prompt chunk v cn tc ip lang =
      contPromptHead cn tc ip ++ v.summary
      ++ "\n- Global Political Score: " ++ toString v.global_political_score
      ++ "\n- Global Economic Score: " ++ toString v.global_economic_score
      ++ "\n- Domestic Political Score: "
      ++ toString v.domestic_political_score
      ++ "\n- Domestic Economic Score: "
      ++ toString v.domestic_economic_score
      ++ contPromptTail chunk ip lang := by
  apply stringDataExt
  simp [build_daily_verdict_continuation_prompt, contPromptHead,
    contPromptTail, String.data_append, List.append_assoc]

/-- The continuation prompt contains the previous verdict's summary and all
four of its scores verbatim. -/
theorem continuation_prompt_carries_context (chunk : List ItemDict)
    (v : VerdictResult) (cn tc ip : Nat) (lang : Option String) :
    v.summary.data <:+:
      (build_daily_verdict_continuation_prompt chunk v cn tc ip lang).data ∧
    (toString v.global_political_score).data <:+:
      (build_daily_verdict_continuation_prompt chunk v cn tc ip lang).data ∧
    (toString v.global_economic_score).data <:+:
      (build_daily_verdict_continuation_prompt chunk v cn tc ip lang).data ∧
    (toString v.domestic_political_score).data <:+:
      (build_daily_verdict_continuation_prompt chunk v cn tc ip lang).data ∧
    (toString v.domestic_economic_score).data <:+:
      (build_daily_verdict_continuation_prompt chunk v cn tc ip lang).data := by
  rw [continuation_prompt_decomposition]
  refine ⟨⟨(contPromptHead cn tc ip).data,
      ("\n- Global Political Score: " ++ toString v.global_political_score
        ++ "\n- Global Economic Score: " ++ toString v.global_economic_score
        ++ "\n- Domestic Political Score: "
        ++ toString v.domestic_political_score
        ++ "\n- Domestic Economic Score: "
        ++ toString v.domestic_economic_score
        ++ contPromptTail chunk ip lang).data, ?_⟩,
    ⟨(contPromptHead cn tc ip ++ v.summary
        ++ "\n- Global Political Score: ").data,
      ("\n- Global Economic Score: " ++ toString v.global_economic_score
        ++ "\n- Domestic Political Score: "
        ++ toString v.domestic_political_score
        ++ "\n- Domestic Economic Score: "
        ++ toString v.domestic_economic_score
        ++ contPromptTail chunk ip lang).data, ?_⟩,
    ⟨(contPromptHead cn tc ip ++ v.summary
        ++ "\n- Global Political Score: " ++ toString v.global_political_score
        ++ "\n- Global Economic Score: ").data,
      ("\n- Domestic Political Score: "
        ++ toString v.domestic_political_score
        ++ "\n- Domestic Economic Score: "
        ++ toString v.domestic_economic_score
        ++ contPromptTail chunk ip lang).data, ?_⟩,
    ⟨(contPromptHead cn tc ip ++ v.summary
        ++ "\n- Global Political Score: " ++ toString v.global_political_score
        ++ "\n- Global Economic Score: " ++ toString v.global_economic_score
        ++ "\n- Domestic Political Score: ").data,
      ("\n- Domestic Economic Score: "
        ++ toString v.domestic_economic_score
        ++ contPromptTail chunk ip lang).data, ?_⟩,
    ⟨(contPromptHead cn tc ip ++ v.summary
        ++ "\n- Global Political Score: " ++ toString v.global_political_score
        ++ "\n- Global Economic Score: " ++ toString v.global_economic_score
        ++ "\n- Domestic Political Score: "
        ++ toString v.domestic_political_score
        ++ "\n- Domestic Economic Score: ").data,
      (contPromptTail chunk ip lang).data, ?_⟩⟩ <;>
  simp [String.data_append, List.append_assoc]

/-- **C5**: with 900 items and `max_items = 400` and an AI collaborator whose
every call succeeds, `generate_daily_verdict` issues exactly 3 calls over the
consecutive chunks of 400, 400 and 100 items, the 2nd and 3rd prompts are
continuation prompts built from the previous call's verdict (hence contain
its summary and all four scores — see the final conjunct), and the returned
verdict is the 3rd call's parsed response. -/
theorem chunked_verdict_900 (items : List ItemDict) (lang : Option String)
    (retry : Nat) (af : Nat → Nat → ApiAttempt) (vs : Nat → VerdictResult)
    (hlen : items.length = 900)
    (hok : ∀ k, call_verdict_api (af k) retry = some (vs k)) :
    generate_daily_verdict items lang 400 retry af =
      (some (vs 2),
       [build_daily_verdict_prompt (items.take 400) lang 400,
        build_daily_verdict_continuation_prompt ((items.drop 400).take 400)
          (vs 0) 2 3 400 lang,
        build_daily_verdict_continuation_prompt ((items.drop 800).take 400)
          (vs 1) 3 3 800 lang]) ∧
    (items.take 400).length = 400 ∧
    ((items.drop 400).take 400).length = 400 ∧
    ((items.drop 800).take 400).length = 100 ∧
    (∀ (chunk : List ItemDict) (v : VerdictResult) (cn tc ip : Nat),
      v.summary.data <:+:
        (build_daily_verdict_continuation_prompt chunk v cn tc ip lang).data ∧
      (toString v.global_political_score).data <:+:
        (build_daily_verdict_continuation_prompt chunk v cn tc ip lang).data ∧
      (toString v.global_economic_score).data <:+:
        (build_daily_verdict_continuation_prompt chunk v cn tc ip lang).data ∧
      (toString v.domestic_political_score).data <:+:
        (build_daily_verdict_continuation_prompt chunk v cn tc ip lang).data ∧
      (toString v.domestic_economic_score).data <:+:
        (build_daily_verdict_continuation_prompt chunk v cn tc ip lang).data) := by
  have h1 : (items.take 400).length = 400 := by
    rw [List.length_take, hlen]
    omega
  have h2 : ((items.drop 400).take 400).length = 400 := by
    rw [List.length_take, List.length_drop, hlen]
    omega
  have h3 : ((items.drop 800).take 400).length = 100 := by
    rw [List.length_take, List.length_drop, hlen]
    omega
  refine ⟨?_, h1, h2, h3,
    fun chunk v cn tc ip => continuation_prompt_carries_context chunk v cn tc
      ip lang⟩
  have hne : items ≠ [] := by
    intro h
    rw [h] at hlen
    cases hlen
  have hgt : ¬ items.length ≤ 400 := by omega
  unfold generate_daily_verdict
  rw [if_neg hne, if_neg hgt]
  have htc : (items.length + 400 - 1) / 400 = 3 := by
    rw [hlen]
  show verdictChunkLoop items lang 400 retry ((items.length + 400 - 1) / 400)
    af (List.range ((items.length + 400 - 1) / 400)) none 0 [] = _
  rw [htc, show List.range 3 = [0, 1, 2] from rfl]
  simp only [verdictChunkLoop, hok 0, hok 1, hok 2, Nat.zero_mul,
    Nat.one_mul, List.drop_zero, Option.getD_some, Nat.zero_add, h1, h2,
    if_pos rfl, Nat.reduceMul, Nat.reduceAdd]
  norm_num

/-- **C5 witness**: the theorem at a concrete 900-item list and an oracle
that always returns the same valid response. -/
theorem chunked_verdict_900_witness :
    (generate_daily_verdict (List.replicate 900 ({} : ItemDict)) none 400 3
      (fun _ _ => .response (some [("summary", .str "S."),
        ("global_political_score", .int 10),
        ("global_economic_score", .int 20),
        ("domestic_political_score", .int 30),
        ("domestic_economic_score", .int 40)]))).1 =
      some ⟨"S.", 10, 20, 30, 40⟩ := by
  exact congrArg Prod.fst
    ((chunked_verdict_900 (List.replicate 900 ({} : ItemDict)) none 3
      (fun _ _ => .response (some [("summary", .str "S."),
        ("global_political_score", .int 10),
        ("global_economic_score", .int 20),
        ("domestic_political_score", .int 30),
        ("domestic_economic_score", .int 40)]))
      (fun _ => ⟨"S.", 10, 20, 30, 40⟩)
      (by simp) (fun k => rfl)).1)

/-- **C3 counterexample**: `cexItemA` has only its platform set, yet it
appears in exactly one scope, not two: the `platform+region` scope key of
`cexItemB` collides with `cexItemA`'s platform scope key
(`platform:a|region:b`), and the later dict assignment overwrites the
platform scope. -/
theorem scope_membership_count_cex :
    truthy cexItemA.platform = true ∧ scopeRegion cexItemA = "" ∧
    ((build_scopes_from_items [cexItemA, cexItemB]).filter
      (fun kv => kv.2.items.contains cexItemA)).length = 1 := by
  refine ⟨rfl, rfl, ?_⟩
  rfl

/-- The `all_items` component of the scope-building fold accumulates every
item in order. -/
theorem foldl_scopeStep_all_items (items : List ItemDict) :
    ∀ acc : ScopeAcc,
      (items.foldl scopeStep acc).all_items = acc.all_items ++ items := by
  induction items with
  | nil => intro acc; simp
  | cons i rest ih =>
    intro acc
    rw [List.foldl_cons, ih]
    show acc.all_items ++ [i] ++ rest = _
    simp

/-- The `by_platform` component of the scope-building fold is itself a fold
of guarded keyed appends. -/
theorem foldl_scopeStep_by_platform (items : List ItemDict) :
    ∀ acc : ScopeAcc,
      (items.foldl scopeStep acc).by_platform =
        items.foldl (fun m i =>
          if scopePlatform i ≠ "" then alistAppend m (scopePlatform i) i
          else m) acc.by_platform := by
  induction items with
  | nil => intro acc; simp
  | cons i rest ih =>
    intro acc
    rw [List.foldl_cons, ih, List.foldl_cons]
    rfl

/-- The `by_region` component of the scope-building fold is itself a fold of
guarded keyed appends. -/
theorem foldl_scopeStep_by_region (items : List ItemDict) :
    ∀ acc : ScopeAcc,
      (items.foldl scopeStep acc).by_region =
        items.foldl (fun m i =>
          if scopeRegion i ≠ "" then alistAppend m (scopeRegion i) i
          else m) acc.by_region := by
  induction items with
  | nil => intro acc; simp
  | cons i rest ih =>
    intro acc
    rw [List.foldl_cons, ih, List.foldl_cons]
    rfl

/-- The `by_platform_region` component of the scope-building fold is itself
a fold of guarded keyed appends. -/
theorem foldl_scopeStep_by_platform_region (items : List ItemDict) :
    ∀ acc : ScopeAcc,
      (items.foldl scopeStep acc).by_platform_region =
        items.foldl (fun m i =>
          if scopePlatform i ≠ "" && scopeRegion i ≠ "" then
            prAppend m (scopePlatform i, scopeRegion i) i
          else m) acc.by_platform_region := by
  induction items with
  | nil => intro acc; simp
  | cons i rest ih =>
    intro acc
    rw [List.foldl_cons, ih, List.foldl_cons]
    rfl

/-- A uniform-key guarded-append fold extends the single entry. -/
theorem uniform_alistAppend_fold (keyf : ItemDict → String) (K : String)
    (hK : K ≠ "") :
    ∀ (items : List ItemDict) (vs : List ItemDict),
      (∀ i ∈ items, keyf i = K) →
      items.foldl (fun m i =>
        if keyf i ≠ "" then alistAppend m (keyf i) i else m) [(K, vs)] =
      [(K, vs ++ items)] := by
  intro items
  induction items with
  | nil => intro vs _; simp
  | cons i rest ih =>
    intro vs h
    have hi : keyf i = K := h i (List.mem_cons_self _ _)
    rw [List.foldl_cons, if_pos (by rw [hi]; exact hK), hi]
    have e : alistAppend [(K, vs)] K i = [(K, vs ++ [i])] := by
      simp [alistAppend]
    rw [e, ih (vs ++ [i]) (fun j hj => h j (List.mem_cons_of_mem _ hj))]
    simp

/-- A uniform-key guarded-append fold over the `(platform, region)` map. -/
theorem uniform_prAppend_fold (K : String × String) :
    ∀ (items : List ItemDict) (vs : List ItemDict),
      (∀ i ∈ items, scopePlatform i = K.1 ∧ scopeRegion i = K.2) →
      K.1 ≠ "" → K.2 ≠ "" →
      items.foldl (fun m i =>
        if scopePlatform i ≠ "" && scopeRegion i ≠ "" then
          prAppend m (scopePlatform i, scopeRegion i) i
        else m) [(K, vs)] =
      [(K, vs ++ items)] := by
  intro items
  induction items with
  | nil => intro vs _ _ _; simp
  | cons i rest ih =>
    intro vs h h1 h2
    have hi := h i (List.mem_cons_self _ _)
    rw [List.foldl_cons, if_pos (by rw [hi.1, hi.2]; simp [h1, h2]),
      hi.1, hi.2]
    have e : prAppend [(K, vs)] (K.1, K.2) i = [(K, vs ++ [i])] := by
      simp [prAppend]
    rw [e, ih (vs ++ [i]) (fun j hj => h j (List.mem_cons_of_mem _ hj)) h1 h2]
    simp

/-- Strings of different lengths are different. -/
theorem string_ne_of_length_ne {s t : String} (h : s.length ≠ t.length) :
    s ≠ t := fun he => h (congrArg String.length he)

/-- String concatenation is associative. -/
theorem string_append_assoc (a b c : String) : a ++ b ++ c = a ++ (b ++ c) :=
  stringDataExt (by simp [String.data_append])

/-- A platform scope key never equals a region scope key. -/
theorem platform_key_ne_region_key (a b : String) :
    "platform:" ++ a ≠ "region:" ++ b := by
  intro h
  have hd := congrArg String.data h
  rw [String.data_append, String.data_append,
    show ("platform:" : String).data = 'p' :: "latform:".data from rfl,
    show ("region:" : String).data = 'r' :: "egion:".data from rfl] at hd
  simp at hd

/-- First part of the amended C3: for a batch in which every item carries the
same non-empty platform `P` and region `R`, the scope partitioner produces
exactly the four scopes `all`, `platform:P`, `region:R` and
`platform:P|region:R`, in this order, each holding exactly the whole
batch. -/
theorem scope_partition_uniform (items : List ItemDict) (P R : String)
    (hne : items ≠ []) (hP : P ≠ "") (hR : R ≠ "")
    (h : ∀ i ∈ items, scopePlatform i = P ∧ scopeRegion i = R) :
    build_scopes_from_items items =
      [("all", ⟨none, none, items⟩),
       ("platform:" ++ P, ⟨some P, none, items⟩),
       ("region:" ++ R, ⟨none, some R, items⟩),
       ("platform:" ++ P ++ "|region:" ++ R, ⟨some P, some R, items⟩)] := by
  have h9 : ("platform:" : String).length = 9 := rfl
  have h7 : ("region:" : String).length = 7 := rfl
  have h8 : ("|region:" : String).length = 8 := rfl
  have h3 : ("all" : String).length = 3 := rfl
  have hne1 : ¬ (("all" : String) = "platform:" ++ P) := by
    intro he
    have := congrArg String.length he
    rw [String.length_append, h9, h3] at this
    omega
  have hne2 : ¬ (("all" : String) = "region:" ++ R) := by
    intro he
    have := congrArg String.length he
    rw [String.length_append, h7, h3] at this
    omega
  have hne3 : ¬ (("platform:" ++ P) = "region:" ++ R) :=
    platform_key_ne_region_key P R
  have hne4 : ¬ (("all" : String) = "platform:" ++ P ++ "|region:" ++ R) := by
    intro he
    have := congrArg String.length he
    rw [String.length_append, String.length_append, String.length_append,
      h9, h8, h3] at this
    omega
  have hne5 : ¬ (("platform:" ++ P) = "platform:" ++ P ++ "|region:" ++ R) := by
    intro he
    have := congrArg String.length he
    rw [String.length_append ("platform:" ++ P ++ "|region:") R,
      String.length_append ("platform:" ++ P) "|region:", h8] at this
    omega
  have hne6 : ¬ (("region:" ++ R) = "platform:" ++ P ++ "|region:" ++ R) := by
    intro he
    rw [string_append_assoc, string_append_assoc] at he
    exact platform_key_ne_region_key (P ++ ("|region:" ++ R)) R he.symm
  obtain ⟨i0, items', rfl⟩ : ∃ a l, items = a :: l := by
    cases items with
    | nil => exact absurd rfl hne
    | cons a l => exact ⟨a, l, rfl⟩
  have hi0 := h i0 (List.mem_cons_self _ _)
  have hrest : ∀ i ∈ items', scopePlatform i = P ∧ scopeRegion i = R :=
    fun i hi => h i (List.mem_cons_of_mem _ hi)
  have hall : ((i0 :: items').foldl scopeStep ⟨[], [], [], []⟩).all_items =
      i0 :: items' := by
    rw [foldl_scopeStep_all_items]
    rfl
  have hbp : ((i0 :: items').foldl scopeStep ⟨[], [], [], []⟩).by_platform =
      [(P, i0 :: items')] := by
    rw [foldl_scopeStep_by_platform]
    show List.foldl _ (if scopePlatform i0 ≠ "" then
      alistAppend [] (scopePlatform i0) i0 else []) items' = _
    rw [if_pos (by rw [hi0.1]; exact hP), hi0.1]
    show List.foldl _ [(P, [i0])] items' = _
    rw [uniform_alistAppend_fold scopePlatform P hP items' [i0]
      (fun i hi => (hrest i hi).1)]
    rfl
  have hbr : ((i0 :: items').foldl scopeStep ⟨[], [], [], []⟩).by_region =
      [(R, i0 :: items')] := by
    rw [foldl_scopeStep_by_region]
    show List.foldl _ (if scopeRegion i0 ≠ "" then
      alistAppend [] (scopeRegion i0) i0 else []) items' = _
    rw [if_pos (by rw [hi0.2]; exact hR), hi0.2]
    show List.foldl _ [(R, [i0])] items' = _
    rw [uniform_alistAppend_fold scopeRegion R hR items' [i0]
      (fun i hi => (hrest i hi).2)]
    rfl
  have hbpr : ((i0 :: items').foldl scopeStep
      ⟨[], [], [], []⟩).by_platform_region = [((P, R), i0 :: items')] := by
    rw [foldl_scopeStep_by_platform_region]
    show List.foldl _ (if scopePlatform i0 ≠ "" && scopeRegion i0 ≠ "" then
      prAppend [] (scopePlatform i0, scopeRegion i0) i0 else []) items' = _
    rw [if_pos (by rw [hi0.1, hi0.2]; simp [hP, hR]), hi0.1, hi0.2]
    show List.foldl _ [((P, R), [i0])] items' = _
    rw [uniform_prAppend_fold (P, R) items' [i0] hrest hP hR]
    rfl
  have hkP : scope_key (some P) none = "platform:" ++ P := by
    simp [scope_key, truthy, hP]
  have hkR : scope_key none (some R) = "region:" ++ R := by
    simp [scope_key, truthy, hR]
  have hkPR : scope_key (some P) (some R) =
      "platform:" ++ P ++ "|region:" ++ R := by
    simp [scope_key, truthy, hP, hR]
  unfold build_scopes_from_items
  dsimp only
  rw [hall, hbp, hbr, hbpr]
  rw [if_pos (by simp : (i0 :: items') ≠ [])]
  rw [List.foldl_cons, List.foldl_nil, List.foldl_cons, List.foldl_nil,
    List.foldl_cons, List.foldl_nil]
  rw [hkP, hkR, hkPR]
  simp only [alistSet, if_neg hne1, if_neg hne2, if_neg hne3, if_neg hne4,
    if_neg hne5, if_neg hne6]

/-- The key list of a `setdefault`-append: unchanged when the key was
present, otherwise extended by the key. -/
theorem alistAppend_map_fst {β : Type} (m : List (String × List β))
    (k : String) (v : β) :
    (alistAppend m k v).map Prod.fst =
      if k ∈ m.map Prod.fst then m.map Prod.fst
      else m.map Prod.fst ++ [k] := by
  induction m with
  | nil => simp [alistAppend]
  | cons kv rest ih =>
    obtain ⟨k₀, v₀⟩ := kv
    by_cases hk : k₀ = k
    · subst hk
      simp [alistAppend]
    · by_cases hmem : k ∈ rest.map Prod.fst
      · simp [alistAppend, hk, ih, hmem, Ne.symm hk]
      · simp [alistAppend, hk, ih, hmem, Ne.symm hk]

/-- The key list of a `(platform, region)`-keyed `setdefault`-append. -/
theorem prAppend_map_fst (m : List ((String × String) × List ItemDict))
    (k : String × String) (v : ItemDict) :
    (prAppend m k v).map Prod.fst =
      if k ∈ m.map Prod.fst then m.map Prod.fst
      else m.map Prod.fst ++ [k] := by
  induction m with
  | nil => simp [prAppend]
  | cons kv rest ih =>
    obtain ⟨k₀, v₀⟩ := kv
    by_cases hk : k₀ = k
    · subst hk
      simp [prAppend]
    · by_cases hmem : k ∈ rest.map Prod.fst
      · simp [prAppend, hk, ih, hmem, Ne.symm hk]
      · simp [prAppend, hk, ih, hmem, Ne.symm hk]

/-- Assigning a fresh key appends the entry. -/
theorem alistSet_fresh {β : Type} (m : List (String × β)) (k : String)
    (v : β) (h : k ∉ m.map Prod.fst) : alistSet m k v = m ++ [(k, v)] := by
  induction m with
  | nil => simp [alistSet]
  | cons kv rest ih =>
    obtain ⟨k₀, v₀⟩ := kv
    simp only [List.map_cons, List.mem_cons, not_or] at h
    simp [alistSet, Ne.symm h.1, ih h.2]

/-- Folding assignments of pairwise-fresh keys appends the mapped entries. -/
theorem foldl_alistSet_fresh {γ : Type} (keyfn : γ → String)
    (valfn : γ → ScopeData) (entries : List γ) :
    ∀ s : List (String × ScopeData),
      (∀ e ∈ entries, keyfn e ∉ s.map Prod.fst) →
      ((entries.map keyfn).Nodup) →
      entries.foldl (fun acc e => alistSet acc (keyfn e) (valfn e)) s =
        s ++ entries.map (fun e => (keyfn e, valfn e)) := by
  induction entries with
  | nil => intro s _ _; simp
  | cons e rest ih =>
    intro s hfresh hnd
    rw [List.map_cons, List.nodup_cons] at hnd
    rw [List.foldl_cons,
      alistSet_fresh s (keyfn e) (valfn e)
        (hfresh e (List.mem_cons_self _ _)),
      ih (s ++ [(keyfn e, valfn e)]) ?_ hnd.2]
    · simp
    · intro e' he'
      rw [List.map_append]
      simp only [List.mem_append, not_or]
      refine ⟨hfresh e' (List.mem_cons_of_mem _ he'), ?_⟩
      simp only [List.map_cons, List.map_nil, List.mem_singleton]
      intro hcontra
      exact hnd.1 (hcontra ▸ List.mem_map_of_mem keyfn he')

/-- Cancellation of a common string prefix. -/
theorem string_append_left_cancel {p a b : String} (h : p ++ a = p ++ b) :
    a = b := by
  apply stringDataExt
  have hd := congrArg String.data h
  rw [String.data_append, String.data_append] at hd
  exact List.append_cancel_left hd

/-- Splitting at a distinguished character not occurring in the prefixes is
unique. -/
theorem pipe_split_unique : ∀ {a c : List Char} {b d : List Char},
    ('|' : Char) ∉ a → ('|' : Char) ∉ c →
    a ++ '|' :: b = c ++ '|' :: d → a = c ∧ b = d := by
  intro a
  induction a with
  | nil =>
    intro c b d _ hc h
    cases c with
    | nil => simpa using h
    | cons x c =>
      simp only [List.nil_append, List.cons_append, List.cons.injEq] at h
      exact absurd (by rw [h.1]; exact List.mem_cons_self x c) hc
  | cons x a ih =>
    intro c b d ha hc h
    cases c with
    | nil =>
      simp only [List.cons_append, List.nil_append, List.cons.injEq] at h
      exact absurd (by rw [← h.1]; exact List.mem_cons_self x a) ha
    | cons y c =>
      simp only [List.cons_append, List.cons.injEq] at h
      obtain ⟨rfl, h2⟩ := h
      have := ih (fun hm => ha (List.mem_cons_of_mem _ hm))
        (fun hm => hc (List.mem_cons_of_mem _ hm)) h2
      exact ⟨by rw [this.1], this.2⟩

/-- Case analysis for an entry of a `setdefault`-append over a map with
distinct keys. -/
theorem alistAppend_entries {β : Type} (m : List (String × List β))
    (k : String) (v : β) (hnd : (m.map Prod.fst).Nodup) :
    ∀ kv ∈ alistAppend m k v,
      (kv ∈ m ∧ kv.1 ≠ k) ∨
      (∃ vs, (k, vs) ∈ m ∧ kv = (k, vs ++ [v])) ∨
      (k ∉ m.map Prod.fst ∧ kv = (k, [v])) := by
  induction m with
  | nil =>
    intro kv hkv
    simp only [alistAppend, List.mem_singleton] at hkv
    exact Or.inr (Or.inr ⟨by simp, hkv⟩)
  | cons kv₀ rest ih =>
    obtain ⟨k₀, v₀⟩ := kv₀
    rw [List.map_cons, List.nodup_cons] at hnd
    intro kv hkv
    by_cases hk : k₀ = k
    · have e : alistAppend ((k₀, v₀) :: rest) k v =
          (k₀, v₀ ++ [v]) :: rest := by
        simp [alistAppend, hk]
      rw [e] at hkv
      rcases List.mem_cons.mp hkv with hkv | hkv
      · have hmem : (k, v₀) ∈ (k₀, v₀) :: rest := by
          rw [← hk]; exact List.mem_cons_self _ _
        exact Or.inr (Or.inl ⟨v₀, hmem, by rw [hkv, hk]⟩)
      · left
        refine ⟨List.mem_cons_of_mem _ hkv, ?_⟩
        intro hcontra
        rw [← hk] at hcontra
        have hmm : kv.1 ∈ List.map Prod.fst rest :=
          List.mem_map_of_mem Prod.fst hkv
        rw [hcontra] at hmm
        exact hnd.1 hmm
    · have e : alistAppend ((k₀, v₀) :: rest) k v =
          (k₀, v₀) :: alistAppend rest k v := by
        simp [alistAppend, hk]
      rw [e] at hkv
      rcases List.mem_cons.mp hkv with hkv | hkv
      · exact Or.inl ⟨by rw [hkv]; exact List.mem_cons_self _ _,
          by rw [hkv]; exact hk⟩
      · rcases ih hnd.2 kv hkv with h' | ⟨vs, hvs, hkv'⟩ | ⟨hk', hkv'⟩
        · exact Or.inl ⟨List.mem_cons_of_mem _ h'.1, h'.2⟩
        · exact Or.inr (Or.inl ⟨vs, List.mem_cons_of_mem _ hvs, hkv'⟩)
        · refine Or.inr (Or.inr ⟨?_, hkv'⟩)
          simp only [List.map_cons, List.mem_cons, not_or]
          exact ⟨Ne.symm hk, hk'⟩

/-- Case analysis for an entry of a `(platform, region)`-keyed
`setdefault`-append. -/
theorem prAppend_entries (m : List ((String × String) × List ItemDict))
    (k : String × String) (v : ItemDict) :
    ∀ kv ∈ prAppend m k v,
      kv ∈ m ∨ (∃ vs, (k, vs) ∈ m ∧ kv = (k, vs ++ [v])) ∨ kv = (k, [v]) := by
  induction m with
  | nil =>
    intro kv hkv
    simp only [prAppend, List.mem_singleton] at hkv
    exact Or.inr (Or.inr hkv)
  | cons kv₀ rest ih =>
    obtain ⟨k₀, v₀⟩ := kv₀
    intro kv hkv
    by_cases hk : k₀ = k
    · have e : prAppend ((k₀, v₀) :: rest) k v = (k₀, v₀ ++ [v]) :: rest := by
        simp [prAppend, hk]
      rw [e] at hkv
      rcases List.mem_cons.mp hkv with hkv | hkv
      · have hmem : (k, v₀) ∈ (k₀, v₀) :: rest := by
          rw [← hk]; exact List.mem_cons_self _ _
        exact Or.inr (Or.inl ⟨v₀, hmem, by rw [hkv, hk]⟩)
      · exact Or.inl (List.mem_cons_of_mem _ hkv)
    · have e : prAppend ((k₀, v₀) :: rest) k v =
          (k₀, v₀) :: prAppend rest k v := by
        simp [prAppend, hk]
      rw [e] at hkv
      rcases List.mem_cons.mp hkv with hkv | hkv
      · exact Or.inl (by rw [hkv]; exact List.mem_cons_self _ _)
      · rcases ih kv hkv with h' | ⟨vs, hvs, hkv'⟩ | hkv'
        · exact Or.inl (List.mem_cons_of_mem _ h')
        · exact Or.inr (Or.inl ⟨vs, List.mem_cons_of_mem _ hvs, hkv'⟩)
        · exact Or.inr (Or.inr hkv')

/-- Characterization of the guarded keyed-append fold used for the platform
and region grouping maps: every entry holds exactly the batch items with its
(non-empty) key, keys are distinct, and every non-empty key occurring in the
batch is present. -/
theorem keyed_fold_char (keyf : ItemDict → String) (items : List ItemDict) :
    ∀ (processed : List ItemDict) (m : List (String × List ItemDict)),
      (∀ kv ∈ m, kv.1 ≠ "" ∧
        kv.2 = processed.filter (fun x => keyf x == kv.1)) →
      ((m.map Prod.fst).Nodup) →
      (∀ Q, Q ≠ "" → (∃ x ∈ processed, keyf x = Q) → Q ∈ m.map Prod.fst) →
      (∀ kv ∈ items.foldl (fun m i =>
          if keyf i ≠ "" then alistAppend m (keyf i) i else m) m,
        kv.1 ≠ "" ∧
        kv.2 = (processed ++ items).filter (fun x => keyf x == kv.1)) ∧
      (((items.foldl (fun m i =>
          if keyf i ≠ "" then alistAppend m (keyf i) i else m) m).map
        Prod.fst).Nodup) ∧
      (∀ Q, Q ≠ "" → (∃ x ∈ processed ++ items, keyf x = Q) →
        Q ∈ (items.foldl (fun m i =>
          if keyf i ≠ "" then alistAppend m (keyf i) i else m) m).map
          Prod.fst) := by
  induction items with
  | nil =>
    intro processed m h1 h2 h3
    rw [List.foldl_nil, List.append_nil]
    exact ⟨h1, h2, h3⟩
  | cons i rest ih =>
    intro processed m h1 h2 h3
    rw [List.foldl_cons, List.append_cons]
    by_cases hk : keyf i = ""
    · rw [if_neg (by simpa using hk)]
      refine ih (processed ++ [i]) m ?_ h2 ?_
      · intro kv hkv
        obtain ⟨hne, hval⟩ := h1 kv hkv
        refine ⟨hne, ?_⟩
        rw [List.filter_append,
          show List.filter (fun x => keyf x == kv.1) [i] = [] from by
            simp [hk, Ne.symm hne],
          List.append_nil]
        exact hval
      · intro Q hQ ⟨x, hx, hkx⟩
        rcases List.mem_append.mp hx with hx' | hx'
        · exact h3 Q hQ ⟨x, hx', hkx⟩
        · simp only [List.mem_singleton] at hx'
          subst hx'
          exact absurd (hk ▸ hkx) (Ne.symm hQ)
    · rw [if_pos (by simpa using hk)]
      have hsub : ∀ Q, Q ∈ m.map Prod.fst →
          Q ∈ (alistAppend m (keyf i) i).map Prod.fst := by
        intro Q hQ
        rw [alistAppend_map_fst]
        split
        · exact hQ
        · exact List.mem_append.mpr (Or.inl hQ)
      refine ih (processed ++ [i]) (alistAppend m (keyf i) i) ?_ ?_ ?_
      · intro kv hkv
        rcases alistAppend_entries m (keyf i) i h2 kv hkv with
          ⟨hmem, hne⟩ | ⟨vs, hvs, hkv'⟩ | ⟨hfst, hkv'⟩
        · obtain ⟨hne', hval⟩ := h1 kv hmem
          refine ⟨hne', ?_⟩
          rw [List.filter_append,
            show List.filter (fun x => keyf x == kv.1) [i] = [] from by
              simp [Ne.symm hne],
            List.append_nil]
          exact hval
        · obtain ⟨hne', hval⟩ := h1 (keyf i, vs) hvs
          rw [hkv']
          refine ⟨hk, ?_⟩
          show vs ++ [i] =
            List.filter (fun x => keyf x == keyf i) (processed ++ [i])
          rw [List.filter_append,
            show List.filter (fun x => keyf x == keyf i) [i] = [i] from by
              simp]
          exact congrArg (fun l => l ++ [i]) hval
        · rw [hkv']
          refine ⟨hk, ?_⟩
          show [i] =
            List.filter (fun x => keyf x == keyf i) (processed ++ [i])
          have hnone : processed.filter (fun x => keyf x == keyf i) = [] := by
            rw [List.filter_eq_nil_iff]
            intro x hx
            simp only [beq_iff_eq]
            intro hcontra
            exact hfst (h3 (keyf i) hk ⟨x, hx, hcontra⟩)
          rw [List.filter_append, hnone,
            show List.filter (fun x => keyf x == keyf i) [i] = [i] from by
              simp, List.nil_append]
      · rw [alistAppend_map_fst]
        split
        · exact h2
        · next hfst =>
          refine List.Nodup.append h2 (List.nodup_singleton _) ?_
          intro a ha hb
          rw [List.mem_singleton] at hb
          subst hb
          exact hfst ha
      · intro Q hQ ⟨x, hx, hkx⟩
        rcases List.mem_append.mp hx with hx' | hx'
        · exact hsub Q (h3 Q hQ ⟨x, hx', hkx⟩)
        · simp only [List.mem_singleton] at hx'
          subst hx'
          rw [← hkx]
          rw [alistAppend_map_fst]
          split
          · next hf => exact hf
          · exact List.mem_append.mpr (Or.inr (List.mem_singleton.mpr rfl))

/-- The invariant of the `(platform, region)` grouping map: distinct keys
with non-empty components, and every member item of an entry comes from the
batch with exactly that platform and region. -/
theorem pr_fold_inv (items : List ItemDict) :
    ∀ (processed : List ItemDict)
      (m : List ((String × String) × List ItemDict)),
      (∀ kv ∈ m, kv.1.1 ≠ "" ∧ kv.1.2 ≠ "" ∧
        ∀ x ∈ kv.2, x ∈ processed ∧ scopePlatform x = kv.1.1 ∧
          scopeRegion x = kv.1.2) →
      ((m.map Prod.fst).Nodup) →
      (∀ kv ∈ items.foldl (fun m i =>
          if scopePlatform i ≠ "" && scopeRegion i ≠ "" then
            prAppend m (scopePlatform i, scopeRegion i) i
          else m) m,
        kv.1.1 ≠ "" ∧ kv.1.2 ≠ "" ∧
        ∀ x ∈ kv.2, x ∈ processed ++ items ∧ scopePlatform x = kv.1.1 ∧
          scopeRegion x = kv.1.2) ∧
      (((items.foldl (fun m i =>
          if scopePlatform i ≠ "" && scopeRegion i ≠ "" then
            prAppend m (scopePlatform i, scopeRegion i) i
          else m) m).map Prod.fst).Nodup) := by
  induction items with
  | nil =>
    intro processed m h1 h2
    rw [List.foldl_nil, List.append_nil]
    exact ⟨h1, h2⟩
  | cons i rest ih =>
    intro processed m h1 h2
    rw [List.foldl_cons, List.append_cons]
    by_cases hg : (scopePlatform i ≠ "" && scopeRegion i ≠ "") = true
    · rw [if_pos hg]
      simp only [Bool.and_eq_true, ne_eq, decide_not, Bool.not_eq_eq_eq_not,
        Bool.not_true, decide_eq_false_iff_not] at hg
      refine ih (processed ++ [i]) _ ?_ ?_
      · intro kv hkv
        rcases prAppend_entries m (scopePlatform i, scopeRegion i) i kv hkv
          with hmem | ⟨vs, hvs, hkv'⟩ | hkv'
        · obtain ⟨ha, hb, hc⟩ := h1 kv hmem
          exact ⟨ha, hb, fun x hx =>
            ⟨List.mem_append.mpr (Or.inl (hc x hx).1), (hc x hx).2.1,
             (hc x hx).2.2⟩⟩
        · obtain ⟨ha, hb, hc⟩ := h1 _ hvs
          subst hkv'
          refine ⟨hg.1, hg.2, ?_⟩
          intro x hx
          rcases List.mem_append.mp hx with hx' | hx'
          · exact ⟨List.mem_append.mpr (Or.inl (hc x hx').1),
              (hc x hx').2.1, (hc x hx').2.2⟩
          · simp only [List.mem_singleton] at hx'
            subst hx'
            exact ⟨List.mem_append.mpr (Or.inr (List.mem_singleton.mpr rfl)),
              rfl, rfl⟩
        · subst hkv'
          refine ⟨hg.1, hg.2, ?_⟩
          intro x hx
          simp only [List.mem_singleton] at hx
          subst hx
          exact ⟨List.mem_append.mpr (Or.inr (List.mem_singleton.mpr rfl)),
            rfl, rfl⟩
      · rw [prAppend_map_fst]
        split
        · exact h2
        · next hfst =>
          refine List.Nodup.append h2 (List.nodup_singleton _) ?_
          intro a ha hb
          rw [List.mem_singleton] at hb
          subst hb
          exact hfst ha
    · rw [if_neg hg]
      refine ih (processed ++ [i]) m ?_ h2
      intro kv hkv
      obtain ⟨ha, hb, hc⟩ := h1 kv hkv
      exact ⟨ha, hb, fun x hx => ⟨List.mem_append.mpr (Or.inl (hc x hx).1),
        (hc x hx).2.1, (hc x hx).2.2⟩⟩

/-- Filtering a mapped list filters the original through the composed
predicate. -/
theorem filter_of_map {α β : Type} (f : α → β) (p : β → Bool) :
    ∀ l : List α, (l.map f).filter p = (l.filter (fun x => p (f x))).map f := by
  intro l
  induction l with
  | nil => rfl
  | cons a t ih =>
    by_cases h : p (f a) = true
    · simp only [List.map_cons, List.filter_cons, h, if_true, ih]
    · simp [List.filter_cons, h, ih]

/-- Predicates that agree on the members of a list filter it identically. -/
theorem filter_congr_members {α : Type} (p q : α → Bool) :
    ∀ l : List α, (∀ x ∈ l, p x = q x) → l.filter p = l.filter q := by
  intro l
  induction l with
  | nil => intro _; rfl
  | cons a t ih =>
    intro h
    rw [List.filter_cons, List.filter_cons, h a (List.mem_cons_self _ _),
      ih (fun x hx => h x (List.mem_cons_of_mem _ hx))]

/-- Filtering an association list with distinct keys for one present key
yields exactly that entry. -/
theorem filter_key_singleton {β : Type} (Q : String) :
    ∀ l : List (String × β), (l.map Prod.fst).Nodup → Q ∈ l.map Prod.fst →
      ∃ v, l.filter (fun kv => kv.1 == Q) = [(Q, v)] := by
  intro l
  induction l with
  | nil =>
    intro _ hmem
    simp at hmem
  | cons kv rest ih =>
    obtain ⟨k1, v1⟩ := kv
    intro hnd hmem
    rw [List.map_cons, List.nodup_cons] at hnd
    by_cases hk : k1 = Q
    · have hrest : rest.filter (fun kv' => kv'.1 == Q) = [] := by
        rw [List.filter_eq_nil_iff]
        intro x hx hcontra
        simp only [beq_iff_eq] at hcontra
        apply hnd.1
        rw [hk, ← hcontra]
        have hmm := List.mem_map_of_mem Prod.fst hx
        exact hmm
      refine ⟨v1, ?_⟩
      subst hk
      simp [List.filter_cons, hrest]
    · have hmem' : Q ∈ rest.map Prod.fst := by
        rw [List.map_cons, List.mem_cons] at hmem
        rcases hmem with h | h
        · exact absurd h.symm hk
        · exact h
      obtain ⟨v, hv⟩ := ih hnd.2 hmem'
      refine ⟨v, ?_⟩
      simp only [List.filter_cons, show ((k1, v1).1 == Q) = false from by
        simp [hk], if_false]
      exact hv

/-- The pipe character occurs in every composite scope-key suffix. -/
theorem pipe_mem_composite (a b : String) :
    ('|' : Char) ∈ (a ++ "|region:" ++ b).data := by
  rw [String.data_append, String.data_append]
  refine List.mem_append.mpr (Or.inl (List.mem_append.mpr (Or.inr ?_)))
  show ('|' : Char) ∈ ("|region:" : String).data
  decide

/-- The platform-scope assignment fold, when all its keys are fresh. -/
theorem platform_stage_fold (bp : List (String × List ItemDict))
    (s : List (String × ScopeData))
    (hfresh : ∀ kv ∈ bp, scope_key (some kv.1) none ∉ s.map Prod.fst)
    (hnd : (bp.map (fun kv => scope_key (some kv.1) none)).Nodup) :
    bp.foldl (fun s kv => alistSet s (scope_key (some kv.1) none)
      ⟨some kv.1, none, kv.2⟩) s =
    s ++ bp.map (fun kv => (scope_key (some kv.1) none,
      (⟨some kv.1, none, kv.2⟩ : ScopeData))) :=
  foldl_alistSet_fresh (fun kv => scope_key (some kv.1) none)
    (fun kv => (⟨some kv.1, none, kv.2⟩ : ScopeData)) bp s hfresh hnd

/-- The region-scope assignment fold, when all its keys are fresh. -/
theorem region_stage_fold (br : List (String × List ItemDict))
    (s : List (String × ScopeData))
    (hfresh : ∀ kv ∈ br, scope_key none (some kv.1) ∉ s.map Prod.fst)
    (hnd : (br.map (fun kv => scope_key none (some kv.1))).Nodup) :
    br.foldl (fun s kv => alistSet s (scope_key none (some kv.1))
      ⟨none, some kv.1, kv.2⟩) s =
    s ++ br.map (fun kv => (scope_key none (some kv.1),
      (⟨none, some kv.1, kv.2⟩ : ScopeData))) :=
  foldl_alistSet_fresh (fun kv => scope_key none (some kv.1))
    (fun kv => (⟨none, some kv.1, kv.2⟩ : ScopeData)) br s hfresh hnd

/-- The platform+region-scope assignment fold, when all its keys are
fresh. -/
theorem pr_stage_fold (bpr : List ((String × String) × List ItemDict))
    (s : List (String × ScopeData))
    (hfresh : ∀ kv ∈ bpr,
      scope_key (some kv.1.1) (some kv.1.2) ∉ s.map Prod.fst)
    (hnd : (bpr.map
      (fun kv => scope_key (some kv.1.1) (some kv.1.2))).Nodup) :
    bpr.foldl (fun s kv => alistSet s (scope_key (some kv.1.1) (some kv.1.2))
      ⟨some kv.1.1, some kv.1.2, kv.2⟩) s =
    s ++ bpr.map (fun kv => (scope_key (some kv.1.1) (some kv.1.2),
      (⟨some kv.1.1, some kv.1.2, kv.2⟩ : ScopeData))) :=
  foldl_alistSet_fresh (fun kv => scope_key (some kv.1.1) (some kv.1.2))
    (fun kv => (⟨some kv.1.1, some kv.1.2, kv.2⟩ : ScopeData)) bpr s
    hfresh hnd

/-- Functions that agree on the members of a list map it identically. -/
theorem map_congr_members {α β : Type} (f g : α → β) :
    ∀ l : List α, (∀ x ∈ l, f x = g x) → l.map f = l.map g := by
  intro l
  induction l with
  | nil => intro _; rfl
  | cons a t ih =>
    intro h
    rw [List.map_cons, List.map_cons, h a (List.mem_cons_self _ _),
      ih (fun x hx => h x (List.mem_cons_of_mem _ hx))]

/-- The `by_platform` map of the scope-building fold: entries hold exactly
the batch items with their (non-empty) platform, keys are distinct, and
every non-empty platform of the batch is a key. -/
theorem bp_char (items : List ItemDict) :
    (∀ kv ∈ (items.foldl scopeStep ⟨[], [], [], []⟩).by_platform,
      kv.1 ≠ "" ∧ kv.2 = items.filter (fun x => scopePlatform x == kv.1)) ∧
    (((items.foldl scopeStep ⟨[], [], [], []⟩).by_platform).map
      Prod.fst).Nodup ∧
    (∀ Q, Q ≠ "" → (∃ x ∈ items, scopePlatform x = Q) →
      Q ∈ ((items.foldl scopeStep ⟨[], [], [], []⟩).by_platform).map
        Prod.fst) := by
  have e : (items.foldl scopeStep ⟨[], [], [], []⟩).by_platform =
      items.foldl (fun m i =>
        if scopePlatform i ≠ "" then alistAppend m (scopePlatform i) i
        else m) ([] : List (String × List ItemDict)) :=
    foldl_scopeStep_by_platform items ⟨[], [], [], []⟩
  rw [e]
  have h := keyed_fold_char scopePlatform items [] []
    (by intro kv h; cases h) List.nodup_nil
    (by intro Q hQ hex; obtain ⟨x, hx, _⟩ := hex; cases hx)
  simp only [List.nil_append] at h
  exact h

/-- The `by_region` map of the scope-building fold, characterized the same
way. -/
theorem br_char (items : List ItemDict) :
    (∀ kv ∈ (items.foldl scopeStep ⟨[], [], [], []⟩).by_region,
      kv.1 ≠ "" ∧ kv.2 = items.filter (fun x => scopeRegion x == kv.1)) ∧
    (((items.foldl scopeStep ⟨[], [], [], []⟩).by_region).map
      Prod.fst).Nodup ∧
    (∀ Q, Q ≠ "" → (∃ x ∈ items, scopeRegion x = Q) →
      Q ∈ ((items.foldl scopeStep ⟨[], [], [], []⟩).by_region).map
        Prod.fst) := by
  have e : (items.foldl scopeStep ⟨[], [], [], []⟩).by_region =
      items.foldl (fun m i =>
        if scopeRegion i ≠ "" then alistAppend m (scopeRegion i) i
        else m) ([] : List (String × List ItemDict)) :=
    foldl_scopeStep_by_region items ⟨[], [], [], []⟩
  rw [e]
  have h := keyed_fold_char scopeRegion items [] []
    (by intro kv h; cases h) List.nodup_nil
    (by intro Q hQ hex; obtain ⟨x, hx, _⟩ := hex; cases hx)
  simp only [List.nil_append] at h
  exact h

/-- The `by_platform_region` map of the scope-building fold: distinct keys
with non-empty components, every member item from the batch with that
platform and region. -/
theorem bpr_inv (items : List ItemDict) :
    (∀ kv ∈ (items.foldl scopeStep ⟨[], [], [], []⟩).by_platform_region,
      kv.1.1 ≠ "" ∧ kv.1.2 ≠ "" ∧
      ∀ x ∈ kv.2, x ∈ items ∧ scopePlatform x = kv.1.1 ∧
        scopeRegion x = kv.1.2) ∧
    (((items.foldl scopeStep ⟨[], [], [], []⟩).by_platform_region).map
      Prod.fst).Nodup := by
  have e : (items.foldl scopeStep ⟨[], [], [], []⟩).by_platform_region =
      items.foldl (fun m i =>
        if scopePlatform i ≠ "" && scopeRegion i ≠ "" then
          prAppend m (scopePlatform i, scopeRegion i) i
        else m) ([] : List ((String × String) × List ItemDict)) :=
    foldl_scopeStep_by_platform_region items ⟨[], [], [], []⟩
  rw [e]
  have h := pr_fold_inv items [] [] (by intro kv h; cases h) List.nodup_nil
  simp only [List.nil_append] at h
  exact h

/-- When no platform name of the batch contains the `|` separator, the
assembled scope dict decomposes into the `all` entry followed by the mapped
platform, region and platform+region sections, with no key collisions. -/
theorem build_scopes_decomposition (items : List ItemDict) (hne : items ≠ [])
    (hnopipe : ∀ j ∈ items, ('|' : Char) ∉ (scopePlatform j).data) :
    build_scopes_from_items items =
      [("all", (⟨none, none, items⟩ : ScopeData))]
      ++ ((items.foldl scopeStep ⟨[], [], [], []⟩).by_platform).map
        (fun kv => ("platform:" ++ kv.1,
          (⟨some kv.1, none, kv.2⟩ : ScopeData)))
      ++ ((items.foldl scopeStep ⟨[], [], [], []⟩).by_region).map
        (fun kv => ("region:" ++ kv.1,
          (⟨none, some kv.1, kv.2⟩ : ScopeData)))
      ++ ((items.foldl scopeStep ⟨[], [], [], []⟩).by_platform_region).map
        (fun kv => ("platform:" ++ kv.1.1 ++ "|region:" ++ kv.1.2,
          (⟨some kv.1.1, some kv.1.2, kv.2⟩ : ScopeData))) := by
  have hbp := bp_char items
  have hbr := br_char items
  have hbpr := bpr_inv items
  have hvals := scopeStep_fold_values_ne_nil items ⟨[], [], [], []⟩
    (by intro kv h; cases h) (by intro kv h; cases h) (by intro kv h; cases h)
  have hkeyP : ∀ kv ∈ (items.foldl scopeStep ⟨[], [], [], []⟩).by_platform,
      scope_key (some kv.1) none = "platform:" ++ kv.1 := fun kv hkv => by
    simp [scope_key, truthy, (hbp.1 kv hkv).1]
  have hkeyR : ∀ kv ∈ (items.foldl scopeStep ⟨[], [], [], []⟩).by_region,
      scope_key none (some kv.1) = "region:" ++ kv.1 := fun kv hkv => by
    simp [scope_key, truthy, (hbr.1 kv hkv).1]
  have hkeyPR : ∀ kv ∈ (items.foldl scopeStep
        ⟨[], [], [], []⟩).by_platform_region,
      scope_key (some kv.1.1) (some kv.1.2) =
        "platform:" ++ kv.1.1 ++ "|region:" ++ kv.1.2 := fun kv hkv => by
    simp [scope_key, truthy, (hbpr.1 kv hkv).1, (hbpr.1 kv hkv).2.1]
  have hbpNoPipe : ∀ kv ∈ (items.foldl scopeStep ⟨[], [], [], []⟩).by_platform,
      ('|' : Char) ∉ kv.1.data := by
    intro kv hkv
    obtain ⟨x, hx⟩ := List.exists_mem_of_ne_nil _ (hvals.1 kv hkv)
    have hval := (hbp.1 kv hkv).2
    rw [hval] at hx
    obtain ⟨hxi, hxp⟩ := List.mem_filter.mp hx
    have hxp' : scopePlatform x = kv.1 := by simpa using hxp
    rw [← hxp']
    exact hnopipe x hxi
  have hbprNoPipe : ∀ kv ∈ (items.foldl scopeStep
        ⟨[], [], [], []⟩).by_platform_region,
      ('|' : Char) ∉ kv.1.1.data := by
    intro kv hkv
    obtain ⟨x, hx⟩ := List.exists_mem_of_ne_nil _ (hvals.2.2 kv hkv)
    obtain ⟨hxi, hxp, hxr⟩ := (hbpr.1 kv hkv).2.2 x hx
    rw [← hxp]
    exact hnopipe x hxi
  have hf1 : ∀ kv ∈ (items.foldl scopeStep ⟨[], [], [], []⟩).by_platform,
      scope_key (some kv.1) none ∉
        ([("all", (⟨none, none, items⟩ : ScopeData))].map Prod.fst) := by
    intro kv hkv
    rw [hkeyP kv hkv]
    simp only [List.map_cons, List.map_nil, List.mem_singleton]
    intro hcontra
    have hlen := congrArg String.length hcontra
    rw [String.length_append, show ("platform:" : String).length = 9 from rfl,
      show ("all" : String).length = 3 from rfl] at hlen
    omega
  have hnd1 : (((items.foldl scopeStep ⟨[], [], [], []⟩).by_platform).map
      (fun kv => scope_key (some kv.1) none)).Nodup := by
    rw [map_congr_members (fun kv : String × List ItemDict => scope_key (some kv.1) none)
      (fun kv => "platform:" ++ kv.1) _ hkeyP]
    have e2 : ((items.foldl scopeStep ⟨[], [], [], []⟩).by_platform).map
        (fun kv => "platform:" ++ kv.1) =
        (((items.foldl scopeStep ⟨[], [], [], []⟩).by_platform).map
          Prod.fst).map (fun x => "platform:" ++ x) := by
      rw [List.map_map]
      rfl
    rw [e2]
    exact List.Nodup.map (fun x y hxy => string_append_left_cancel hxy)
      hbp.2.1
  have hmapP : ((items.foldl scopeStep ⟨[], [], [], []⟩).by_platform).map
      (fun kv => (scope_key (some kv.1) none,
        (⟨some kv.1, none, kv.2⟩ : ScopeData))) =
      ((items.foldl scopeStep ⟨[], [], [], []⟩).by_platform).map
      (fun kv => ("platform:" ++ kv.1,
        (⟨some kv.1, none, kv.2⟩ : ScopeData))) :=
    map_congr_members _ _ _ (fun kv hkv => by rw [hkeyP kv hkv])
  have hf2 : ∀ kv ∈ (items.foldl scopeStep ⟨[], [], [], []⟩).by_region,
      scope_key none (some kv.1) ∉
        (([("all", (⟨none, none, items⟩ : ScopeData))]
          ++ ((items.foldl scopeStep ⟨[], [], [], []⟩).by_platform).map
            (fun kv => ("platform:" ++ kv.1,
              (⟨some kv.1, none, kv.2⟩ : ScopeData)))).map Prod.fst) := by
    intro kv hkv
    rw [hkeyR kv hkv]
    rw [List.map_append, List.map_map]
    simp only [List.map_cons, List.map_nil, List.mem_append,
      List.mem_singleton, not_or]
    constructor
    · intro hcontra
      have hlen := congrArg String.length hcontra
      rw [String.length_append, show ("region:" : String).length = 7 from rfl,
        show ("all" : String).length = 3 from rfl] at hlen
      omega
    · intro hcontra
      obtain ⟨x, hx, he⟩ := List.mem_map.mp hcontra
      exact platform_key_ne_region_key x.1 kv.1 he
  have hnd2 : (((items.foldl scopeStep ⟨[], [], [], []⟩).by_region).map
      (fun kv => scope_key none (some kv.1))).Nodup := by
    rw [map_congr_members (fun kv : String × List ItemDict => scope_key none (some kv.1))
      (fun kv => "region:" ++ kv.1) _ hkeyR]
    have e2 : ((items.foldl scopeStep ⟨[], [], [], []⟩).by_region).map
        (fun kv => "region:" ++ kv.1) =
        (((items.foldl scopeStep ⟨[], [], [], []⟩).by_region).map
          Prod.fst).map (fun x => "region:" ++ x) := by
      rw [List.map_map]
      rfl
    rw [e2]
    exact List.Nodup.map (fun x y hxy => string_append_left_cancel hxy)
      hbr.2.1
  have hmapR : ((items.foldl scopeStep ⟨[], [], [], []⟩).by_region).map
      (fun kv => (scope_key none (some kv.1),
        (⟨none, some kv.1, kv.2⟩ : ScopeData))) =
      ((items.foldl scopeStep ⟨[], [], [], []⟩).by_region).map
      (fun kv => ("region:" ++ kv.1,
        (⟨none, some kv.1, kv.2⟩ : ScopeData))) :=
    map_congr_members _ _ _ (fun kv hkv => by rw [hkeyR kv hkv])
  have hf3 : ∀ kv ∈ (items.foldl scopeStep
        ⟨[], [], [], []⟩).by_platform_region,
      scope_key (some kv.1.1) (some kv.1.2) ∉
        ((([("all", (⟨none, none, items⟩ : ScopeData))]
          ++ ((items.foldl scopeStep ⟨[], [], [], []⟩).by_platform).map
            (fun kv => ("platform:" ++ kv.1,
              (⟨some kv.1, none, kv.2⟩ : ScopeData))))
          ++ ((items.foldl scopeStep ⟨[], [], [], []⟩).by_region).map
            (fun kv => ("region:" ++ kv.1,
              (⟨none, some kv.1, kv.2⟩ : ScopeData)))).map Prod.fst) := by
    intro kv hkv
    rw [hkeyPR kv hkv]
    rw [List.map_append, List.map_append, List.map_map, List.map_map]
    simp only [List.map_cons, List.map_nil, List.mem_append,
      List.mem_singleton, not_or]
    refine ⟨⟨?_, ?_⟩, ?_⟩
    · intro hcontra
      have hlen := congrArg String.length hcontra
      rw [String.length_append, String.length_append, String.length_append,
        show ("platform:" : String).length = 9 from rfl,
        show ("|region:" : String).length = 8 from rfl,
        show ("all" : String).length = 3 from rfl] at hlen
      omega
    · intro hcontra
      obtain ⟨x, hx, he⟩ := List.mem_map.mp hcontra
      have hd := congrArg String.data he
      simp only [String.data_append, List.append_assoc] at hd
      have hd' := List.append_cancel_left hd
      apply hbpNoPipe x hx
      have hd'' : x.1.data =
          kv.1.1.data ++ (("|region:" : String).data ++ kv.1.2.data) := hd'
      rw [hd'']
      refine List.mem_append.mpr (Or.inr (List.mem_append.mpr (Or.inl ?_)))
      show ('|' : Char) ∈ ("|region:" : String).data
      decide
    · intro hcontra
      obtain ⟨x, hx, he⟩ := List.mem_map.mp hcontra
      refine platform_key_ne_region_key (kv.1.1 ++ ("|region:" ++ kv.1.2))
        x.1 ?_
      rw [← string_append_assoc, ← string_append_assoc]
      exact he.symm
  have hnd3 : (((items.foldl scopeStep
      ⟨[], [], [], []⟩).by_platform_region).map
      (fun kv => scope_key (some kv.1.1) (some kv.1.2))).Nodup := by
    rw [map_congr_members (fun kv : (String × String) × List ItemDict => scope_key (some kv.1.1) (some kv.1.2))
      (fun kv => "platform:" ++ kv.1.1 ++ "|region:" ++ kv.1.2) _ hkeyPR]
    have e2 : ((items.foldl scopeStep
        ⟨[], [], [], []⟩).by_platform_region).map
        (fun kv => "platform:" ++ kv.1.1 ++ "|region:" ++ kv.1.2) =
        (((items.foldl scopeStep ⟨[], [], [], []⟩).by_platform_region).map
          Prod.fst).map (fun p => "platform:" ++ p.1 ++ "|region:" ++ p.2) := by
      rw [List.map_map]
      rfl
    rw [e2]
    refine List.Nodup.map_on ?_ hbpr.2
    intro p hp q hq he
    obtain ⟨kvp, hkvp, hpe⟩ := List.mem_map.mp hp
    obtain ⟨kvq, hkvq, hqe⟩ := List.mem_map.mp hq
    have hpn : ('|' : Char) ∉ p.1.data := by
      rw [← hpe]
      exact hbprNoPipe kvp hkvp
    have hqn : ('|' : Char) ∉ q.1.data := by
      rw [← hqe]
      exact hbprNoPipe kvq hkvq
    have hd := congrArg String.data he
    simp only [String.data_append, List.append_assoc] at hd
    have hd1 := List.append_cancel_left hd
    simp only [List.cons_append] at hd1
    obtain ⟨hfst, hsnd⟩ := pipe_split_unique hpn hqn hd1
    have h1 : p.1 = q.1 := stringDataExt hfst
    simp only [List.cons.injEq, true_and] at hsnd
    have h2 : p.2 = q.2 := stringDataExt hsnd
    exact Prod.ext h1 h2
  have hall_eq : (items.foldl scopeStep ⟨[], [], [], []⟩).all_items =
      items := by
    rw [foldl_scopeStep_all_items]
    rfl
  unfold build_scopes_from_items
  dsimp only
  rw [hall_eq, if_pos hne]
  rw [platform_stage_fold _ _ hf1 hnd1, hmapP]
  rw [region_stage_fold _ _ hf2 hnd2, hmapR]
  have hmapPR : ((items.foldl scopeStep
      ⟨[], [], [], []⟩).by_platform_region).map
      (fun kv => (scope_key (some kv.1.1) (some kv.1.2),
        (⟨some kv.1.1, some kv.1.2, kv.2⟩ : ScopeData))) =
      ((items.foldl scopeStep ⟨[], [], [], []⟩).by_platform_region).map
      (fun kv => ("platform:" ++ kv.1.1 ++ "|region:" ++ kv.1.2,
        (⟨some kv.1.1, some kv.1.2, kv.2⟩ : ScopeData))) :=
    map_congr_members _ _ _ (fun kv hkv => by rw [hkeyPR kv hkv])
  rw [pr_stage_fold _ _ hf3 hnd3, hmapPR]

/-- When no platform name of the batch embeds the `|` separator, an item
with a platform and no region lies in exactly the `all` scope and its
platform scope, in this order. -/
theorem scopes_containing_platform_only_item (items2 : List ItemDict)
    (i : ItemDict) (Q : String) (hQ : Q ≠ "")
    (hnopipe : ∀ j ∈ items2, ('|' : Char) ∉ (scopePlatform j).data)
    (hi : i ∈ items2) (hplat : scopePlatform i = Q)
    (hreg : scopeRegion i = "") :
    ((build_scopes_from_items items2).filter
      (fun kv => decide (i ∈ kv.2.items))).map Prod.fst =
      ["all", "platform:" ++ Q] := by
  have hne2 : items2 ≠ [] := List.ne_nil_of_mem hi
  have hbp := bp_char items2
  have hbr := br_char items2
  have hbpr := bpr_inv items2
  rw [build_scopes_decomposition items2 hne2 hnopipe]
  rw [List.filter_append, List.filter_append, List.filter_append]
  rw [List.map_append, List.map_append, List.map_append]
  have s1 : (([("all", (⟨none, none, items2⟩ : ScopeData))].filter
      (fun kv => decide (i ∈ kv.2.items))).map Prod.fst) = ["all"] := by
    rw [List.filter_cons_of_pos]
    · rfl
    · exact decide_eq_true hi
  have s2 : (((((items2.foldl scopeStep ⟨[], [], [], []⟩).by_platform).map
      (fun kv => ("platform:" ++ kv.1,
        (⟨some kv.1, none, kv.2⟩ : ScopeData)))).filter
      (fun kv => decide (i ∈ kv.2.items))).map Prod.fst) =
      ["platform:" ++ Q] := by
    rw [filter_of_map]
    have hcong := filter_congr_members
      (fun kv : String × List ItemDict => decide (i ∈ kv.2))
      (fun kv : String × List ItemDict => kv.1 == Q)
      ((items2.foldl scopeStep ⟨[], [], [], []⟩).by_platform)
      (by
        intro kv hkv
        obtain ⟨hk1, hval⟩ := hbp.1 kv hkv
        by_cases hkQ : kv.1 = Q
        · have hmem : i ∈ kv.2 := by
            rw [hval, List.mem_filter]
            exact ⟨hi, by simp [hplat, hkQ]⟩
          simp [hmem, hkQ]
        · have hmem : i ∉ kv.2 := by
            rw [hval, List.mem_filter]
            rintro ⟨-, hpred⟩
            simp only [beq_iff_eq] at hpred
            exact hkQ (hpred ▸ hplat)
          simp [hmem, hkQ])
    rw [hcong]
    have hQmem : Q ∈ ((items2.foldl scopeStep
        ⟨[], [], [], []⟩).by_platform).map Prod.fst :=
      hbp.2.2 Q hQ ⟨i, hi, hplat⟩
    obtain ⟨v, hv⟩ := filter_key_singleton Q _ hbp.2.1 hQmem
    rw [hv]
    rfl
  have s3 : (((((items2.foldl scopeStep ⟨[], [], [], []⟩).by_region).map
      (fun kv => ("region:" ++ kv.1,
        (⟨none, some kv.1, kv.2⟩ : ScopeData)))).filter
      (fun kv => decide (i ∈ kv.2.items))).map Prod.fst) = [] := by
    rw [filter_of_map]
    have hnil : ((items2.foldl scopeStep ⟨[], [], [], []⟩).by_region).filter
        (fun kv : String × List ItemDict => decide (i ∈ kv.2)) = [] := by
      rw [List.filter_eq_nil_iff]
      intro kv hkv hcontra
      simp only [decide_eq_true_eq] at hcontra
      obtain ⟨hk1, hval⟩ := hbr.1 kv hkv
      rw [hval, List.mem_filter] at hcontra
      have hkey : scopeRegion i = kv.1 := by simpa using hcontra.2
      apply hk1
      rw [← hkey]
      exact hreg
    rw [hnil]
    rfl
  have s4 : (((((items2.foldl scopeStep
      ⟨[], [], [], []⟩).by_platform_region).map
      (fun kv => ("platform:" ++ kv.1.1 ++ "|region:" ++ kv.1.2,
        (⟨some kv.1.1, some kv.1.2, kv.2⟩ : ScopeData)))).filter
      (fun kv => decide (i ∈ kv.2.items))).map Prod.fst) = [] := by
    rw [filter_of_map]
    have hnil : ((items2.foldl scopeStep
        ⟨[], [], [], []⟩).by_platform_region).filter
        (fun kv : (String × String) × List ItemDict =>
          decide (i ∈ kv.2)) = [] := by
      rw [List.filter_eq_nil_iff]
      intro kv hkv hcontra
      simp only [decide_eq_true_eq] at hcontra
      obtain ⟨hxmem, hxp, hxr⟩ := (hbpr.1 kv hkv).2.2 i hcontra
      apply (hbpr.1 kv hkv).2.1
      rw [← hxr]
      exact hreg
    rw [hnil]
    rfl
  rw [s1, s2, s3, s4]
  simp

/-- **C3 (amended)**: provided no item's platform name embeds the `|`
scope-key separator, the partitioner is exact: (1) a batch in which every
item carries the same non-empty platform `P` and region `R` yields exactly
the four scopes `all`, `platform:P`, `region:R` and
`platform:P|region:R`, each holding exactly the whole batch; (2) an item of
a batch with a non-empty platform `Q` and no region lies in exactly two
scopes, `all` and `platform:Q`.  Without the separator proviso a platform
scope key can collide with a composite key and be overwritten (see the
counterexample). -/
theorem scope_partitioning_amended
    (items : List ItemDict) (P R : String)
    (hne : items ≠ []) (hP : P ≠ "") (hR : R ≠ "")
    (huni : ∀ i ∈ items, scopePlatform i = P ∧ scopeRegion i = R)
    (items2 : List ItemDict) (i : ItemDict) (Q : String) (hQ : Q ≠ "")
    (hnopipe : ∀ j ∈ items2, ('|' : Char) ∉ (scopePlatform j).data)
    (hi : i ∈ items2) (hplat : scopePlatform i = Q)
    (hreg : scopeRegion i = "") :
    build_scopes_from_items items =
      [("all", ⟨none, none, items⟩),
       ("platform:" ++ P, ⟨some P, none, items⟩),
       ("region:" ++ R, ⟨none, some R, items⟩),
       ("platform:" ++ P ++ "|region:" ++ R, ⟨some P, some R, items⟩)] ∧
    ((build_scopes_from_items items2).filter
      (fun kv => decide (i ∈ kv.2.items))).map Prod.fst =
      ["all", "platform:" ++ Q] :=
  ⟨scope_partition_uniform items P R hne hP hR huni,
   scopes_containing_platform_only_item items2 i Q hQ hnopipe hi hplat hreg⟩

/-- **C3 witness**: the amended theorem evaluated on a one-item uniform
batch (platform `p`, region `r`) and a one-item platform-only batch
(platform `q`). -/
theorem scope_partitioning_amended_witness :
    (([wItemPR] : List ItemDict) ≠ [] ∧ ("p" : String) ≠ "" ∧
     ("r" : String) ≠ "" ∧
     (∀ i ∈ [wItemPR], scopePlatform i = "p" ∧ scopeRegion i = "r") ∧
     ("q" : String) ≠ "" ∧
     (∀ j ∈ [wItemP], ('|' : Char) ∉ (scopePlatform j).data) ∧
     wItemP ∈ [wItemP] ∧ scopePlatform wItemP = "q" ∧
     scopeRegion wItemP = "") ∧
    (build_scopes_from_items [wItemPR] =
      [("all", ⟨none, none, [wItemPR]⟩),
       ("platform:" ++ "p", ⟨some "p", none, [wItemPR]⟩),
       ("region:" ++ "r", ⟨none, some "r", [wItemPR]⟩),
       ("platform:" ++ "p" ++ "|region:" ++ "r",
        ⟨some "p", some "r", [wItemPR]⟩)] ∧
     ((build_scopes_from_items [wItemP]).filter
       (fun kv => decide (wItemP ∈ kv.2.items))).map Prod.fst =
       ["all", "platform:" ++ "q"]) :=
  ⟨⟨by decide, by decide, by decide, by decide, by decide, by decide,
    by decide, by decide, by decide⟩,
   scope_partitioning_amended [wItemPR] "p" "r" (by decide) (by decide)
     (by decide) (by decide) [wItemP] wItemP "q" (by decide) (by decide)
     (by decide) (by decide) (by decide)⟩

/-- `Char.toLower` of an ASCII upper-case letter has code point `c + 32`. -/
theorem toLower_toNat_of_upper (c : Char) (h1 : 65 ≤ c.toNat)
    (h2 : c.toNat ≤ 90) : (Char.toLower c).toNat = c.toNat + 32 := by
  unfold Char.toLower
  rw [if_pos ⟨h1, h2⟩]
  have hv : (c.toNat + 32).isValidChar := Or.inl (by omega)
  rw [Char.ofNat, dif_pos hv]
  rfl

/-- `Char.toLower` away from the ASCII upper-case range is the identity. -/
theorem toLower_eq_self_of_not_upper (c : Char)
    (h : ¬(65 ≤ c.toNat ∧ c.toNat ≤ 90)) : Char.toLower c = c := by
  unfold Char.toLower
  rw [if_neg h]

/-- No character with code point in `[33, 132]` is Python whitespace. -/
theorem pyIsSpace_false_of_range (c : Char) (h1 : 33 ≤ c.toNat)
    (h2 : c.toNat ≤ 132) : pyIsSpace c = false := by
  have hv : ∀ (k : UInt32), k.toNat ≠ c.toNat → (c.val == k) = false := by
    intro k hk
    rw [beq_eq_false_iff_ne]
    intro he
    apply hk
    show k.toNat = c.val.toNat
    rw [he]
  have hle : ∀ (k : UInt32), c.toNat < k.toNat →
      decide (k ≤ c.val) = false := by
    intro k hk
    apply decide_eq_false
    intro hc
    have hc' : k.toNat ≤ c.toNat := hc
    omega
  unfold pyIsSpace
  rw [hv 9 (by intro h; rw [show (9 : UInt32).toNat = 9 from rfl] at h; omega),
    hv 10 (by intro h; rw [show (10 : UInt32).toNat = 10 from rfl] at h; omega),
    hv 11 (by intro h; rw [show (11 : UInt32).toNat = 11 from rfl] at h; omega),
    hv 12 (by intro h; rw [show (12 : UInt32).toNat = 12 from rfl] at h; omega),
    hv 13 (by intro h; rw [show (13 : UInt32).toNat = 13 from rfl] at h; omega),
    hv 28 (by intro h; rw [show (28 : UInt32).toNat = 28 from rfl] at h; omega),
    hv 29 (by intro h; rw [show (29 : UInt32).toNat = 29 from rfl] at h; omega),
    hv 30 (by intro h; rw [show (30 : UInt32).toNat = 30 from rfl] at h; omega),
    hv 31 (by intro h; rw [show (31 : UInt32).toNat = 31 from rfl] at h; omega),
    hv 32 (by intro h; rw [show (32 : UInt32).toNat = 32 from rfl] at h; omega),
    hv 133 (by
      intro h; rw [show (133 : UInt32).toNat = 133 from rfl] at h; omega),
    hv 160 (by
      intro h; rw [show (160 : UInt32).toNat = 160 from rfl] at h; omega),
    hv 5760 (by
      intro h; rw [show (5760 : UInt32).toNat = 5760 from rfl] at h; omega),
    hv 8232 (by
      intro h; rw [show (8232 : UInt32).toNat = 8232 from rfl] at h; omega),
    hv 8233 (by
      intro h; rw [show (8233 : UInt32).toNat = 8233 from rfl] at h; omega),
    hv 8239 (by
      intro h; rw [show (8239 : UInt32).toNat = 8239 from rfl] at h; omega),
    hv 8287 (by
      intro h; rw [show (8287 : UInt32).toNat = 8287 from rfl] at h; omega),
    hv 12288 (by
      intro h; rw [show (12288 : UInt32).toNat = 12288 from rfl] at h; omega),
    hle 8192 (by rw [show (8192 : UInt32).toNat = 8192 from rfl]; omega)]
  rfl

/-- Lower-casing preserves Python whitespace-ness. -/
theorem pyIsSpace_pyLower (c : Char) : pyIsSpace (pyLower c) = pyIsSpace c := by
  by_cases h : 65 ≤ c.toNat ∧ c.toNat ≤ 90
  · have h1 := toLower_toNat_of_upper c h.1 h.2
    rw [pyIsSpace_false_of_range (pyLower c) (by
        show 33 ≤ (Char.toLower c).toNat
        omega)
      (by show (Char.toLower c).toNat ≤ 132; omega),
      pyIsSpace_false_of_range c (by omega) (by omega)]
  · show pyIsSpace (Char.toLower c) = pyIsSpace c
    rw [toLower_eq_self_of_not_upper c h]

/-- Lower-casing fixes the space character. -/
theorem pyLower_space : pyLower ' ' = ' ' := by decide

/-- Lower-casing commutes with dropping leading whitespace. -/
theorem pyLowerList_dropWhile (l : List Char) :
    pyLowerList (l.dropWhile pyIsSpace) =
      (pyLowerList l).dropWhile pyIsSpace := by
  induction l with
  | nil => rfl
  | cons c cs ih =>
    have ec : pyLowerList (c :: cs) = pyLower c :: pyLowerList cs := rfl
    by_cases h : pyIsSpace c = true
    · have h' : pyIsSpace (pyLower c) = true := by
        rw [pyIsSpace_pyLower]; exact h
      rw [List.dropWhile_cons, if_pos h, ec, List.dropWhile_cons, if_pos h',
        ih]
    · have h' : ¬ pyIsSpace (pyLower c) = true := by
        rw [pyIsSpace_pyLower]; exact h
      rw [List.dropWhile_cons, if_neg h, ec, List.dropWhile_cons, if_neg h']

/-- Lower-casing commutes with list reversal. -/
theorem pyLowerList_reverse (l : List Char) :
    pyLowerList l.reverse = (pyLowerList l).reverse :=
  List.map_reverse _ _

/-- Lower-casing commutes with Python `strip`. -/
theorem pyLowerList_pyStrip (l : List Char) :
    pyLowerList (pyStrip l) = pyStrip (pyLowerList l) := by
  unfold pyStrip
  rw [pyLowerList_reverse, pyLowerList_dropWhile, pyLowerList_reverse,
    pyLowerList_dropWhile]

/-- `dropWhile` is idempotent. -/
theorem dropWhile_idem {α : Type} (p : α → Bool) (l : List α) :
    (l.dropWhile p).dropWhile p = l.dropWhile p := by
  induction l with
  | nil => rfl
  | cons c cs ih =>
    by_cases h : p c = true
    · rw [List.dropWhile_cons, if_pos h, ih]
    · rw [List.dropWhile_cons, if_neg h, List.dropWhile_cons, if_neg h]

/-- `dropWhile` over an append whose left part is entirely dropped. -/
theorem dropWhile_append_nil {α : Type} (p : α → Bool) :
    ∀ (a b : List α), a.dropWhile p = [] →
      (a ++ b).dropWhile p = b.dropWhile p := by
  intro a
  induction a with
  | nil => intro b _; rfl
  | cons d ds ih =>
    intro b h
    rw [List.dropWhile_cons] at h
    by_cases hd : p d = true
    · rw [if_pos hd] at h
      rw [List.cons_append, List.dropWhile_cons, if_pos hd, ih b h]
    · rw [if_neg hd] at h
      cases h
/-- `dropWhile` over an append whose left part is not entirely dropped. -/
theorem dropWhile_append_ne_nil {α : Type} (p : α → Bool) :
    ∀ (a b : List α), a.dropWhile p ≠ [] →
      (a ++ b).dropWhile p = a.dropWhile p ++ b := by
  intro a
  induction a with
  | nil => intro b h; exact absurd rfl h
  | cons d ds ih =>
    intro b h
    by_cases hd : p d = true
    · rw [List.dropWhile_cons, if_pos hd] at h
      rw [List.cons_append, List.dropWhile_cons, if_pos hd, ih b h,
        List.dropWhile_cons, if_pos hd]
    · rw [List.cons_append, List.dropWhile_cons, if_neg hd,
        List.dropWhile_cons, if_neg hd, List.cons_append]

/-- The `nil` equation of `collapseWs`. -/
theorem collapseWs_nil : collapseWs [] = [] := rfl

/-- Inside a run, the scan skips the remaining whitespace of the run. -/
theorem collapseWsAux_true (l : List Char) :
    collapseWsAux true l = collapseWsAux false (l.dropWhile pyIsSpace) := by
  induction l with
  | nil => rfl
  | cons c cs ih =>
    by_cases h : pyIsSpace c = true
    · show (if pyIsSpace c then collapseWsAux true cs
        else c :: collapseWsAux false cs) = _
      rw [if_pos h, List.dropWhile_cons, if_pos h, ih]
    · show (if pyIsSpace c then collapseWsAux true cs
        else c :: collapseWsAux false cs) = _
      rw [if_neg h, List.dropWhile_cons, if_neg h]
      show _ = if pyIsSpace c then _ else c :: collapseWsAux false cs
      rw [if_neg h]

/-- The `cons` equation of `collapseWs`: a whitespace head emits one space
and skips its run, any other head is kept. -/
theorem collapseWs_cons (c : Char) (cs : List Char) :
    collapseWs (c :: cs) =
      if pyIsSpace c then ' ' :: collapseWs (cs.dropWhile pyIsSpace)
      else c :: collapseWs cs := by
  by_cases h : pyIsSpace c = true
  · show (if pyIsSpace c then ' ' :: collapseWsAux true cs
      else c :: collapseWsAux false cs) = _
    rw [if_pos h, if_pos h, collapseWsAux_true]
    rfl
  · show (if pyIsSpace c then ' ' :: collapseWsAux true cs
      else c :: collapseWsAux false cs) = _
    rw [if_neg h, if_neg h]
    rfl

/-- Lower-casing commutes with whitespace collapsing (fuel-indexed). -/
theorem collapseWs_pyLowerList_aux :
    ∀ (n : Nat) (l : List Char), l.length ≤ n →
      collapseWs (pyLowerList l) = pyLowerList (collapseWs l) := by
  intro n
  induction n with
  | zero =>
    intro l hl
    rw [List.eq_nil_of_length_eq_zero (Nat.le_zero.mp hl),
      show pyLowerList [] = [] from rfl, collapseWs_nil]
    rfl
  | succ n ih =>
    intro l hl
    match l with
    | [] =>
      rw [show pyLowerList [] = [] from rfl, collapseWs_nil]
      rfl
    | c :: cs =>
      have ec : pyLowerList (c :: cs) = pyLower c :: pyLowerList cs := rfl
      simp only [List.length_cons, Nat.add_le_add_iff_right] at hl
      by_cases h : pyIsSpace c = true
      · have h' : pyIsSpace (pyLower c) = true := by
          rw [pyIsSpace_pyLower]; exact h
        rw [ec, collapseWs_cons, if_pos h', collapseWs_cons, if_pos h,
          ← pyLowerList_dropWhile,
          ih _ (le_trans (List.dropWhile_sublist pyIsSpace).length_le hl)]
        have es : pyLowerList (' ' :: collapseWs (cs.dropWhile pyIsSpace)) =
            pyLower ' ' :: pyLowerList (collapseWs (cs.dropWhile pyIsSpace)) :=
          rfl
        rw [es, pyLower_space]
      · have h' : ¬ pyIsSpace (pyLower c) = true := by
          rw [pyIsSpace_pyLower]; exact h
        rw [ec, collapseWs_cons, if_neg h', collapseWs_cons, if_neg h,
          ih _ hl]
        rfl

/-- Lower-casing commutes with whitespace collapsing. -/
theorem collapseWs_pyLowerList (l : List Char) :
    collapseWs (pyLowerList l) = pyLowerList (collapseWs l) :=
  collapseWs_pyLowerList_aux l.length l le_rfl

/-- Collapsing commutes with dropping leading whitespace (fuel-indexed). -/
theorem collapseWs_dropWhile_aux :
    ∀ (n : Nat) (l : List Char), l.length ≤ n →
      collapseWs (l.dropWhile pyIsSpace) =
        (collapseWs l).dropWhile pyIsSpace := by
  intro n
  induction n with
  | zero =>
    intro l hl
    rw [List.eq_nil_of_length_eq_zero (Nat.le_zero.mp hl),
      show List.dropWhile pyIsSpace [] = [] from rfl, collapseWs_nil]
    rfl
  | succ n ih =>
    intro l hl
    match l with
    | [] =>
      rw [show List.dropWhile pyIsSpace [] = [] from rfl, collapseWs_nil]
      rfl
    | c :: cs =>
      simp only [List.length_cons, Nat.add_le_add_iff_right] at hl
      by_cases h : pyIsSpace c = true
      · rw [List.dropWhile_cons, if_pos h, collapseWs_cons, if_pos h,
          List.dropWhile_cons, if_pos (by decide : pyIsSpace ' ' = true),
          ← ih _ (le_trans (List.dropWhile_sublist pyIsSpace).length_le hl),
          dropWhile_idem]
      · rw [List.dropWhile_cons, if_neg h, collapseWs_cons, if_neg h,
          List.dropWhile_cons, if_neg h]

/-- Collapsing commutes with dropping leading whitespace. -/
theorem collapseWs_dropWhile (l : List Char) :
    collapseWs (l.dropWhile pyIsSpace) =
      (collapseWs l).dropWhile pyIsSpace :=
  collapseWs_dropWhile_aux l.length l le_rfl

/-- Whitespace collapsing is idempotent (fuel-indexed). -/
theorem collapseWs_idem_aux :
    ∀ (n : Nat) (l : List Char), l.length ≤ n →
      collapseWs (collapseWs l) = collapseWs l := by
  intro n
  induction n with
  | zero =>
    intro l hl
    rw [List.eq_nil_of_length_eq_zero (Nat.le_zero.mp hl), collapseWs_nil,
      collapseWs_nil]
  | succ n ih =>
    intro l hl
    match l with
    | [] => rw [collapseWs_nil, collapseWs_nil]
    | c :: cs =>
      simp only [List.length_cons, Nat.add_le_add_iff_right] at hl
      by_cases h : pyIsSpace c = true
      · rw [collapseWs_cons, if_pos h, collapseWs_cons,
          if_pos (by decide : pyIsSpace ' ' = true), ← collapseWs_dropWhile,
          dropWhile_idem,
          ih _ (le_trans (List.dropWhile_sublist pyIsSpace).length_le hl)]
      · rw [collapseWs_cons, if_neg h, collapseWs_cons, if_neg h, ih _ hl]

/-- Whitespace collapsing is idempotent. -/
theorem collapseWs_idem (l : List Char) :
    collapseWs (collapseWs l) = collapseWs l :=
  collapseWs_idem_aux l.length l le_rfl

/-- Appending a non-whitespace character commutes with collapsing
(fuel-indexed). -/
theorem collapseWs_append_nonspace_aux (c : Char) (hc : ¬ pyIsSpace c = true) :
    ∀ (n : Nat) (x : List Char), x.length ≤ n →
      collapseWs (x ++ [c]) = collapseWs x ++ [c] := by
  intro n
  induction n with
  | zero =>
    intro x hx
    rw [List.eq_nil_of_length_eq_zero (Nat.le_zero.mp hx), List.nil_append,
      collapseWs_cons, if_neg hc]
    rfl
  | succ n ih =>
    intro x hx
    match x with
    | [] =>
      rw [List.nil_append, collapseWs_cons, if_neg hc]
      rfl
    | d :: ds =>
      simp only [List.length_cons, Nat.add_le_add_iff_right] at hx
      by_cases hd : pyIsSpace d = true
      · rw [List.cons_append, collapseWs_cons, if_pos hd, collapseWs_cons,
          if_pos hd]
        by_cases hnil : ds.dropWhile pyIsSpace = []
        · rw [dropWhile_append_nil pyIsSpace ds [c] hnil, hnil,
            List.dropWhile_cons, if_neg hc, collapseWs_cons, if_neg hc]
          rfl
        · rw [dropWhile_append_ne_nil pyIsSpace ds [c] hnil,
            ih _ (le_trans (List.dropWhile_sublist pyIsSpace).length_le hx)]
          rfl
      · rw [List.cons_append, collapseWs_cons, if_neg hd, collapseWs_cons,
          if_neg hd, ih _ hx]
        rfl

/-- Appending a non-whitespace character commutes with collapsing. -/
theorem collapseWs_append_nonspace (c : Char) (hc : ¬ pyIsSpace c = true)
    (x : List Char) : collapseWs (x ++ [c]) = collapseWs x ++ [c] :=
  collapseWs_append_nonspace_aux c hc x.length x le_rfl

/-- `getLast?` of an append with a non-empty right part. -/
theorem getLast?_append_right {α : Type} :
    ∀ (l₁ l₂ : List α), l₂ ≠ [] → (l₁ ++ l₂).getLast? = l₂.getLast? := by
  intro l₁
  induction l₁ with
  | nil => intro l₂ _; rfl
  | cons a t ih =>
    intro l₂ h
    rw [List.cons_append]
    match e : t ++ l₂ with
    | [] => exact absurd (List.append_eq_nil.mp e).2 h
    | b :: bs => rw [List.getLast?_cons_cons, ← e, ih l₂ h]

/-- Appending a whitespace character appends one space, unless the list
already ends in whitespace (fuel-indexed). -/
theorem collapseWs_append_space_aux (c : Char) (hc : pyIsSpace c = true) :
    ∀ (n : Nat) (x : List Char), x.length ≤ n →
      collapseWs (x ++ [c]) = collapseWs x ++
        (if (x.getLast?.map pyIsSpace).getD false then [] else [' ']) := by
  intro n
  induction n with
  | zero =>
    intro x hx
    rw [List.eq_nil_of_length_eq_zero (Nat.le_zero.mp hx)]
    rw [List.nil_append, collapseWs_cons, if_pos hc, collapseWs_nil]
    rfl
  | succ n ih =>
    intro x hx
    match x with
    | [] =>
      rw [List.nil_append, collapseWs_cons, if_pos hc, collapseWs_nil]
      rfl
    | [d] =>
      by_cases hd : pyIsSpace d = true
      · simp [collapseWs_cons, collapseWs_nil, hd, hc]
      · simp [collapseWs_cons, collapseWs_nil, hd, hc]
    | d :: e :: es =>
      have hcond : (((d :: e :: es).getLast?.map pyIsSpace).getD false) =
          (((e :: es).getLast?.map pyIsSpace).getD false) := by
        rw [List.getLast?_cons_cons]
      simp only [List.length_cons, Nat.add_le_add_iff_right] at hx
      have hx' : (e :: es).length ≤ n := by
        simp only [List.length_cons]
        exact hx
      by_cases hd : pyIsSpace d = true
      · rw [List.cons_append, collapseWs_cons, if_pos hd, collapseWs_cons,
          if_pos hd, hcond]
        by_cases hnil : (e :: es).dropWhile pyIsSpace = []
        · have hlast : (((e :: es).getLast?.map pyIsSpace).getD false) =
              true := by
            have hall := List.dropWhile_eq_nil_iff.mp hnil
            rw [List.getLast?_eq_getLast (e :: es) (by simp)]
            exact hall _ (List.getLast_mem _)
          rw [dropWhile_append_nil pyIsSpace _ [c] hnil, hnil, hlast,
            List.dropWhile_cons, if_pos hc]
          show ' ' :: collapseWs [] = ' ' :: collapseWs [] ++ []
          rw [collapseWs_nil]
          rfl
        · have hlast : ((e :: es).dropWhile pyIsSpace).getLast? =
              (e :: es).getLast? := by
            conv_rhs => rw [← List.takeWhile_append_dropWhile
              (p := pyIsSpace) (l := e :: es)]
            exact (getLast?_append_right _ _ hnil).symm
          rw [dropWhile_append_ne_nil pyIsSpace _ [c] hnil,
            ih _ (le_trans (List.dropWhile_sublist pyIsSpace).length_le hx'),
            hlast]
          rfl
      · rw [List.cons_append, collapseWs_cons, if_neg hd, collapseWs_cons,
          if_neg hd, hcond, ih _ hx']
        rfl

/-- Appending a whitespace character appends one space, unless the list
already ends in whitespace. -/
theorem collapseWs_append_space (c : Char) (hc : pyIsSpace c = true)
    (x : List Char) :
    collapseWs (x ++ [c]) = collapseWs x ++
      (if (x.getLast?.map pyIsSpace).getD false then [] else [' ']) :=
  collapseWs_append_space_aux c hc x.length x le_rfl

/-- Collapsing commutes with list reversal: run-collapsing is direction
independent. -/
theorem collapseWs_reverse (x : List Char) :
    collapseWs x.reverse = (collapseWs x).reverse := by
  induction x with
  | nil => rfl
  | cons c cs ih =>
    rw [List.reverse_cons]
    by_cases h : pyIsSpace c = true
    · rw [collapseWs_append_space c h cs.reverse, ih, collapseWs_cons,
        if_pos h, List.reverse_cons, List.getLast?_reverse]
      match cs with
      | [] => rfl
      | e :: es =>
        by_cases he : pyIsSpace e = true
        · rw [show (((e :: es).head?.map pyIsSpace).getD false) = true from by
            simp [he]]
          rw [collapseWs_cons, if_pos he, List.reverse_cons,
            List.dropWhile_cons, if_pos he]
          simp
        · rw [show (((e :: es).head?.map pyIsSpace).getD false) = false
            from by simp [he]]
          rw [List.dropWhile_cons, if_neg he]
          simp
    · rw [collapseWs_append_nonspace c h cs.reverse, ih, collapseWs_cons,
        if_neg h, List.reverse_cons]

/-- A list whose head fails the predicate is unchanged by `dropWhile`. -/
theorem dropWhile_eq_self_of_head {α : Type} (p : α → Bool) (l : List α)
    (h : ∀ c, l.head? = some c → p c = false) : l.dropWhile p = l := by
  cases l with
  | nil => rfl
  | cons d ds =>
    rw [List.dropWhile_cons, if_neg (by rw [h d rfl]; simp)]

/-- The head of a `dropWhile` result fails the predicate. -/
theorem head_dropWhile_false {α : Type} (p : α → Bool) (l : List α) :
    ∀ c, (l.dropWhile p).head? = some c → p c = false := by
  induction l with
  | nil => intro c h; cases h
  | cons d ds ih =>
    intro c h
    by_cases hd : p d = true
    · rw [List.dropWhile_cons, if_pos hd] at h
      exact ih c h
    · rw [List.dropWhile_cons, if_neg hd] at h
      injection h with h'
      rw [← h']
      cases he : p d
      · rfl
      · exact absurd he hd

/-- Python `strip` is idempotent. -/
theorem pyStrip_idem (l : List Char) : pyStrip (pyStrip l) = pyStrip l := by
  have hpre : ∀ (m : List Char),
      (m.reverse.dropWhile pyIsSpace).reverse <+: m := by
    intro m
    have hs : m.reverse.dropWhile pyIsSpace <:+ m.reverse :=
      List.dropWhile_suffix _
    have hp := List.reverse_prefix.mpr hs
    rwa [List.reverse_reverse] at hp
  have hb_pre : pyStrip l <+: l.dropWhile pyIsSpace :=
    hpre (l.dropWhile pyIsSpace)
  have hhead : ∀ c, (pyStrip l).head? = some c → pyIsSpace c = false := by
    intro c hc
    obtain ⟨t, ht⟩ := hb_pre
    have hh : (l.dropWhile pyIsSpace).head? = some c := by
      rw [← ht]
      cases hS : pyStrip l with
      | nil => rw [hS] at hc; cases hc
      | cons d ds =>
        rw [hS] at hc
        injection hc with hc'
        rw [List.cons_append]
        rw [hc']
        rfl
    exact head_dropWhile_false pyIsSpace l c hh
  have h1 : (pyStrip l).dropWhile pyIsSpace = pyStrip l :=
    dropWhile_eq_self_of_head pyIsSpace _ hhead
  show ((((pyStrip l).dropWhile pyIsSpace).reverse).dropWhile
      pyIsSpace).reverse = pyStrip l
  rw [h1]
  have h2 : (pyStrip l).reverse =
      ((l.dropWhile pyIsSpace).reverse).dropWhile pyIsSpace := by
    unfold pyStrip
    rw [List.reverse_reverse]
  rw [h2, dropWhile_idem, ← h2, List.reverse_reverse]

/-- `strip` commutes with whitespace collapsing. -/
theorem pyStrip_collapseWs (x : List Char) :
    pyStrip (collapseWs x) = collapseWs (pyStrip x) := by
  unfold pyStrip
  rw [← collapseWs_dropWhile, ← collapseWs_reverse, ← collapseWs_dropWhile,
    ← collapseWs_reverse]

/-- Collapsing, stripping, collapsing equals stripping then collapsing. -/
theorem collapseWs_pyStrip_collapseWs (x : List Char) :
    collapseWs (pyStrip (collapseWs x)) = collapseWs (pyStrip x) := by
  rw [pyStrip_collapseWs, collapseWs_idem]

/-- The title identity component is insensitive to case changes. -/
theorem titleComponent_case (t t' : List Char)
    (h : pyLowerList t = pyLowerList t') :
    collapseWs (pyLowerList (pyStrip t)) =
      collapseWs (pyLowerList (pyStrip t')) := by
  rw [pyLowerList_pyStrip, pyLowerList_pyStrip, h]

/-- The title identity component is insensitive to whitespace-run
collapsing. -/
theorem titleComponent_collapse (t : List Char) :
    collapseWs (pyLowerList (pyStrip (collapseWs t))) =
      collapseWs (pyLowerList (pyStrip t)) := by
  rw [pyLowerList_pyStrip]
  rw [← collapseWs_pyLowerList]
  rw [collapseWs_pyStrip_collapseWs]
  rw [← pyLowerList_pyStrip]

/-- A list all of whose members fail the predicate is unchanged by
`dropWhile`. -/
theorem dropWhile_eq_self_of_all {α : Type} (p : α → Bool) (l : List α)
    (h : ∀ c ∈ l, p c = false) : l.dropWhile p = l := by
  cases l with
  | nil => rfl
  | cons c cs =>
    rw [List.dropWhile_cons,
      if_neg (by rw [h c (List.mem_cons_self _ _)]; simp)]

/-- A list all of whose members satisfy the predicate is its own
`takeWhile`. -/
theorem takeWhile_eq_self_of_all {α : Type} (p : α → Bool) :
    ∀ l : List α, (∀ c ∈ l, p c = true) → l.takeWhile p = l := by
  intro l
  induction l with
  | nil => intro _; rfl
  | cons c cs ih =>
    intro h
    rw [List.takeWhile_cons, if_pos (h c (List.mem_cons_self _ _)),
      ih (fun x hx => h x (List.mem_cons_of_mem _ hx))]

/-- `takeWhile` over an append stops no later than a failing separator. -/
theorem takeWhile_append_stop {α : Type} (p : α → Bool) (x : α)
    (hx : p x = false) : ∀ (m b : List α),
    (m ++ x :: b).takeWhile p = m.takeWhile p := by
  intro m
  induction m with
  | nil =>
    intro b
    rw [List.nil_append, List.takeWhile_cons, if_neg (by rw [hx]; simp)]
    rfl
  | cons d ds ih =>
    intro b
    by_cases hd : p d = true
    · rw [List.cons_append, List.takeWhile_cons, if_pos hd, ih b,
        List.takeWhile_cons, if_pos hd]
    · rw [List.cons_append, List.takeWhile_cons, if_neg hd,
        List.takeWhile_cons, if_neg hd]

/-- `dropWhile` over an append with a failing separator. -/
theorem dropWhile_append_stop {α : Type} (p : α → Bool) (x : α)
    (hx : p x = false) : ∀ (m b : List α),
    (m ++ x :: b).dropWhile p = m.dropWhile p ++ x :: b := by
  intro m
  induction m with
  | nil =>
    intro b
    rw [List.nil_append, List.dropWhile_cons, if_neg (by rw [hx]; simp)]
    rfl
  | cons d ds ih =>
    intro b
    by_cases hd : p d = true
    · rw [List.cons_append, List.dropWhile_cons, if_pos hd, ih b,
        List.dropWhile_cons, if_pos hd]
    · rw [List.cons_append, List.dropWhile_cons, if_neg hd,
        List.dropWhile_cons, if_neg hd, List.cons_append]

/-- Stripping both ends of an append whose (non-empty) left part contains no
strippable character only strips the right end. -/
theorem stripBoth_plain_front (p : Char → Bool) (u w : List Char)
    (hne : u ≠ []) (hpl : ∀ c ∈ u, p c = false) :
    (((u ++ w).dropWhile p).reverse.dropWhile p).reverse =
      u ++ (w.reverse.dropWhile p).reverse := by
  have h1 : (u ++ w).dropWhile p = u ++ w := by
    cases u with
    | nil => exact absurd rfl hne
    | cons c u' =>
      rw [List.cons_append, List.dropWhile_cons,
        if_neg (by rw [hpl c (List.mem_cons_self _ _)]; simp)]
  rw [h1, List.reverse_append]
  by_cases h2 : w.reverse.dropWhile p = []
  · rw [dropWhile_append_nil p _ _ h2,
      dropWhile_eq_self_of_all p u.reverse
        (fun c hc => hpl c (List.mem_reverse.mp hc)), h2]
    simp
  · rw [dropWhile_append_ne_nil p _ _ h2, List.reverse_append,
      List.reverse_reverse]

/-- Stripping both ends of a list with no strippable character is the
identity. -/
theorem stripBoth_plain (p : Char → Bool) (u : List Char)
    (hpl : ∀ c ∈ u, p c = false) :
    ((u.dropWhile p).reverse.dropWhile p).reverse = u := by
  rw [dropWhile_eq_self_of_all p u hpl,
    dropWhile_eq_self_of_all p u.reverse
      (fun c hc => hpl c (List.mem_reverse.mp hc)),
    List.reverse_reverse]

/-- The `cons` equation of `splitAtFirst`. -/
theorem splitAtFirst_cons (c x : Char) (xs : List Char) :
    splitAtFirst c (x :: xs) =
      if x = c then ([], some xs)
      else (x :: (splitAtFirst c xs).1, (splitAtFirst c xs).2) := rfl

/-- `splitAtFirst` on a list not containing the separator. -/
theorem splitAtFirst_not_mem (c : Char) :
    ∀ (l : List Char), c ∉ l → splitAtFirst c l = (l, none) := by
  intro l
  induction l with
  | nil => intro _; rfl
  | cons x xs ih =>
    intro h
    rw [List.mem_cons, not_or] at h
    rw [splitAtFirst_cons, if_neg (Ne.symm h.1), ih h.2]

/-- `splitAtFirst` looks past a prefix free of the separator. -/
theorem splitAtFirst_append (c : Char) :
    ∀ (a b : List Char), c ∉ a →
      splitAtFirst c (a ++ b) =
        (a ++ (splitAtFirst c b).1, (splitAtFirst c b).2) := by
  intro a
  induction a with
  | nil => intro b _; rfl
  | cons x xs ih =>
    intro b h
    rw [List.mem_cons, not_or] at h
    rw [List.cons_append, splitAtFirst_cons, if_neg (Ne.symm h.1), ih b h.2]
    rfl

/-- `splitAtFirst` at the first occurrence of the separator. -/
theorem splitAtFirst_append_first (c : Char) (a b : List Char) (h : c ∉ a) :
    splitAtFirst c (a ++ c :: b) = (a, some b) := by
  rw [splitAtFirst_append c a (c :: b) h]
  unfold splitAtFirst
  rw [if_pos rfl]
  simp

/-- A successful `splitAtFirst` decomposes its input. -/
theorem splitAtFirst_eq_some (c : Char) :
    ∀ (l pre rest : List Char), splitAtFirst c l = (pre, some rest) →
      l = pre ++ c :: rest ∧ c ∉ pre := by
  intro l
  induction l with
  | nil =>
    intro pre rest h
    cases h
  | cons x xs ih =>
    intro pre rest h
    rw [splitAtFirst_cons] at h
    by_cases hx : x = c
    · rw [if_pos hx] at h
      injection h with h1 h2
      injection h2 with h2
      rw [← h1, hx, h2]
      exact ⟨rfl, by simp⟩
    · rw [if_neg hx] at h
      injection h with h1 h2
      obtain ⟨hd, hm⟩ := ih (splitAtFirst c xs).1 rest (Prod.ext rfl h2)
      constructor
      · rw [← h1, List.cons_append, ← hd]
      · rw [← h1]
        simp only [List.mem_cons, not_or]
        exact ⟨Ne.symm hx, hm⟩

/-- A failed `splitAtFirst` returns the whole input. -/
theorem splitAtFirst_eq_none (c : Char) :
    ∀ (l pre : List Char), splitAtFirst c l = (pre, none) →
      pre = l ∧ c ∉ l := by
  intro l
  induction l with
  | nil =>
    intro pre h
    injection h with h1 _
    exact ⟨h1.symm, by simp⟩
  | cons x xs ih =>
    intro pre h
    rw [splitAtFirst_cons] at h
    by_cases hx : x = c
    · rw [if_pos hx] at h
      injection h with _ h2
      cases h2
    · rw [if_neg hx] at h
      injection h with h1 h2
      obtain ⟨hd, hm⟩ := ih (splitAtFirst c xs).1 (Prod.ext rfl h2)
      constructor
      · rw [← h1, hd]
      · simp only [List.mem_cons, not_or]
        exact ⟨Ne.symm hx, hd ▸ hm⟩

/-- Appending a fragment after `#` leaves the scheme split unchanged and
carries the fragment in the remainder, provided the input has no `#`. -/
theorem splitScheme_append_hash (l b : List Char)
    (hnohash : ('#' : Char) ∉ l) :
    splitScheme (l ++ '#' :: b) =
      ((splitScheme l).1, (splitScheme l).2 ++ '#' :: b) := by
  unfold splitScheme
  cases hsp : splitAtFirst ':' l with
  | mk pre o =>
    cases o with
    | some rest =>
      obtain ⟨hdec, hpre⟩ := splitAtFirst_eq_some ':' l pre rest hsp
      have hsp2 : splitAtFirst ':' (l ++ '#' :: b) =
          (pre, some (rest ++ '#' :: b)) := by
        rw [hdec, List.append_assoc, List.cons_append]
        exact splitAtFirst_append_first ':' pre _ hpre
      rw [hsp2]
      dsimp only
      by_cases hg : (decide ¬pre = [] && (pre.headD ' ').isAlpha) = true
      · rw [if_pos hg, if_pos hg]
        by_cases hall : pre.all schemeChar = true
        · rw [if_pos hall, if_pos hall]
        · rw [if_neg hall, if_neg hall]
      · rw [if_neg hg, if_neg hg]
    | none =>
      obtain ⟨hpre, hmem⟩ := splitAtFirst_eq_none ':' l pre hsp
      have hsp2 := splitAtFirst_append ':' l ('#' :: b) hmem
      rw [splitAtFirst_cons, if_neg (by decide)] at hsp2
      dsimp only at hsp2
      cases hb : (splitAtFirst ':' b).2 with
      | none =>
        rw [hb] at hsp2
        rw [hsp2]
      | some rest2 =>
        rw [hb] at hsp2
        rw [hsp2]
        dsimp only
        have hhash : ('#' : Char) ∈ l ++ '#' :: (splitAtFirst ':' b).1 :=
          List.mem_append.mpr (Or.inr (List.mem_cons_self _ _))
        have hallf : (l ++ '#' :: (splitAtFirst ':' b).1).all schemeChar =
            false :=
          List.all_eq_false.mpr ⟨'#', hhash, by decide⟩
        by_cases hg : (decide ¬(l ++ '#' :: (splitAtFirst ':' b).1) = [] &&
            ((l ++ '#' :: (splitAtFirst ':' b).1).headD ' ').isAlpha) = true
        · rw [if_pos hg, if_neg (by rw [hallf]; simp)]
        · rw [if_neg hg]

/-- The remainder returned by `splitScheme` only contains characters of the
input. -/
theorem splitScheme_snd_subset (l : List Char) :
    ∀ x, x ∈ (splitScheme l).2 → x ∈ l := by
  unfold splitScheme
  cases hsp : splitAtFirst ':' l with
  | mk pre o =>
    cases o with
    | some rest =>
      obtain ⟨hdec, hpre⟩ := splitAtFirst_eq_some ':' l pre rest hsp
      intro x hx
      dsimp only at hx
      by_cases hg : (decide ¬pre = [] && (pre.headD ' ').isAlpha) = true
      · rw [if_pos hg] at hx
        by_cases hall : pre.all schemeChar = true
        · rw [if_pos hall] at hx
          rw [hdec]
          exact List.mem_append.mpr (Or.inr (List.mem_cons_of_mem _ hx))
        · rw [if_neg hall] at hx
          exact hx
      · rw [if_neg hg] at hx
        exact hx
    | none =>
      intro x hx
      exact hx

/-- `splitNetloc` on input not starting with `//`. -/
theorem splitNetloc_not_slashslash (r : List Char)
    (h : ∀ m, r ≠ '/' :: '/' :: m) : splitNetloc r = ([], r) := by
  unfold splitNetloc
  split
  · next m => exact absurd rfl (h m)
  · rfl

/-- Appending a fragment after `#` leaves the netloc split unchanged and
carries the fragment in the remainder. -/
theorem splitNetloc_append_hash (r b : List Char) :
    splitNetloc (r ++ '#' :: b) =
      ((splitNetloc r).1, (splitNetloc r).2 ++ '#' :: b) := by
  by_cases hss : ∃ m, r = '/' :: '/' :: m
  · obtain ⟨m, rfl⟩ := hss
    rw [show ('/' :: '/' :: m) ++ '#' :: b = '/' :: '/' :: (m ++ '#' :: b)
      from rfl]
    rw [show splitNetloc ('/' :: '/' :: (m ++ '#' :: b)) =
      ((m ++ '#' :: b).takeWhile (fun c => !netlocDelim c),
       (m ++ '#' :: b).dropWhile (fun c => !netlocDelim c)) from rfl]
    rw [show splitNetloc ('/' :: '/' :: m) =
      (m.takeWhile (fun c => !netlocDelim c),
       m.dropWhile (fun c => !netlocDelim c)) from rfl]
    rw [takeWhile_append_stop _ '#' (by decide) m b,
      dropWhile_append_stop _ '#' (by decide) m b]
  · have h1 : ∀ m, r ≠ '/' :: '/' :: m := fun m hm => hss ⟨m, hm⟩
    have h2 : ∀ m, r ++ '#' :: b ≠ '/' :: '/' :: m := by
      intro m hm
      cases r with
      | nil =>
        rw [List.nil_append] at hm
        injection hm with e1 _
        exact absurd e1 (by decide)
      | cons c1 r1 =>
        cases r1 with
        | nil =>
          rw [List.cons_append, List.nil_append] at hm
          injection hm with e1 hm'
          injection hm' with e2 _
          exact absurd e2 (by decide)
        | cons c2 r2 =>
          rw [List.cons_append, List.cons_append] at hm
          injection hm with e1 hm'
          injection hm' with e2 _
          exact h1 r2 (by rw [e1, e2])
    rw [splitNetloc_not_slashslash _ h1, splitNetloc_not_slashslash _ h2]

/-- The remainder returned by `splitNetloc` only contains characters of the
input. -/
theorem splitNetloc_snd_subset (r : List Char) :
    ∀ x, x ∈ (splitNetloc r).2 → x ∈ r := by
  by_cases hss : ∃ m, r = '/' :: '/' :: m
  · obtain ⟨m, rfl⟩ := hss
    rw [show splitNetloc ('/' :: '/' :: m) =
      (m.takeWhile (fun c => !netlocDelim c),
       m.dropWhile (fun c => !netlocDelim c)) from rfl]
    intro x hx
    exact List.mem_cons_of_mem _ (List.mem_cons_of_mem _
      ((List.dropWhile_sublist _).subset hx))
  · rw [splitNetloc_not_slashslash _ (fun m hm => hss ⟨m, hm⟩)]
    intro x hx
    exact hx

/-- Appending `#fragment` to a hash-free URL of printable characters changes
only the fragment component of the parse. -/
theorem urlparseModel_append_hash (u b : List Char) (hne : u ≠ [])
    (hplain : ∀ c ∈ u, 32 < c.val.toNat)
    (hnohash : ('#' : Char) ∉ u) :
    (urlparseModel (u ++ '#' :: b)).map (fun p => { p with fragment := [] }) =
      (urlparseModel u).map (fun p => { p with fragment := [] }) := by
  have hc0 : ∀ c ∈ u, c0ControlOrSpace c = false := by
    intro c hc
    apply decide_eq_false
    intro hle
    have hle' : c.val.toNat ≤ 32 := hle
    have := hplain c hc
    omega
  have hunsafe : ∀ c ∈ u, (fun c => !unsafeUrlByte c) c = true := by
    intro c hc
    have h32 := hplain c hc
    have hne9 : c ≠ '\t' := by
      intro he
      rw [he] at h32
      exact absurd h32 (by decide)
    have hne13 : c ≠ '\r' := by
      intro he
      rw [he] at h32
      exact absurd h32 (by decide)
    have hne10 : c ≠ '\n' := by
      intro he
      rw [he] at h32
      exact absurd h32 (by decide)
    show (!unsafeUrlByte c) = true
    unfold unsafeUrlByte
    rw [beq_eq_false_iff_ne.mpr hne9, beq_eq_false_iff_ne.mpr hne13,
      beq_eq_false_iff_ne.mpr hne10]
    rfl
  unfold urlparseModel
  dsimp only
  have e0L : (((u ++ '#' :: b).dropWhile c0ControlOrSpace).reverse.dropWhile
      c0ControlOrSpace).reverse =
      u ++ '#' :: (b.reverse.dropWhile c0ControlOrSpace).reverse := by
    rw [stripBoth_plain_front c0ControlOrSpace u ('#' :: b) hne hc0,
      List.reverse_cons,
      dropWhile_append_stop c0ControlOrSpace '#' (by decide) b.reverse [],
      List.reverse_append]
    rfl
  have e0R : ((u.dropWhile c0ControlOrSpace).reverse.dropWhile
      c0ControlOrSpace).reverse = u := stripBoth_plain _ u hc0
  rw [e0L, e0R]
  have e1L : (u ++ '#' :: (b.reverse.dropWhile c0ControlOrSpace).reverse).filter
      (fun c => !unsafeUrlByte c) =
      u ++ '#' :: ((b.reverse.dropWhile c0ControlOrSpace).reverse.filter
        (fun c => !unsafeUrlByte c)) := by
    rw [List.filter_append, List.filter_eq_self.mpr hunsafe, List.filter_cons,
      if_pos (by decide)]
  have e1R : u.filter (fun c => !unsafeUrlByte c) = u :=
    List.filter_eq_self.mpr hunsafe
  rw [e1L, e1R]
  cases hsp : splitScheme u with
  | mk s r1 =>
    rw [splitScheme_append_hash u _ hnohash, hsp]
    dsimp only
    cases hsn : splitNetloc r1 with
    | mk n r2 =>
      rw [splitNetloc_append_hash r1 _, hsn]
      dsimp only
      by_cases hbr : netlocBracketsOk n = true
      · rw [if_pos hbr, if_pos hbr]
        have hr2 : ('#' : Char) ∉ r2 := by
          intro hmem
          apply hnohash
          apply splitScheme_snd_subset u
          rw [hsp]
          exact splitNetloc_snd_subset r1 _ (by rw [hsn]; exact hmem)
        rw [splitAtFirst_append_first '#' r2 _ hr2,
          splitAtFirst_not_mem '#' r2 hr2]
        rfl
      · rw [if_neg hbr, if_neg hbr]

/-- The normalization tail of `_normalize_url` ignores the fragment: parse
results equal in every component but the fragment normalize identically. -/
theorem normalize_tail_congr (p q : ParseResult)
    (hpq : ({ q with fragment := ([] : List Char) } : ParseResult) =
      { p with fragment := ([] : List Char) }) :
    (let netloc := if q.netloc ≠ [] then pyLowerList q.netloc else []
     let normalized := urlunparseNoFrag { q with netloc := netloc }
     if pyStrip normalized = [] then none else some (⟨normalized⟩ : String)) =
    (let netloc := if p.netloc ≠ [] then pyLowerList p.netloc else []
     let normalized := urlunparseNoFrag { p with netloc := netloc }
     if pyStrip normalized = [] then none
     else some (⟨normalized⟩ : String)) := by
  cases p with
  | mk ps pn pp ppr pq pf =>
    cases q with
    | mk qs qn qp qpr qq qf =>
      simp only [ParseResult.mk.injEq, and_true] at hpq
      obtain ⟨h1, h2, h3, h4, h5⟩ := hpq
      subst h1
      subst h2
      subst h3
      subst h4
      subst h5
      rfl

/-- `_normalize_url` strips the fragment: appending `#fragment` to a
hash-free printable URL does not change its normalization. -/
theorem normalize_url_fragment (u f : String) (hne : u.data ≠ [])
    (hplain : ∀ c ∈ u.data, 32 < c.val.toNat ∧ pyIsSpace c = false)
    (hnohash : ('#' : Char) ∉ u.data) :
    normalize_url (some (u ++ "#" ++ f)) = normalize_url (some u) := by
  have hws : ∀ c ∈ u.data, pyIsSpace c = false := fun c hc => (hplain c hc).2
  have h32 : ∀ c ∈ u.data, 32 < c.val.toNat := fun c hc => (hplain c hc).1
  have hdata : (u ++ "#" ++ f).data = u.data ++ '#' :: f.data := by
    rw [String.data_append, String.data_append, List.append_assoc]
    rfl
  unfold normalize_url
  dsimp only
  rw [hdata]
  have hsL : pyStrip (u.data ++ '#' :: f.data) =
      u.data ++ '#' :: (f.data.reverse.dropWhile pyIsSpace).reverse := by
    show (((u.data ++ '#' :: f.data).dropWhile pyIsSpace).reverse.dropWhile
      pyIsSpace).reverse = _
    rw [stripBoth_plain_front pyIsSpace u.data ('#' :: f.data) hne hws,
      List.reverse_cons,
      dropWhile_append_stop pyIsSpace '#' (by decide) f.data.reverse [],
      List.reverse_append]
    rfl
  have hsR : pyStrip u.data = u.data := stripBoth_plain pyIsSpace u.data hws
  rw [hsL, hsR]
  rw [if_neg (show ¬(u.data ++ '#' :: (f.data.reverse.dropWhile
      pyIsSpace).reverse = []) from by simp), if_neg hne]
  have hup := urlparseModel_append_hash u.data
    ((f.data.reverse.dropWhile pyIsSpace).reverse) hne h32 hnohash
  cases hR : urlparseModel u.data with
  | none =>
    rw [hR] at hup
    have hL : urlparseModel (u.data ++ '#' ::
        (f.data.reverse.dropWhile pyIsSpace).reverse) = none := by
      cases hL' : urlparseModel (u.data ++ '#' ::
          (f.data.reverse.dropWhile pyIsSpace).reverse) with
      | none => rfl
      | some q =>
        rw [hL'] at hup
        cases hup
    rw [hL]
  | some p =>
    rw [hR] at hup
    cases hL : urlparseModel (u.data ++ '#' ::
        (f.data.reverse.dropWhile pyIsSpace).reverse) with
    | none =>
      rw [hL] at hup
      cases hup
    | some q =>
      rw [hL] at hup
      injection hup with hpq
      have hpq' : ({ q with fragment := ([] : List Char) } : ParseResult) =
          { p with fragment := ([] : List Char) } := hpq
      exact normalize_tail_congr p q hpq'

/-- A valid scheme prefix before the first `:` is split off and
lower-cased. -/
theorem splitScheme_front (s rest : List Char) (hne : s ≠ [])
    (halpha : (s.headD ' ').isAlpha = true) (hall : s.all schemeChar = true) :
    splitScheme (s ++ ':' :: rest) = (pyLowerList s, rest) := by
  have hcol : (':' : Char) ∉ s := by
    intro hmem
    have := List.all_eq_true.mp hall _ hmem
    exact absurd this (by decide)
  unfold splitScheme
  rw [splitAtFirst_append_first ':' s rest hcol]
  dsimp only
  rw [if_pos (by rw [Bool.and_eq_true, decide_eq_true_eq]; exact ⟨hne, halpha⟩),
    if_pos hall]

/-- A list with no occurrence of an element does not `contains` it. -/
theorem contains_eq_false_of_not_mem (l : List Char) (x : Char)
    (h : x ∉ l) : l.contains x = false := by
  induction l with
  | nil => rfl
  | cons c cs ih =>
    rw [List.mem_cons, not_or] at h
    show (x == c || cs.contains x) = false
    rw [beq_eq_false_iff_ne.mpr h.1, ih h.2]
    rfl

/-- `dropWhile` empties a list all of whose members satisfy the
predicate. -/
theorem dropWhile_nil_of_all {α : Type} (p : α → Bool) :
    ∀ (l : List α), (∀ c ∈ l, p c = true) → l.dropWhile p = [] := by
  intro l
  induction l with
  | nil => intro _; rfl
  | cons c cs ih =>
    intro h
    rw [List.dropWhile_cons, if_pos (h c (List.mem_cons_self _ _)),
      ih (fun x hx => h x (List.mem_cons_of_mem _ hx))]

/-- `_splitnetloc` on `//host...` where the host has no delimiter and the
rest is empty or starts with a delimiter. -/
theorem splitNetloc_host (hst r : List Char)
    (hall : ∀ c ∈ hst, (!netlocDelim c) = true)
    (hr : r = [] ∨ ∃ d r2, r = d :: r2 ∧ netlocDelim d = true) :
    splitNetloc ('/' :: '/' :: (hst ++ r)) = (hst, r) := by
  rw [show splitNetloc ('/' :: '/' :: (hst ++ r)) =
    ((hst ++ r).takeWhile (fun c => !netlocDelim c),
     (hst ++ r).dropWhile (fun c => !netlocDelim c)) from rfl]
  rcases hr with rfl | ⟨d, r2, rfl, hd⟩
  · rw [List.append_nil, takeWhile_eq_self_of_all _ hst hall,
      dropWhile_nil_of_all _ hst hall]
  · rw [takeWhile_append_stop _ d (by rw [hd]; rfl) hst r2,
      dropWhile_append_stop _ d (by rw [hd]; rfl) hst r2,
      takeWhile_eq_self_of_all _ hst hall, dropWhile_nil_of_all _ hst hall,
      List.nil_append]

/-- `_normalize_url` lower-cases the host: two URLs differing only in the
case of their (bracket- and delimiter-free) host normalize identically. -/
theorem normalize_url_host_case (s hst hst2 r : String)
    (hs_ne : s.data ≠ []) (hs_alpha : ((s.data).headD ' ').isAlpha = true)
    (hs_all : (s.data).all schemeChar = true)
    (hs_plain : ∀ c ∈ s.data, 32 < c.val.toNat ∧ pyIsSpace c = false)
    (hh_lower : pyLowerList hst.data = pyLowerList hst2.data)
    (hh_ne : hst.data ≠ []) (hh_ne2 : hst2.data ≠ [])
    (hh_plain : ∀ c ∈ hst.data, 32 < c.val.toNat ∧ pyIsSpace c = false ∧
      (!netlocDelim c) = true ∧ c ≠ '[' ∧ c ≠ ']')
    (hh_plain2 : ∀ c ∈ hst2.data, 32 < c.val.toNat ∧ pyIsSpace c = false ∧
      (!netlocDelim c) = true ∧ c ≠ '[' ∧ c ≠ ']')
    (hr_plain : ∀ c ∈ r.data, 32 < c.val.toNat ∧ pyIsSpace c = false)
    (hr_head : r.data = [] ∨
      ∃ d r2, r.data = d :: r2 ∧ netlocDelim d = true) :
    normalize_url (some (s ++ "://" ++ hst ++ r)) =
      normalize_url (some (s ++ "://" ++ hst2 ++ r)) := by
  have hwhole : ∀ (h : String),
      (∀ c ∈ h.data, 32 < c.val.toNat ∧ pyIsSpace c = false) →
      ∀ c ∈ s.data ++ ':' :: '/' :: '/' :: (h.data ++ r.data),
        32 < c.val.toNat ∧ pyIsSpace c = false := by
    intro h hh c hc
    rcases List.mem_append.mp hc with hc | hc
    · exact hs_plain c hc
    · rcases List.mem_cons.mp hc with rfl | hc
      · exact ⟨by decide, by decide⟩
      · rcases List.mem_cons.mp hc with rfl | hc
        · exact ⟨by decide, by decide⟩
        · rcases List.mem_cons.mp hc with rfl | hc
          · exact ⟨by decide, by decide⟩
          · rcases List.mem_append.mp hc with hc | hc
            · exact hh c hc
            · exact hr_plain c hc
  have hw1 := hwhole hst
    (fun c hc => ⟨(hh_plain c hc).1, (hh_plain c hc).2.1⟩)
  have hw2 := hwhole hst2
    (fun c hc => ⟨(hh_plain2 c hc).1, (hh_plain2 c hc).2.1⟩)
  have hun : ∀ (w : List Char), (∀ c ∈ w, 32 < c.val.toNat) →
      w.filter (fun c => !unsafeUrlByte c) = w := by
    intro w hw
    apply List.filter_eq_self.mpr
    intro c hc
    have h32 := hw c hc
    have hne9 : c ≠ '\t' := by
      intro he; rw [he] at h32; exact absurd h32 (by decide)
    have hne13 : c ≠ '\r' := by
      intro he; rw [he] at h32; exact absurd h32 (by decide)
    have hne10 : c ≠ '\n' := by
      intro he; rw [he] at h32; exact absurd h32 (by decide)
    show (!unsafeUrlByte c) = true
    unfold unsafeUrlByte
    rw [beq_eq_false_iff_ne.mpr hne9, beq_eq_false_iff_ne.mpr hne13,
      beq_eq_false_iff_ne.mpr hne10]
    rfl
  have hc0f : ∀ (w : List Char), (∀ c ∈ w, 32 < c.val.toNat) →
      ((w.dropWhile c0ControlOrSpace).reverse.dropWhile
        c0ControlOrSpace).reverse = w := by
    intro w hw
    apply stripBoth_plain
    intro c hc
    apply decide_eq_false
    intro hle
    have hle' : c.val.toNat ≤ 32 := hle
    have := hw c hc
    omega
  have hdata : ∀ (h : String), (s ++ "://" ++ h ++ r).data =
      s.data ++ ':' :: '/' :: '/' :: (h.data ++ r.data) := by
    intro h
    rw [String.data_append, String.data_append, String.data_append,
      List.append_assoc, List.append_assoc]
    rfl
  have hbrk : ∀ (h : String),
      (∀ c ∈ h.data, 32 < c.val.toNat ∧ pyIsSpace c = false ∧
        (!netlocDelim c) = true ∧ c ≠ '[' ∧ c ≠ ']') →
      netlocBracketsOk h.data = true := by
    intro h hh
    have h1 : ('[' : Char) ∉ h.data := fun hm => ((hh _ hm).2.2.2.1) rfl
    have h2 : (']' : Char) ∉ h.data := fun hm => ((hh _ hm).2.2.2.2) rfl
    unfold netlocBracketsOk
    rw [contains_eq_false_of_not_mem _ _ h1,
      contains_eq_false_of_not_mem _ _ h2]
    rfl
  unfold normalize_url urlparseModel
  dsimp only
  rw [hdata hst, hdata hst2]
  have hsw1 : pyStrip (s.data ++ ':' :: '/' :: '/' ::
      (hst.data ++ r.data)) =
      s.data ++ ':' :: '/' :: '/' :: (hst.data ++ r.data) :=
    stripBoth_plain pyIsSpace _ (fun c hc => (hw1 c hc).2)
  have hsw2 : pyStrip (s.data ++ ':' :: '/' :: '/' ::
      (hst2.data ++ r.data)) =
      s.data ++ ':' :: '/' :: '/' :: (hst2.data ++ r.data) :=
    stripBoth_plain pyIsSpace _ (fun c hc => (hw2 c hc).2)
  rw [hsw1, hsw2]
  rw [if_neg (show ¬(s.data ++ ':' :: '/' :: '/' ::
      (hst.data ++ r.data) = []) from by simp),
    if_neg (show ¬(s.data ++ ':' :: '/' :: '/' ::
      (hst2.data ++ r.data) = []) from by simp)]
  rw [hc0f _ (fun c hc => (hw1 c hc).1), hc0f _ (fun c hc => (hw2 c hc).1),
    hun _ (fun c hc => (hw1 c hc).1), hun _ (fun c hc => (hw2 c hc).1)]
  rw [splitScheme_front s.data ('/' :: '/' :: (hst.data ++ r.data))
      hs_ne hs_alpha hs_all,
    splitScheme_front s.data ('/' :: '/' :: (hst2.data ++ r.data))
      hs_ne hs_alpha hs_all]
  dsimp only
  rw [splitNetloc_host hst.data r.data
      (fun c hc => (hh_plain c hc).2.2.1) hr_head,
    splitNetloc_host hst2.data r.data
      (fun c hc => (hh_plain2 c hc).2.2.1) hr_head]
  dsimp only
  rw [if_pos (hbrk hst hh_plain), if_pos (hbrk hst2 hh_plain2)]
  dsimp only
  rw [if_pos hh_ne, if_pos hh_ne2, hh_lower]

/-- Both identity functions are unchanged by appending `#fragment` to a
hash-free printable URL. -/
theorem identity_url_fragment (item : ItemDict) (u f : String)
    (hne : u.data ≠ [])
    (hplain : ∀ c ∈ u.data, 32 < c.val.toNat ∧ pyIsSpace c = false)
    (hnohash : ('#' : Char) ∉ u.data) :
    item_identity { item with url := some (u ++ "#" ++ f) } =
      item_identity { item with url := some u } ∧
    identity_for_row { item with url := some (u ++ "#" ++ f) } =
      identity_for_row { item with url := some u } := by
  have hnorm := normalize_url_fragment u f hne hplain hnohash
  constructor
  · unfold item_identity
    dsimp only
    rw [hnorm]
  · unfold identity_for_row
    dsimp only
    rw [hnorm]

/-- Both identity functions are unchanged by case changes of the title of an
item without a URL. -/
theorem identity_title_case (item : ItemDict) (t t2 : String)
    (h : pyLowerList t.data = pyLowerList t2.data) :
    identity_for_row { item with url := none, title := some t } =
      identity_for_row { item with url := none, title := some t2 } ∧
    item_identity { item with url := none, title := some t } =
      item_identity { item with url := none, title := some t2 } := by
  have ht : (collapseWsStr
        ⟨pyLowerList (pyStrip ((some t).getD "").data)⟩ : String) =
      collapseWsStr ⟨pyLowerList (pyStrip ((some t2).getD "").data)⟩ :=
    congrArg String.mk (titleComponent_case t.data t2.data h)
  constructor
  · unfold identity_for_row
    dsimp only
    rw [show normalize_url none = none from rfl]
    dsimp only
    rw [ht]
  · unfold item_identity
    dsimp only
    rw [show normalize_url none = none from rfl]
    dsimp only
    rw [ht]

/-- Both identity functions are unchanged by collapsing whitespace runs of
the title of an item without a URL. -/
theorem identity_title_collapse (item : ItemDict) (t : String) :
    identity_for_row
        { item with url := none, title := some (collapseWsStr t) } =
      identity_for_row { item with url := none, title := some t } ∧
    item_identity
        { item with url := none, title := some (collapseWsStr t) } =
      item_identity { item with url := none, title := some t } := by
  have ht : (collapseWsStr
        ⟨pyLowerList
          (pyStrip ((some (collapseWsStr t)).getD "").data)⟩ : String) =
      collapseWsStr ⟨pyLowerList (pyStrip ((some t).getD "").data)⟩ :=
    congrArg String.mk (titleComponent_collapse t.data)
  constructor
  · unfold identity_for_row
    dsimp only
    rw [show normalize_url none = none from rfl]
    dsimp only
    rw [ht]
  · unfold item_identity
    dsimp only
    rw [show normalize_url none = none from rfl]
    dsimp only
    rw [ht]

/-- Both identity functions are unchanged by trimming the source of an item
without a URL. -/
theorem identity_source_trim (item : ItemDict) (src : String) :
    identity_for_row
        { item with url := none, source := some (pyStripStr src) } =
      identity_for_row { item with url := none, source := some src } ∧
    item_identity
        { item with url := none, source := some (pyStripStr src) } =
      item_identity { item with url := none, source := some src } := by
  have hs1 : (⟨pyLowerList
        (pyStrip ((some (pyStripStr src)).getD "").data)⟩ : String) =
      ⟨pyLowerList (pyStrip ((some src).getD "").data)⟩ :=
    congrArg String.mk (congrArg pyLowerList (pyStrip_idem src.data))
  have hs2 : pyStripStr (pyStripStr src) = pyStripStr src :=
    congrArg String.mk (pyStrip_idem src.data)
  constructor
  · unfold identity_for_row
    dsimp only
    rw [show normalize_url none = none from rfl]
    dsimp only
    rw [hs1]
  · unfold item_identity
    dsimp only
    rw [show normalize_url none = none from rfl]
    dsimp only
    rw [show pyStripStr ((some (pyStripStr src)).getD "") =
      pyStripStr src from hs2]
    rfl

/-- **C2 (amended)**: for an item with a URL the identity is unchanged when
a `#fragment` is appended to a hash-free printable URL, and
`_normalize_url` is invariant under case changes of the host; for an item
without a URL the identity is unchanged under case changes and
whitespace-run collapsing of the *title* and under *trimming* of the
source — but not under case changes of the source in `_item_identity`
(which does not lower-case the source) nor under whitespace-run collapsing
inside the source in either function (see the counterexample). -/
theorem identity_stability_amended (item : ItemDict) (u f : String)
    (hne : u.data ≠ [])
    (hplain : ∀ c ∈ u.data, 32 < c.val.toNat ∧ pyIsSpace c = false)
    (hnohash : ('#' : Char) ∉ u.data)
    (s hst hst2 r : String)
    (hs_ne : s.data ≠ []) (hs_alpha : ((s.data).headD ' ').isAlpha = true)
    (hs_all : (s.data).all schemeChar = true)
    (hs_plain : ∀ c ∈ s.data, 32 < c.val.toNat ∧ pyIsSpace c = false)
    (hh_lower : pyLowerList hst.data = pyLowerList hst2.data)
    (hh_ne : hst.data ≠ []) (hh_ne2 : hst2.data ≠ [])
    (hh_plain : ∀ c ∈ hst.data, 32 < c.val.toNat ∧ pyIsSpace c = false ∧
      (!netlocDelim c) = true ∧ c ≠ '[' ∧ c ≠ ']')
    (hh_plain2 : ∀ c ∈ hst2.data, 32 < c.val.toNat ∧ pyIsSpace c = false ∧
      (!netlocDelim c) = true ∧ c ≠ '[' ∧ c ≠ ']')
    (hr_plain : ∀ c ∈ r.data, 32 < c.val.toNat ∧ pyIsSpace c = false)
    (hr_head : r.data = [] ∨
      ∃ d r2, r.data = d :: r2 ∧ netlocDelim d = true)
    (t t2 src : String)
    (hlower : pyLowerList t.data = pyLowerList t2.data) :
    (item_identity { item with url := some (u ++ "#" ++ f) } =
       item_identity { item with url := some u } ∧
     identity_for_row { item with url := some (u ++ "#" ++ f) } =
       identity_for_row { item with url := some u }) ∧
    normalize_url (some (s ++ "://" ++ hst ++ r)) =
      normalize_url (some (s ++ "://" ++ hst2 ++ r)) ∧
    (identity_for_row { item with url := none, title := some t } =
       identity_for_row { item with url := none, title := some t2 } ∧
     item_identity { item with url := none, title := some t } =
       item_identity { item with url := none, title := some t2 }) ∧
    (identity_for_row
        { item with url := none, title := some (collapseWsStr t) } =
       identity_for_row { item with url := none, title := some t } ∧
     item_identity
        { item with url := none, title := some (collapseWsStr t) } =
       item_identity { item with url := none, title := some t }) ∧
    (identity_for_row
        { item with url := none, source := some (pyStripStr src) } =
       identity_for_row { item with url := none, source := some src } ∧
     item_identity
        { item with url := none, source := some (pyStripStr src) } =
       item_identity { item with url := none, source := some src }) :=
  ⟨identity_url_fragment item u f hne hplain hnohash,
   normalize_url_host_case s hst hst2 r hs_ne hs_alpha hs_all hs_plain
     hh_lower hh_ne hh_ne2 hh_plain hh_plain2 hr_plain hr_head,
   identity_title_case item t t2 hlower,
   identity_title_collapse item t,
   identity_source_trim item src⟩

/-- **C2 counterexample**: whitespace-run collapsing inside the source
changes `_identity_for_row`, and a case change of the source changes
`_item_identity` — the identity is *not* invariant under case/whitespace
changes of the source. -/
theorem identity_source_sensitivity_cex :
    identity_for_row { title := some "t", source := some "a  b" } ≠
      identity_for_row { title := some "t", source := some "a b" } ∧
    item_identity
        { title := some "t", source := some "S", platform := some "p" } ≠
      item_identity
        { title := some "t", source := some "s", platform := some "p" } := by
  constructor <;> decide

/-- **C2 witness**: the amended theorem at `https://a.com/x` with fragment
`frag`, hosts `A.com` / `a.com`, and the spec's `Hello  World` title
example. -/
theorem identity_stability_amended_witness :
    (("https://a.com/x" : String).data ≠ [] ∧
     (∀ c ∈ ("https://a.com/x" : String).data,
       32 < c.val.toNat ∧ pyIsSpace c = false) ∧
     ('#' : Char) ∉ ("https://a.com/x" : String).data ∧
     pyLowerList ("A.com" : String).data =
       pyLowerList ("a.com" : String).data ∧
     pyLowerList ("Hello  World" : String).data =
       pyLowerList ("HELLO  world" : String).data) ∧
    ((item_identity
        { wItemP with url := some ("https://a.com/x" ++ "#" ++ "frag") } =
       item_identity { wItemP with url := some "https://a.com/x" } ∧
      identity_for_row
        { wItemP with url := some ("https://a.com/x" ++ "#" ++ "frag") } =
       identity_for_row { wItemP with url := some "https://a.com/x" }) ∧
     normalize_url (some ("https" ++ "://" ++ "A.com" ++ "/x")) =
       normalize_url (some ("https" ++ "://" ++ "a.com" ++ "/x")) ∧
     (identity_for_row
         { wItemP with url := none, title := some "Hello  World" } =
        identity_for_row
         { wItemP with url := none, title := some "HELLO  world" } ∧
      item_identity
         { wItemP with url := none, title := some "Hello  World" } =
        item_identity
         { wItemP with url := none, title := some "HELLO  world" }) ∧
     (identity_for_row
         { wItemP with
           url := none, title := some (collapseWsStr "Hello  World") } =
        identity_for_row
         { wItemP with url := none, title := some "Hello  World" } ∧
      item_identity
         { wItemP with
           url := none, title := some (collapseWsStr "Hello  World") } =
        item_identity
         { wItemP with url := none, title := some "Hello  World" }) ∧
     (identity_for_row
         { wItemP with url := none, source := some (pyStripStr " s ") } =
        identity_for_row { wItemP with url := none, source := some " s " } ∧
      item_identity
         { wItemP with url := none, source := some (pyStripStr " s ") } =
        item_identity
         { wItemP with url := none, source := some " s " })) :=
  ⟨⟨by decide, by decide, by decide, by decide, by decide⟩,
   identity_stability_amended wItemP "https://a.com/x" "frag" (by decide)
     (by decide) (by decide) "https" "A.com" "a.com" "/x" (by decide)
     (by decide) (by decide) (by decide) (by decide) (by decide) (by decide)
     (by decide) (by decide) (by decide)
     (Or.inr ⟨'/', ['x'], rfl, by decide⟩) "Hello  World" "HELLO  world"
     " s " (by decide)⟩

end NewsCollector
